import Mathlib

/-!
# The fixed-size block memory manager of `MKW40Z/Framework/MemManager.c`

A shallow embedding of the allocator as it is compiled with `MEM_STATISTICS`
defined and `MEM_TRACKING`, `MEM_DEBUG` not defined.

* Addresses and pointers are natural numbers, `0` is `NULL`.
* Values the C file takes from headers that are not part of the sources
  (the pool table `PoolsDetails_c`, `sizeof(listHeader_t)`, the address of
  `memHeap`, the width of the statistics counters) are fields of `Config`.
* The integer widths written in `MemManager.c` itself are kept:
  `uint8_t poolN`, `uint16_t gFreeMessagesCount`, the `uint16_t` result of
  `MEM_BufferGetSize`, the `uint32_t` accumulator of `MEM_GetAvailableBlocks`.
* The critical sections (`OSA_EnterCritical` / `OSA_ExitCritical`) make every
  call atomic; a call is one function from state to state.
-/

namespace MemManager

/-- Modelled from the spec: `poolInfo_t`, one row of the pool descriptor table
(`MemManager.h` is not in the sources): the payload size of a block and the
number of blocks of the class. -/
structure poolInfo_t where
  blockSize : Nat
  poolSize : Nat
deriving DecidableEq

/-- The status codes `MemManager.c` returns. -/
inductive memStatus_t where
  | MEM_SUCCESS_c
  | MEM_ALLOC_ERROR_c
  | MEM_FREE_ERROR_c
  | MEM_UNKNOWN_ERROR_c
deriving DecidableEq

/-- What the build supplies from outside `MemManager.c`: the rows of
`PoolsDetails_c` (without the `{0, 0}` termination tag), `sizeof(listHeader_t)`,
the address of `memHeap` and the bit width of the `poolStat_t` counters. -/
structure Config where
  PoolsDetails_c : List poolInfo_t
  sizeofListHeader : Nat
  memHeap : Nat
  statBits : Nat
deriving DecidableEq

/-- The array `poolInfo[]`: the rows of `PoolsDetails_c` followed by the
termination tag `{0, 0}`. -/
def poolInfo (c : Config) : List poolInfo_t :=
  c.PoolsDetails_c ++ [{ blockSize := 0, poolSize := 0 }]

/-- The constant `heapSize_c`: the sum over the table of
`(sizeof(listHeader_t) + blockSize) * poolSize`. -/
def heapSize_c (c : Config) : Nat :=
  (c.PoolsDetails_c.map fun e => (c.sizeofListHeader + e.blockSize) * e.poolSize).sum

/-- The counters of `poolStat_t` other than `freeFailures`. -/
inductive OtherCounter where
  | numBlocks
  | allocatedBlocks
  | allocatedBlocksPeak
  | allocationFailures
deriving DecidableEq

/-- A value of type `pools_t *`.
* `pool i` is `&memPools[i]`.
* `skew i f` is the address, different from every `&memPools[j]`, at which the
  member `poolStatistics.freeFailures` is the object
  `memPools[i].poolStatistics.f` (the pool address displaced by the distance
  between the two counters).
* `away a` is any other address `a`: nothing reached through it lies in
  `memPools` or in `gFreeMessagesCount`. -/
inductive PoolPtr where
  | pool (i : Nat)
  | skew (i : Nat) (f : OtherCounter)
  | away (a : Nat)
deriving DecidableEq

/-- Modelled from the spec: `poolStat_t` (declared in `MemManager.h`, not in the
sources), the per-pool statistics: total block count, currently allocated
count, peak allocated count, allocation-failure count, free-failure count. -/
structure poolStat_t where
  numBlocks : Nat
  allocatedBlocks : Nat
  allocatedBlocksPeak : Nat
  allocationFailures : Nat
  freeFailures : Nat
deriving DecidableEq

/-- Modelled from the spec: `pools_t` (declared in `MemManager.h`, not in the
sources), the run-time record of a pool: the free list (`anchor`, the header
addresses of the free blocks, head first), the block size of the next class
(0 for the last pool), the block size, the statistics. -/
structure pools_t where
  anchor : List Nat
  nextBlockSize : Nat
  blockSize : Nat
  poolStatistics : poolStat_t
deriving DecidableEq

/-- Modelled from the spec: `listHeader_t` (declared in `MemManager.h`, not in
the sources), the header in front of every block. `list` is `link.list`, the
list the block is enqueued in (`none` is `NULL`: currently allocated; `some i`
is the free list of `memPools[i]`); `pParentPool` is the back-reference to the
owning pool. The `next` / `prev` links are carried by the order of `anchor`. -/
structure listHeader_t where
  list : Option Nat
  pParentPool : PoolPtr
deriving DecidableEq

/-- The memory the allocator works on: the array `memPools`, the content of
memory read as a `listHeader_t` at each address, and `gFreeMessagesCount`. -/
structure MemState where
  memPools : List pools_t
  hdr : Nat → listHeader_t
  gFreeMessagesCount : Nat

/-- Store into `link.list` of the header at address `e`. -/
def setList (hdr : Nat → listHeader_t) (e : Nat) (v : Option Nat) : Nat → listHeader_t :=
  fun a => if a = e then { hdr a with list := v } else hdr a

/-- Store into `pParentPool` of the header at address `e`. -/
def setParent (hdr : Nat → listHeader_t) (e : Nat) (v : PoolPtr) : Nat → listHeader_t :=
  fun a => if a = e then { hdr a with pParentPool := v } else hdr a

/-- Modelled from the spec: `ListInit` (`GenericList.c` is not in the sources):
the anchor becomes the empty list. The second argument is the capacity
`MEM_Init` passes; the spec gives it no effect. -/
def ListInit (_max : Nat) : List Nat := []

/-- Modelled from the spec: `ListAddTail` (`GenericList.c` is not in the
sources): the element is appended at the tail of the list and its membership
field `link.list` is set to that list (`listRef` is the pool index of the
anchor). -/
def ListAddTail (listRef : Nat) (list : List Nat) (hdr : Nat → listHeader_t) (element : Nat) :
    List Nat × (Nat → listHeader_t) :=
  (list ++ [element], setList hdr element (some listRef))

/-- Modelled from the spec: `ListRemoveHead` (`GenericList.c` is not in the
sources): pops the head of the list and clears its membership field; the
result is the element, `none` (`NULL`) when the list is empty. -/
def ListRemoveHead (list : List Nat) (hdr : Nat → listHeader_t) :
    Option Nat × List Nat × (Nat → listHeader_t) :=
  match list with
  | [] => (none, [], hdr)
  | element :: tl => (some element, tl, setList hdr element none)

/-- Modelled from the spec: `ListGetSize` (`GenericList.c` is not in the
sources): the number of elements of the list. -/
def ListGetSize (list : List Nat) : Nat := list.length

/-- The variables of `MEM_Init` while it fills one pool: the pool `*pPools`,
the cursor `pHeap`, the header memory and `gFreeMessagesCount`. -/
structure InitVars where
  pPools : pools_t
  pHeap : Nat
  hdr : Nat → listHeader_t
  gFreeMessagesCount : Nat

/-- The inner loop `while(poolN)` of `MEM_Init` for pool `i`: each round links the
block at `pHeap` to the tail of the free list, sets its back-reference, counts
it and advances `pHeap` by `blockSize + sizeof(listHeader_t)`. -/
def MEM_Init.blocks (c : Config) (i : Nat) (blockSize : Nat) : Nat → InitVars → InitVars
  | 0, v => v
  | poolN + 1, v =>
    let r := ListAddTail i v.pPools.anchor v.hdr v.pHeap
    MEM_Init.blocks c i blockSize poolN
      { pPools := { v.pPools with
          anchor := r.1
          poolStatistics := { v.pPools.poolStatistics with
            numBlocks := (v.pPools.poolStatistics.numBlocks + 1) % 2 ^ c.statBits } }
        pHeap := v.pHeap + (blockSize + c.sizeofListHeader)
        hdr := setParent r.2 v.pHeap (PoolPtr.pool i)
        gFreeMessagesCount := (v.gFreeMessagesCount + 1) % 65536 }

/-- The first part of a round of the outer loop of `MEM_Init`, for row
`pPoolInfo` and pool `i`: `ListInit`, the statistics set to 0, then the loop
`while(poolN)`. `poolN` is a `uint8_t`, so it receives `poolSize` modulo 256. -/
def MEM_Init.pool (c : Config) (i : Nat) (pPoolInfo : poolInfo_t) (pHeap : Nat)
    (hdr : Nat → listHeader_t) (g : Nat) : InitVars :=
  let poolN := pPoolInfo.poolSize % 256
  MEM_Init.blocks c i pPoolInfo.blockSize poolN
    { pPools :=
        { anchor := ListInit poolN
          nextBlockSize := 0
          blockSize := 0
          poolStatistics :=
            { numBlocks := 0, allocatedBlocks := 0, allocatedBlocksPeak := 0,
              allocationFailures := 0, freeFailures := 0 } }
      pHeap := pHeap
      hdr := hdr
      gFreeMessagesCount := g }

/-- The outer loop `for(;;)` of `MEM_Init`, at row `pPoolInfo` (the head of the
list) and pool `i`. The loop ends after the first pool whose following row has
block size 0. -/
def MEM_Init.pools (c : Config) :
    List poolInfo_t → Nat → Nat → (Nat → listHeader_t) → Nat →
      List pools_t × (Nat → listHeader_t) × Nat
  | [], _, _, hdr, g => ([], hdr, g)
  | pPoolInfo :: rest, i, pHeap, hdr, g =>
    let v := MEM_Init.pool c i pPoolInfo pHeap hdr g
    let nextBlockSize := match rest with
      | [] => 0
      | next :: _ => next.blockSize
    let pool : pools_t :=
      { v.pPools with blockSize := pPoolInfo.blockSize, nextBlockSize := nextBlockSize }
    if nextBlockSize = 0 then ([pool], v.hdr, v.gFreeMessagesCount)
    else
      let r := MEM_Init.pools c rest (i + 1) v.pHeap v.hdr v.gFreeMessagesCount
      (pool :: r.1, r.2.1, r.2.2)

/-- `MEM_Init`: slices `memHeap` into blocks following `poolInfo` and fills the
free lists. The state before the call only supplies the memory content. -/
def MEM_Init (c : Config) (boot : MemState) : memStatus_t × MemState :=
  let r := MEM_Init.pools c (poolInfo c) 0 c.memHeap boot.hdr 0
  (memStatus_t.MEM_SUCCESS_c, { memPools := r.1, hdr := r.2.1, gFreeMessagesCount := r.2.2 })

/-- The loop of `MEM_GetAvailableBlocks`, with `pPools` at the head of the
list; `pTotalCount` is a `uint32_t`. The list is empty only if the cursor has
left `memPools` (no pool with `nextBlockSize == 0`). -/
def MEM_GetAvailableBlocks.loop (size : Nat) : List pools_t → Nat → Nat
  | [], pTotalCount => pTotalCount
  | pPools :: rest, pTotalCount =>
    let total :=
      if size ≤ pPools.blockSize then (pTotalCount + ListGetSize pPools.anchor) % 2 ^ 32
      else pTotalCount
    if pPools.nextBlockSize = 0 then total
    else MEM_GetAvailableBlocks.loop size rest total

/-- `MEM_GetAvailableBlocks`: the number of free blocks in the pools whose
block size is at least `size`. -/
def MEM_GetAvailableBlocks (s : MemState) (size : Nat) : Nat × MemState :=
  (MEM_GetAvailableBlocks.loop size s.memPools 0, s)

/-- The exit of `MEM_BufferAlloc` after its loop, with `pPools` at pool `i`:
`allocationFailures++`, result `NULL`. -/
def MEM_BufferAlloc.fail (c : Config) (s : MemState) (i : Nat) (pPools : pools_t) :
    Nat × MemState :=
  let pool : pools_t :=
    { pPools with poolStatistics := { pPools.poolStatistics with
        allocationFailures := (pPools.poolStatistics.allocationFailures + 1) % 2 ^ c.statBits } }
  (0, { s with memPools := s.memPools.set i pool })

/-- The loop `while(numBytes)` of `MEM_BufferAlloc`, with `pPools` at pool `i`
(the head of the list). The list is empty only if the cursor has left
`memPools`, which needs a last pool with `nextBlockSize != 0`; `MEM_Init` never
leaves one. -/
def MEM_BufferAlloc.loop (c : Config) (s : MemState) : List pools_t → Nat → Nat → Nat × MemState
  | [], _, _ => (0, s)
  | pPools :: rest, i, numBytes =>
    if numBytes = 0 then MEM_BufferAlloc.fail c s i pPools
    else if numBytes ≤ pPools.blockSize then
      match ListRemoveHead pPools.anchor s.hdr with
      | (some pBlock, anchor, hdr) =>
        let allocatedBlocks := (pPools.poolStatistics.allocatedBlocks + 1) % 2 ^ c.statBits
        let pool : pools_t :=
          { pPools with
            anchor := anchor
            poolStatistics := { pPools.poolStatistics with
              allocatedBlocks := allocatedBlocks
              allocatedBlocksPeak :=
                if allocatedBlocks > pPools.poolStatistics.allocatedBlocksPeak
                then allocatedBlocks else pPools.poolStatistics.allocatedBlocksPeak } }
        (pBlock + c.sizeofListHeader,
          { memPools := s.memPools.set i pool
            hdr := hdr
            gFreeMessagesCount := (s.gFreeMessagesCount + 65535) % 65536 })
      | (none, _, _) =>
        if numBytes > pPools.nextBlockSize then MEM_BufferAlloc.fail c s i pPools
        else if pPools.nextBlockSize ≠ 0 then
          MEM_BufferAlloc.loop c s rest (i + 1) pPools.nextBlockSize
        else MEM_BufferAlloc.fail c s i pPools
    else if pPools.nextBlockSize ≠ 0 then MEM_BufferAlloc.loop c s rest (i + 1) numBytes
    else MEM_BufferAlloc.fail c s i pPools

/-- `MEM_BufferAlloc`: the payload address of the block handed out, `NULL` (0)
on failure, and the state after the call. -/
def MEM_BufferAlloc (c : Config) (s : MemState) (numBytes : Nat) : Nat × MemState :=
  MEM_BufferAlloc.loop c s s.memPools 0 numBytes

/-- Increment of one counter of a `poolStat_t`, in the width of the counters. -/
def bumpCounter (c : Config) (f : Option OtherCounter) (st : poolStat_t) : poolStat_t :=
  match f with
  | none => { st with freeFailures := (st.freeFailures + 1) % 2 ^ c.statBits }
  | some OtherCounter.numBlocks => { st with numBlocks := (st.numBlocks + 1) % 2 ^ c.statBits }
  | some OtherCounter.allocatedBlocks =>
    { st with allocatedBlocks := (st.allocatedBlocks + 1) % 2 ^ c.statBits }
  | some OtherCounter.allocatedBlocksPeak =>
    { st with allocatedBlocksPeak := (st.allocatedBlocksPeak + 1) % 2 ^ c.statBits }
  | some OtherCounter.allocationFailures =>
    { st with allocationFailures := (st.allocationFailures + 1) % 2 ^ c.statBits }

/-- The statement `pParentPool->poolStatistics.freeFailures++`: the counter
that lies at that place is incremented. Through `pool i` with `i` past the end
of `memPools`, and through `away a`, the store falls outside `memPools`. -/
def MEM_BufferFree.freeFailure (c : Config) (pools : List pools_t) (pParentPool : PoolPtr) :
    List pools_t :=
  match pParentPool with
  | PoolPtr.pool i =>
    match pools[i]? with
    | some p => pools.set i { p with poolStatistics := bumpCounter c none p.poolStatistics }
    | none => pools
  | PoolPtr.skew i f =>
    match pools[i]? with
    | some p => pools.set i { p with poolStatistics := bumpCounter c (some f) p.poolStatistics }
    | none => pools
  | PoolPtr.away _ => pools

/-- The search loop of `MEM_BufferFree`, with `pool` at pool `i` (the head of
the list): `some i` when `pParentPool == &memPools[i]` was met, `none` when the
loop reached the pool with `nextBlockSize == 0` without a match. -/
def MEM_BufferFree.scan (pParentPool : PoolPtr) : List pools_t → Nat → Option (Nat × pools_t)
  | [], _ => none
  | pool :: rest, i =>
    if pParentPool = PoolPtr.pool i then some (i, pool)
    else if pool.nextBlockSize = 0 then none
    else MEM_BufferFree.scan pParentPool rest (i + 1)

/-- `MEM_BufferFree`: the status returned and the state after the call. -/
def MEM_BufferFree (c : Config) (s : MemState) (buffer : Nat) : memStatus_t × MemState :=
  if buffer = 0 then (memStatus_t.MEM_FREE_ERROR_c, s)
  else
    let pHeader := buffer - c.sizeofListHeader
    let pParentPool := (s.hdr pHeader).pParentPool
    match MEM_BufferFree.scan pParentPool s.memPools 0 with
    | none =>
      (memStatus_t.MEM_FREE_ERROR_c,
        { s with memPools := MEM_BufferFree.freeFailure c s.memPools pParentPool })
    | some (i, pool) =>
      if (s.hdr pHeader).list ≠ none then
        (memStatus_t.MEM_FREE_ERROR_c,
          { s with memPools := MEM_BufferFree.freeFailure c s.memPools pParentPool })
      else
        let r := ListAddTail i pool.anchor s.hdr pHeader
        let freed : pools_t :=
          { pool with
            anchor := r.1
            poolStatistics := { pool.poolStatistics with
              allocatedBlocks :=
                (pool.poolStatistics.allocatedBlocks + (2 ^ c.statBits - 1)) % 2 ^ c.statBits } }
        (memStatus_t.MEM_SUCCESS_c,
          { memPools := s.memPools.set i freed
            hdr := r.2
            gFreeMessagesCount := (s.gFreeMessagesCount + 1) % 65536 })

/-- `MEM_BufferGetSize`: the block size of the pool the header in front of
`buffer` refers to, as a `uint16_t`; 0 for `NULL`. The result is `none` when
the back-reference is not the address of a pool of `memPools` (the value read
is then outside the state described here). -/
def MEM_BufferGetSize (c : Config) (s : MemState) (buffer : Nat) : Option Nat :=
  if buffer ≠ 0 then
    match (s.hdr (buffer - c.sizeofListHeader)).pParentPool with
    | PoolPtr.pool i => (s.memPools[i]?).map fun p => p.blockSize % 65536
    | _ => none
  else some 0

/-! ## Specification-side definitions -/

/-- The table is valid for the build: it has a row, the block sizes are not
zero and strictly increasing, `sizeof(listHeader_t)` is not zero, `memHeap` is
not at address 0, the statistics counters have at least 8 bits and the heap
size fits the `uint32_t` constant `heapSize`. -/
def ValidConfig (c : Config) : Prop :=
  c.PoolsDetails_c ≠ [] ∧
  (∀ e ∈ c.PoolsDetails_c, e.blockSize ≠ 0) ∧
  c.PoolsDetails_c.Pairwise (fun a b => a.blockSize < b.blockSize) ∧
  0 < c.sizeofListHeader ∧ 0 < c.memHeap ∧ 8 ≤ c.statBits ∧ heapSize_c c < 2 ^ 32

instance (c : Config) : Decidable (ValidConfig c) := by
  unfold ValidConfig
  infer_instance

/-- The header addresses of `n` consecutive blocks of stride `d` from `a` on. -/
def sliceAddrs (d : Nat) : Nat → Nat → List Nat
  | 0, _ => []
  | n + 1, a => a :: sliceAddrs d n (a + d)

/-- The block size of the first row of a list of rows, 0 when there is none
(the termination tag follows the last row). -/
def headBlockSize : List poolInfo_t → Nat
  | [] => 0
  | next :: _ => next.blockSize

/-- The pools `MEM_Init` builds from the rows of a table, pool by pool: the
blocks of a row are `poolSize % 256` consecutive blocks from the cursor on. -/
def layout (c : Config) : List poolInfo_t → Nat → List pools_t
  | [], _ => []
  | e :: rest, pHeap =>
    { anchor := sliceAddrs (e.blockSize + c.sizeofListHeader) (e.poolSize % 256) pHeap
      nextBlockSize := headBlockSize rest
      blockSize := e.blockSize
      poolStatistics :=
        { numBlocks := e.poolSize % 256, allocatedBlocks := 0, allocatedBlocksPeak := 0,
          allocationFailures := 0, freeFailures := 0 } } ::
    layout c rest (pHeap + e.poolSize % 256 * (e.blockSize + c.sizeofListHeader))

/-- The payload addresses of all blocks of a state's free lists. -/
def payloads (c : Config) (s : MemState) : List Nat :=
  (s.memPools.map fun p => p.anchor).flatten.map fun b => b + c.sizeofListHeader

/-- The states the allocator reaches from `MEM_Init` by calls of
`MEM_BufferAlloc` (any size) and of `MEM_BufferFree` on `NULL` or on the payload
address of a block of the heap. The second index lists the pointers handed out
by `MEM_BufferAlloc` and not yet freed with success. -/
inductive Reachable (c : Config) (boot : MemState) : MemState → List Nat → Prop
  | init : Reachable c boot (MEM_Init c boot).2 []
  | alloc {s : MemState} {held : List Nat} (numBytes : Nat) :
      Reachable c boot s held →
      Reachable c boot (MEM_BufferAlloc c s numBytes).2
        (if (MEM_BufferAlloc c s numBytes).1 = 0 then held
         else (MEM_BufferAlloc c s numBytes).1 :: held)
  | free {s : MemState} {held : List Nat} (buffer : Nat) :
      Reachable c boot s held →
      (buffer = 0 ∨ buffer ∈ payloads c (MEM_Init c boot).2) →
      Reachable c boot (MEM_BufferFree c s buffer).2
        (if (MEM_BufferFree c s buffer).1 = memStatus_t.MEM_SUCCESS_c
         then held.filter (fun q => q ≠ buffer) else held)

/-- The pools are chained as `MEM_Init` leaves them: `nextBlockSize` is the
block size of the following pool, which is not 0, and it is 0 in the last
pool. -/
def Linked : List pools_t → Prop
  | [] => True
  | [p] => p.nextBlockSize = 0
  | p :: q :: rest => p.nextBlockSize = q.blockSize ∧ q.blockSize ≠ 0 ∧ Linked (q :: rest)

/-- What holds of the state `s0` that `MEM_Init` leaves. -/
structure InitFacts (c : Config) (s0 : MemState) : Prop where
  hsize : 0 < c.sizeofListHeader
  bits : 8 ≤ c.statBits
  linked : Linked s0.memPools
  nonempty : s0.memPools ≠ []
  distinct : ∀ (i j : Nat) (p q : pools_t) (b : Nat), s0.memPools[i]? = some p → s0.memPools[j]? = some q →
    b ∈ p.anchor → b ∈ q.anchor → i = j
  nodup : ∀ p ∈ s0.memPools, p.anchor.Nodup
  stats : ∀ p ∈ s0.memPools, p.poolStatistics =
    { numBlocks := p.anchor.length, allocatedBlocks := 0, allocatedBlocksPeak := 0,
      allocationFailures := 0, freeFailures := 0 }
  small : ∀ p ∈ s0.memPools, p.anchor.length < 256
  hdr : ∀ (i : Nat) (p : pools_t), s0.memPools[i]? = some p → ∀ b ∈ p.anchor,
    s0.hdr b = { list := some i, pParentPool := PoolPtr.pool i }

/-- The fields of a pool that no call changes after `MEM_Init`: the block size,
the next block size and the block count. -/
def shape (p : pools_t) : Nat × Nat × Nat :=
  (p.blockSize, p.nextBlockSize, p.poolStatistics.numBlocks)

/-- The invariant of the reachable states, relative to the state `s0` left by
`MEM_Init`: the free list of a pool holds blocks of that pool, each at most
once; the allocated counter counts the blocks that are missing from it; the
header of a block names its pool, and its membership field is `NULL` exactly
when the block is not in the free list; `held` lists the payload addresses of
the blocks that are not in a free list. -/
structure Inv (c : Config) (s0 s : MemState) (held : List Nat) : Prop where
  shape : s.memPools.map shape = s0.memPools.map shape
  pools : ∀ (i : Nat) (p p0 : pools_t), s.memPools[i]? = some p → s0.memPools[i]? = some p0 →
    p.anchor.Nodup ∧ p.anchor ⊆ p0.anchor ∧
    p.poolStatistics.allocatedBlocks + p.anchor.length = p0.anchor.length ∧
    ∀ b ∈ p0.anchor, (s.hdr b).pParentPool = PoolPtr.pool i ∧
      ((s.hdr b).list = none ↔ b ∉ p.anchor)
  held_iff : ∀ (q : Nat), q ∈ held ↔
    ∃ (i : Nat) (p p0 : pools_t) (b : Nat), s.memPools[i]? = some p ∧
      s0.memPools[i]? = some p0 ∧ b ∈ p0.anchor ∧ b ∉ p.anchor ∧ q = b + c.sizeofListHeader
  held_nodup : held.Nodup

/-- The pool after `MEM_BufferAlloc` has taken the head of its free list, `tl`
being the rest of the list. -/
def servedPool (c : Config) (p : pools_t) (tl : List Nat) : pools_t :=
  { p with
    anchor := tl
    poolStatistics := { p.poolStatistics with
      allocatedBlocks := (p.poolStatistics.allocatedBlocks + 1) % 2 ^ c.statBits
      allocatedBlocksPeak :=
        if (p.poolStatistics.allocatedBlocks + 1) % 2 ^ c.statBits
            > p.poolStatistics.allocatedBlocksPeak
        then (p.poolStatistics.allocatedBlocks + 1) % 2 ^ c.statBits
        else p.poolStatistics.allocatedBlocksPeak } }

/-- The pool after a failed `MEM_BufferAlloc` that stopped at it. -/
def failedPool (c : Config) (p : pools_t) : pools_t :=
  { p with poolStatistics := { p.poolStatistics with
      allocationFailures := (p.poolStatistics.allocationFailures + 1) % 2 ^ c.statBits } }

/-- The state after `MEM_BufferAlloc` has served a request with block `b`, the
head of the free list `b :: tl` of pool `j`. -/
def servedState (c : Config) (s : MemState) (j : Nat) (p : pools_t) (b : Nat) (tl : List Nat) :
    MemState :=
  { memPools := s.memPools.set j (servedPool c p tl)
    hdr := setList s.hdr b none
    gFreeMessagesCount := (s.gFreeMessagesCount + 65535) % 65536 }

/-- The state after a failed `MEM_BufferAlloc` that stopped at pool `j`. -/
def failedState (c : Config) (s : MemState) (j : Nat) (p : pools_t) : MemState :=
  { s with memPools := s.memPools.set j (failedPool c p) }

/-- The pool after `MEM_BufferFree` has put block `b` back at the tail of its
free list. -/
def freedPool (c : Config) (p : pools_t) (b : Nat) : pools_t :=
  { p with
    anchor := p.anchor ++ [b]
    poolStatistics := { p.poolStatistics with
      allocatedBlocks :=
        (p.poolStatistics.allocatedBlocks + (2 ^ c.statBits - 1)) % 2 ^ c.statBits } }

/-- The state after `MEM_BufferFree` has released block `b` of pool `j`. -/
def freedState (c : Config) (s : MemState) (j : Nat) (p : pools_t) (b : Nat) : MemState :=
  { memPools := s.memPools.set j (freedPool c p b)
    hdr := setList s.hdr b (some j)
    gFreeMessagesCount := (s.gFreeMessagesCount + 1) % 65536 }

/-- The pool after a rejected `MEM_BufferFree` whose back-reference names it. -/
def freeFailedPool (c : Config) (p : pools_t) : pools_t :=
  { p with poolStatistics := bumpCounter c none p.poolStatistics }

/-- The pools of the example of the spec, `[(16 B, 4 blocks), (64 B, 2 blocks)]`,
with 16-byte headers, the heap at address 4096 and 16-bit counters. -/
def exampleConfig : Config :=
  { PoolsDetails_c := [{ blockSize := 16, poolSize := 4 }, { blockSize := 64, poolSize := 2 }]
    sizeofListHeader := 16
    memHeap := 4096
    statBits := 16 }

/-- A memory content before `MEM_Init`. -/
def exampleBoot : MemState :=
  { memPools := []
    hdr := fun _ => { list := none, pParentPool := PoolPtr.away 0 }
    gFreeMessagesCount := 0 }

/-- The example allocator right after `MEM_Init`. -/
def exampleInit : MemState := (MEM_Init exampleConfig exampleBoot).2

/-- The example allocator after `MEM_Init` and one `MEM_BufferAlloc(16)`. -/
def exampleOne : MemState := (MEM_BufferAlloc exampleConfig exampleInit 16).2

/-- Pool 0 of `exampleOne`. -/
def examplePool : pools_t :=
  { anchor := [4128, 4160, 4192]
    nextBlockSize := 64
    blockSize := 16
    poolStatistics :=
      { numBlocks := 4, allocatedBlocks := 1, allocatedBlocksPeak := 1,
        allocationFailures := 0, freeFailures := 0 } }

/-- A valid table with one class of 65536-byte blocks. -/
def bigConfig : Config :=
  { PoolsDetails_c := [{ blockSize := 65536, poolSize := 1 }]
    sizeofListHeader := 16
    memHeap := 4096
    statBits := 16 }

/-- The allocator of `bigConfig` right after `MEM_Init`. -/
def bigInit : MemState := (MEM_Init bigConfig exampleBoot).2

/-- The allocator of `bigConfig` after `MEM_Init` and `MEM_BufferAlloc(1)`. -/
def bigOne : MemState := (MEM_BufferAlloc bigConfig bigInit 1).2

/-- A memory content before `MEM_Init` in which the header in front of address
116 (outside the heap of `exampleConfig`) holds a back-reference that is not
the address of a pool: the address of `memPools[0]` displaced so that its
`poolStatistics.freeFailures` falls on `memPools[0].poolStatistics.allocatedBlocks`. -/
def strayBoot : MemState :=
  { memPools := []
    hdr := fun a =>
      if a = 100 then
        { list := none, pParentPool := PoolPtr.skew 0 OtherCounter.allocatedBlocks }
      else { list := none, pParentPool := PoolPtr.away 0 }
    gFreeMessagesCount := 0 }

/-- The example allocator started on `strayBoot`. -/
def strayInit : MemState := (MEM_Init exampleConfig strayBoot).2

/-- A valid table with one class of 256 blocks of 16 bytes. -/
def wideConfig : Config :=
  { PoolsDetails_c := [{ blockSize := 16, poolSize := 256 }]
    sizeofListHeader := 16
    memHeap := 4096
    statBits := 16 }

/-- The allocator of `wideConfig` right after `MEM_Init`. -/
def wideInit : MemState := (MEM_Init wideConfig exampleBoot).2

/-- The state after `k` consecutive calls `MEM_BufferAlloc(numBytes)`. -/
def allocTimes (c : Config) (numBytes : Nat) : Nat → MemState → MemState
  | 0, s => s
  | k + 1, s => allocTimes c numBytes k (MEM_BufferAlloc c s numBytes).2

/-- The results of `k` consecutive calls `MEM_BufferAlloc(numBytes)`, in the
order of the calls. -/
def allocResults (c : Config) (numBytes : Nat) : Nat → MemState → List Nat
  | 0, _ => []
  | k + 1, s =>
    (MEM_BufferAlloc c s numBytes).1 :: allocResults c numBytes k (MEM_BufferAlloc c s numBytes).2

/-- A table whose block sizes are not increasing: 64, 16, 128, one block each. -/
def gapConfig : Config :=
  { PoolsDetails_c :=
      [{ blockSize := 64, poolSize := 1 }, { blockSize := 16, poolSize := 1 },
       { blockSize := 128, poolSize := 1 }]
    sizeofListHeader := 16
    memHeap := 4096
    statBits := 16 }

/-- The allocator of `gapConfig` after `MEM_Init` and `MEM_BufferAlloc(64)`, which
takes the only block of pool 0. -/
def gapState : MemState := (MEM_BufferAlloc gapConfig (MEM_Init gapConfig exampleBoot).2 64).2

/-- The block size and the free list of each pool, in the order of `memPools`. -/
def view (s : MemState) : List (Nat × List Nat) :=
  s.memPools.map (fun p => (p.blockSize, p.anchor))

/-- First fit on a view: the head of the first non-empty free list among the
pools of block size at least `n`, with the view in which it is removed. -/
def fit (n : Nat) : List (Nat × List Nat) → Option (Nat × List (Nat × List Nat))
  | [] => none
  | (size, []) :: rest => (fit n rest).map (fun r => (r.1, (size, []) :: r.2))
  | (size, b :: tl) :: rest =>
    if n ≤ size then some (b, (size, tl) :: rest)
    else (fit n rest).map (fun r => (r.1, (size, b :: tl) :: r.2))

/-- The results of `k` consecutive first-fit requests of `n` bytes on a view,
with header size `h`: the payload address of the block taken, 0 when there is
none. -/
def fitRun (h n : Nat) : Nat → List (Nat × List Nat) → List Nat
  | 0, _ => []
  | k + 1, L =>
    match fit n L with
    | some r => (r.1 + h) :: fitRun h n k r.2
    | none => 0 :: fitRun h n k L

/-- Pool 0 of `exampleInit`. -/
def exampleInitPool0 : pools_t :=
  { anchor := [4096, 4128, 4160, 4192]
    nextBlockSize := 64
    blockSize := 16
    poolStatistics :=
      { numBlocks := 4, allocatedBlocks := 0, allocatedBlocksPeak := 0,
        allocationFailures := 0, freeFailures := 0 } }

/-- Pool 1 of `exampleInit`. -/
def exampleInitPool1 : pools_t :=
  { anchor := [4224, 4304]
    nextBlockSize := 0
    blockSize := 64
    poolStatistics :=
      { numBlocks := 2, allocatedBlocks := 0, allocatedBlocksPeak := 0,
        allocationFailures := 0, freeFailures := 0 } }

/-- The reachable states together with `maxima`: for each pool, the largest
value its `allocatedBlocks` counter has had in the states since `MEM_Init` (the
state after `MEM_Init` and the states after each call). The calls are those of
`Reachable`. -/
inductive Peaked (c : Config) (boot : MemState) : MemState → List Nat → Prop
  | init : Peaked c boot (MEM_Init c boot).2
      ((MEM_Init c boot).2.memPools.map fun p => p.poolStatistics.allocatedBlocks)
  | alloc {s : MemState} {maxima : List Nat} (numBytes : Nat) :
      Peaked c boot s maxima →
      Peaked c boot (MEM_BufferAlloc c s numBytes).2
        (List.zipWith max maxima
          ((MEM_BufferAlloc c s numBytes).2.memPools.map
            fun p => p.poolStatistics.allocatedBlocks))
  | free {s : MemState} {maxima : List Nat} (buffer : Nat) :
      Peaked c boot s maxima →
      (buffer = 0 ∨ buffer ∈ payloads c (MEM_Init c boot).2) →
      Peaked c boot (MEM_BufferFree c s buffer).2
        (List.zipWith max maxima
          ((MEM_BufferFree c s buffer).2.memPools.map
            fun p => p.poolStatistics.allocatedBlocks))

/-- The loop `for( i=0; i<pPollInfo->poolSize; i++ )` of `MEM_BufferCheck`, with
`n` iterations left and the cursor at `memAddr`: the result of the `return`
inside the loop if one is reached, and the cursor. -/
def MEM_BufferCheck.blocks (p size blockBytes : Nat) : Nat → Nat → Option Nat × Nat
  | 0, memAddr => (none, memAddr)
  | n + 1, memAddr =>
    if p ≥ memAddr ∧ p < memAddr + blockBytes then
      if p + size > memAddr + blockBytes then (some 1, memAddr) else (some 0, memAddr)
    else MEM_BufferCheck.blocks p size blockBytes n (memAddr + blockBytes)

/-- The loop `while( pPollInfo->blockSize )` of `MEM_BufferCheck` over the rows
of `poolInfo` from `pPollInfo` on, with the cursor at `memAddr`. `blockBytes`
and `poolBytes` are `uint32_t`. The case `[]` is a cursor past the termination
tag, which the loop never reaches. -/
def MEM_BufferCheck.pools (c : Config) (p size : Nat) : List poolInfo_t → Nat → Nat
  | [], _ => 0
  | pPollInfo :: rest, memAddr =>
    if pPollInfo.blockSize = 0 then 0
    else
      let blockBytes := (pPollInfo.blockSize + c.sizeofListHeader) % 2 ^ 32
      let poolBytes := (blockBytes * pPollInfo.poolSize) % 2 ^ 32
      if p ≥ memAddr ∧ p < memAddr + poolBytes then
        if size > pPollInfo.blockSize then 1
        else
          match MEM_BufferCheck.blocks p size blockBytes pPollInfo.poolSize memAddr with
          | (some r, _) => r
          | (none, memAddr1) => MEM_BufferCheck.pools c p size rest (memAddr1 + poolBytes)
      else MEM_BufferCheck.pools c p size rest (memAddr + poolBytes)

/-- The function `MEM_BufferCheck(p, size)`: 1 if an overflow is detected, else
0. `sizeof(memHeap)` is `heapSize_c`. -/
def MEM_BufferCheck (c : Config) (p size : Nat) : Nat :=
  if p < c.memHeap ∨ p > c.memHeap + heapSize_c c then 0
  else MEM_BufferCheck.pools c p size (poolInfo c) c.memHeap

/-- The loop over `idx3` in the write phase of `MEM_WriteReadTest`, with `n`
bytes left: each round checks `data > memHeap + heapSize` (result `none`: the
test returns `MEM_UNKNOWN_ERROR_c`), stores `count & 0xff` at `data` and
advances `data`. `bytes` is the content of the payload memory; `heapSize` is a
`uint32_t` constant. -/
def MEM_WriteReadTest.fill (c : Config) (count : Nat) :
    Nat → Nat → (Nat → Nat) → Option (Nat → Nat)
  | 0, _, bytes => some bytes
  | n + 1, data, bytes =>
    if data > c.memHeap + heapSize_c c % 2 ^ 32 then none
    else MEM_WriteReadTest.fill c count n (data + 1)
      (fun a => if a = data then count % 256 else bytes a)

/-- The loop over `idx2` in the write phase of `MEM_WriteReadTest` for a row of
block size `blockSize`, with `n` rounds left: a block of `blockSize` bytes is
allocated and filled with `count`, then `count++` (a `uint8_t`). The first
component is the status the test returns from inside the loop, if it does. -/
def MEM_WriteReadTest.writePool (c : Config) (blockSize : Nat) :
    Nat → MemState → (Nat → Nat) → Nat → Option memStatus_t × MemState × (Nat → Nat) × Nat
  | 0, s, bytes, count => (none, s, bytes, count)
  | n + 1, s, bytes, count =>
    let r := MEM_BufferAlloc c s blockSize
    if r.1 = 0 then (some memStatus_t.MEM_ALLOC_ERROR_c, r.2, bytes, count)
    else
      match MEM_WriteReadTest.fill c count blockSize r.1 bytes with
      | none => (some memStatus_t.MEM_UNKNOWN_ERROR_c, r.2, bytes, count)
      | some bytes1 =>
        MEM_WriteReadTest.writePool c blockSize n r.2 bytes1 ((count + 1) % 256)

/-- The loop over `idx1` in the write phase of `MEM_WriteReadTest`, at row
`poolInfo[idx1]` (the head of the list); it ends at the row of block size 0. -/
def MEM_WriteReadTest.write (c : Config) :
    List poolInfo_t → MemState → (Nat → Nat) → Nat →
      Option memStatus_t × MemState × (Nat → Nat) × Nat
  | [], s, bytes, count => (none, s, bytes, count)
  | row :: rest, s, bytes, count =>
    if row.blockSize = 0 then (none, s, bytes, count)
    else
      match MEM_WriteReadTest.writePool c row.blockSize row.poolSize s bytes count with
      | (some e, r) => (some e, r)
      | (none, s1, bytes1, count1) => MEM_WriteReadTest.write c rest s1 bytes1 count1

/-- The loop over `idx3` in the read phase of `MEM_WriteReadTest`, with `n`
bytes left: `data` after the loop, `none` when a byte differs from `count`. -/
def MEM_WriteReadTest.verify (count : Nat) (bytes : Nat → Nat) : Nat → Nat → Option Nat
  | 0, data => some data
  | n + 1, data =>
    if bytes data = count then MEM_WriteReadTest.verify count bytes n (data + 1) else none

/-- The loop over `idx2` in the read phase of `MEM_WriteReadTest` for a row of
block size `blockSize`, with `n` rounds left: `data` jumps over a list header,
`blockSize` bytes are compared with `count`, the block that ends at `data` is
freed, then `count++`. -/
def MEM_WriteReadTest.readPool (c : Config) (bytes : Nat → Nat) (blockSize : Nat) :
    Nat → MemState → Nat → Nat → Option memStatus_t × MemState × Nat × Nat
  | 0, s, data, count => (none, s, data, count)
  | n + 1, s, data, count =>
    match MEM_WriteReadTest.verify count bytes blockSize (data + c.sizeofListHeader) with
    | none => (some memStatus_t.MEM_UNKNOWN_ERROR_c, s, data, count)
    | some data1 =>
      let r := MEM_BufferFree c s (data1 - blockSize)
      if r.1 ≠ memStatus_t.MEM_SUCCESS_c then
        (some memStatus_t.MEM_FREE_ERROR_c, r.2, data1, count)
      else MEM_WriteReadTest.readPool c bytes blockSize n r.2 data1 ((count + 1) % 256)

/-- The loop over `idx1` in the read phase of `MEM_WriteReadTest`. -/
def MEM_WriteReadTest.read (c : Config) (bytes : Nat → Nat) :
    List poolInfo_t → MemState → Nat → Nat → Option memStatus_t × MemState × Nat × Nat
  | [], s, data, count => (none, s, data, count)
  | row :: rest, s, data, count =>
    if row.blockSize = 0 then (none, s, data, count)
    else
      match MEM_WriteReadTest.readPool c bytes row.blockSize row.poolSize s data count with
      | (some e, r) => (some e, r)
      | (none, s1, data1, count1) => MEM_WriteReadTest.read c bytes rest s1 data1 count1

/-- The last loop of `MEM_WriteReadTest`: `allocatedBlocksPeak = 0` in
`memPools[idx1]` for every row before the row of block size 0. -/
def MEM_WriteReadTest.resetPeaks : List poolInfo_t → List pools_t → List pools_t
  | [], pools => pools
  | _ :: _, [] => []
  | row :: rest, p :: ps =>
    if row.blockSize = 0 then p :: ps
    else
      { p with poolStatistics := { p.poolStatistics with allocatedBlocksPeak := 0 } } ::
        MEM_WriteReadTest.resetPeaks rest ps

/-- `MEM_WriteReadTest`: the status returned, the allocator state and the payload
memory after the call. The payload bytes are kept apart from the headers: the
test writes `blockSize` bytes from a pointer `MEM_BufferAlloc(blockSize)`
returned, and reads payload bytes when the blocks lie as `poolInfo` says (the
loops run `poolSize` and `blockSize` times, which fit the index type). -/
def MEM_WriteReadTest (c : Config) (s : MemState) (bytes : Nat → Nat) :
    memStatus_t × MemState × (Nat → Nat) :=
  let freeMsgs := (MEM_GetAvailableBlocks s 0).1
  match MEM_WriteReadTest.write c (poolInfo c) s bytes 1 with
  | (some e, s1, bytes1, _) => (e, s1, bytes1)
  | (none, s1, bytes1, _) =>
    match MEM_WriteReadTest.read c bytes1 (poolInfo c) s1 c.memHeap 1 with
    | (some e, s2, _, _) => (e, s2, bytes1)
    | (none, s2, _, _) =>
      if (MEM_GetAvailableBlocks s2 0).1 ≠ freeMsgs then
        (memStatus_t.MEM_UNKNOWN_ERROR_c, s2, bytes1)
      else
        (memStatus_t.MEM_SUCCESS_c,
          { s2 with memPools := MEM_WriteReadTest.resetPeaks (poolInfo c) s2.memPools },
          bytes1)

/-- The example allocator after `MEM_Init`, one `MEM_BufferAlloc(16)` and the
release of the block it returned: no block is allocated, and the free list of
pool 0 starts at the second block. -/
def exampleCycled : MemState :=
  (MEM_BufferFree exampleConfig exampleOne (MEM_BufferAlloc exampleConfig exampleInit 16).1).2

/-- The bytes of the payloads verify as the read phase of `MEM_WriteReadTest`
expects them, for `n` blocks of `blockSize` bytes from the block at `a` on,
the first one filled with `count`. -/
def Stamped (h : Nat) (bytes : Nat → Nat) (blockSize : Nat) : Nat → Nat → Nat → Prop
  | 0, _, _ => True
  | n + 1, a, count =>
    (∀ x, a + h ≤ x → x < a + h + blockSize → bytes x = count) ∧
    Stamped h bytes blockSize n (a + (blockSize + h)) ((count + 1) % 256)

/-- The payloads of all blocks of the rows verify, from the block at `a` on. -/
def StampedRows (h : Nat) (bytes : Nat → Nat) : List poolInfo_t → Nat → Nat → Prop
  | [], _, _ => True
  | e :: rest, a, count =>
    Stamped h bytes e.blockSize e.poolSize a count ∧
    StampedRows h bytes rest (a + e.poolSize * (e.blockSize + h)) ((count + e.poolSize) % 256)

/-! ## The build with `MEM_TRACKING` -/

/-- The two values of `memTrackingStatus_t`. -/
inductive memTrackingStatus_t where
  | MEM_TRACKING_FREE_c
  | MEM_TRACKING_ALLOC_c
deriving DecidableEq

/-- Modelled from the spec: `blockTracking_t` (declared in `MemManager.h`, not in
the sources), one entry of the ledger `memTrack`: the payload address of the
block, its block size, the fragmentation waste of the current allocation and
the allocation status. The call-site addresses and the call counters, which no
statement reads, are left out. -/
structure blockTracking_t where
  blockAddr : Nat
  blockSize : Nat
  fragmentWaste : Nat
  allocStatus : memTrackingStatus_t
deriving DecidableEq

/-- The members `poolFragmentWaste` and `poolFragmentWastePeak` that
`MEM_TRACKING` adds to `poolStat_t`; they are kept in a list beside `memPools`,
entry `i` for `memPools[i].poolStatistics`. -/
structure fragmentStat_t where
  poolFragmentWaste : Nat
  poolFragmentWastePeak : Nat
deriving DecidableEq

/-- A build with `MEM_TRACKING`: the configuration and the bit width of the
members `blockSize` and `fragmentWaste` of `blockTracking_t` (from
`MemManager.h`). -/
structure TrackConfig extends Config where
  trackBits : Nat
deriving DecidableEq

/-- The memory of the build with `MEM_TRACKING`: the allocator state, the ledger
`memTrack` (the entries `MEM_Init` has written, in index order) and the
fragmentation members of the pool statistics. -/
structure TrackState where
  mem : MemState
  memTrack : List blockTracking_t
  waste : List fragmentStat_t

/-- The constant `mTotalNoOfMsgs_d`: the sum of the `poolSize` of the table. -/
def mTotalNoOfMsgs_d (c : Config) : Nat :=
  (c.PoolsDetails_c.map fun e => e.poolSize).sum

/-- The search loop of `MEM_Track`: the first index `i` with
`block == memTrack[i].blockAddr`, the list being `memTrack` from index `i` on. -/
def MEM_Track.find (block : Nat) : List blockTracking_t → Nat → Option Nat
  | [], _ => none
  | e :: rest, i => if block = e.blockAddr then some i else MEM_Track.find block rest (i + 1)

/-- A store to the fragmentation members reached through the pointer
`poolStatistics` of `MEM_Track`, which is computed from the back-reference of the
block: through `&memPools[i]` it changes entry `i`; through any other address it
falls outside the state described here. -/
def MEM_Track.store (waste : List fragmentStat_t) (pParentPool : PoolPtr)
    (f : fragmentStat_t → fragmentStat_t) : List fragmentStat_t :=
  match pParentPool with
  | PoolPtr.pool i =>
    match waste[i]? with
    | some x => waste.set i (f x)
    | none => waste
  | _ => waste

/-- `MEM_Track`: updates the ledger entry of `block` and the fragmentation
statistics of its parent pool. The loop index runs below the `uint16_t` constant
`mTotalNoOfMsgs_c`; `requestedSize` is a `uint16_t`. The result is `FALSE` and
nothing changes when there is no entry or the entry already has the status
`alloc`. -/
def MEM_Track (tc : TrackConfig) (t : TrackState) (block : Nat) (alloc : memTrackingStatus_t)
    (requestedSize : Nat) : Bool × TrackState :=
  let poolStatistics := (t.mem.hdr (block - tc.sizeofListHeader)).pParentPool
  match MEM_Track.find block (t.memTrack.take (mTotalNoOfMsgs_d tc.toConfig % 65536)) 0 with
  | none => (false, t)
  | some i =>
    match t.memTrack[i]? with
    | none => (false, t)
    | some pTrack =>
      if pTrack.allocStatus = alloc then (false, t)
      else if alloc = memTrackingStatus_t.MEM_TRACKING_ALLOC_c then
        let fragmentWaste :=
          (pTrack.blockSize + (2 ^ tc.trackBits - requestedSize % 2 ^ tc.trackBits))
            % 2 ^ tc.trackBits
        let entry : blockTracking_t :=
          { pTrack with allocStatus := alloc, fragmentWaste := fragmentWaste }
        (true,
          { t with
            memTrack := t.memTrack.set i entry
            waste := MEM_Track.store t.waste poolStatistics fun x =>
              let w := (x.poolFragmentWaste + fragmentWaste) % 2 ^ tc.statBits
              { poolFragmentWaste := w
                poolFragmentWastePeak :=
                  if w > x.poolFragmentWastePeak then w else x.poolFragmentWastePeak } })
      else
        let entry : blockTracking_t := { pTrack with allocStatus := alloc, fragmentWaste := 0 }
        (true,
          { t with
            memTrack := t.memTrack.set i entry
            waste := MEM_Track.store t.waste poolStatistics fun x =>
              { x with poolFragmentWaste :=
                  (x.poolFragmentWaste + (2 ^ tc.statBits - pTrack.fragmentWaste % 2 ^ tc.statBits))
                    % 2 ^ tc.statBits } })

/-- The ledger entries the loop `while(poolN)` of `MEM_Init` writes for one pool
under `MEM_TRACKING`, with `poolN` rounds left and the cursor at `pHeap`: one
entry for each block, free, with waste 0. -/
def Tracking.MEM_Init.blocks (tc : TrackConfig) (blockSize : Nat) :
    Nat → Nat → List blockTracking_t
  | 0, _ => []
  | poolN + 1, pHeap =>
    { blockAddr := pHeap + tc.sizeofListHeader
      blockSize := blockSize % 2 ^ tc.trackBits
      fragmentWaste := 0
      allocStatus := memTrackingStatus_t.MEM_TRACKING_FREE_c } ::
    Tracking.MEM_Init.blocks tc blockSize poolN (pHeap + (blockSize + tc.sizeofListHeader))

/-- The ledger entries the outer loop of `MEM_Init` writes under `MEM_TRACKING`,
at row `pPoolInfo` (the head of the list): `memTrackIndex` goes up by one for
each block (a `uint16_t`: the list is the ledger for fewer than 65536 blocks). -/
def Tracking.MEM_Init.pools (tc : TrackConfig) : List poolInfo_t → Nat → List blockTracking_t
  | [], _ => []
  | pPoolInfo :: rest, pHeap =>
    let poolN := pPoolInfo.poolSize % 256
    let entries := Tracking.MEM_Init.blocks tc pPoolInfo.blockSize poolN pHeap
    if headBlockSize rest = 0 then entries
    else
      entries ++ Tracking.MEM_Init.pools tc rest
        (pHeap + poolN * (pPoolInfo.blockSize + tc.sizeofListHeader))

/-- `MEM_Init` under `MEM_TRACKING`: the allocator state as without tracking, the
ledger, and the fragmentation members of every pool set to 0. -/
def Tracking.MEM_Init (tc : TrackConfig) (boot : MemState) : memStatus_t × TrackState :=
  let r := MemManager.MEM_Init tc.toConfig boot
  (r.1,
    { mem := r.2
      memTrack := Tracking.MEM_Init.pools tc (poolInfo tc.toConfig) tc.memHeap
      waste := r.2.memPools.map fun _ =>
        { poolFragmentWaste := 0, poolFragmentWastePeak := 0 } })

/-- `MEM_BufferAlloc` under `MEM_TRACKING`: `requestedSize` receives `numBytes`
as a `uint16_t` before the loop; when a block is handed out (the result is not
`NULL`), `MEM_Track` is called with it before the return. -/
def Tracking.MEM_BufferAlloc (tc : TrackConfig) (t : TrackState) (numBytes : Nat) :
    Nat × TrackState :=
  let requestedSize := numBytes % 65536
  let r := MemManager.MEM_BufferAlloc tc.toConfig t.mem numBytes
  if r.1 = 0 then (0, { t with mem := r.2 })
  else
    (r.1,
      (MEM_Track tc { t with mem := r.2 } r.1
        memTrackingStatus_t.MEM_TRACKING_ALLOC_c requestedSize).2)

/-- `MEM_BufferFree` under `MEM_TRACKING`: on the path that returns
`MEM_SUCCESS_c`, `MEM_Track` is called with the buffer before the return. -/
def Tracking.MEM_BufferFree (tc : TrackConfig) (t : TrackState) (buffer : Nat) :
    memStatus_t × TrackState :=
  let r := MemManager.MEM_BufferFree tc.toConfig t.mem buffer
  if r.1 = memStatus_t.MEM_SUCCESS_c then
    (r.1,
      (MEM_Track tc { t with mem := r.2 } buffer memTrackingStatus_t.MEM_TRACKING_FREE_c 0).2)
  else (r.1, { t with mem := r.2 })

/-- The tracking build is valid: the table is valid and the search loop of
`MEM_Track`, which runs below the `uint16_t` constant `mTotalNoOfMsgs_c`, covers
the ledger entry of every block `MEM_Init` builds (`poolSize % 256` blocks for
each row). This is so for every valid table with fewer than 65536 blocks. -/
def ValidTracking (tc : TrackConfig) : Prop :=
  ValidConfig tc.toConfig ∧
  (tc.PoolsDetails_c.map fun e => e.poolSize % 256).sum ≤ mTotalNoOfMsgs_d tc.toConfig % 65536

instance (tc : TrackConfig) : Decidable (ValidTracking tc) := by
  unfold ValidTracking
  infer_instance

/-- The example allocator after `MEM_Init` and three `MEM_BufferAlloc(16)`: one
block is left in the free list of pool 0. -/
def exampleThree : MemState := allocTimes exampleConfig 16 3 exampleInit

/-- The state after consecutive calls `MEM_BufferAlloc(n)` for the sizes `n` of
a list, in the order of the list. -/
def allocSeq (c : Config) : List Nat → MemState → MemState
  | [], s => s
  | n :: ns, s => allocSeq c ns (MEM_BufferAlloc c s n).2

/-- The cursor `pHeap` of `MEM_Init` when the outer loop `for(;;)` ends, the loop
being at row `pPoolInfo` (the head of the list) and pool `i`: the same rounds as
`MEM_Init.pools`, of which this is the final value of the local variable. -/
def MEM_Init.cursor (c : Config) :
    List poolInfo_t → Nat → Nat → (Nat → listHeader_t) → Nat → Nat
  | [], _, pHeap, _, _ => pHeap
  | pPoolInfo :: rest, i, pHeap, hdr, g =>
    let v := MEM_Init.pool c i pPoolInfo pHeap hdr g
    if headBlockSize rest = 0 then v.pHeap
    else MEM_Init.cursor c rest (i + 1) v.pHeap v.hdr v.gFreeMessagesCount

/-- A tracking build with 65536 blocks in the table: 255 blocks of 16 bytes and
65281 blocks of 64 bytes, so that the `uint16_t` constant `mTotalNoOfMsgs_c` is 0. -/
def fullConfig : TrackConfig :=
  { PoolsDetails_c := [{ blockSize := 16, poolSize := 255 }, { blockSize := 64, poolSize := 65281 }]
    sizeofListHeader := 16
    memHeap := 4096
    statBits := 16
    trackBits := 16 }

/-! ## `RNG.c`: the pseudo random number generator -/

/-- What the build supplies from outside `RNG.c`: the constant
`gRngMaxRequests_d` (`RNG_Interface.h`) and the function `SHA1_Hash` (`SecLib`),
taken as an arbitrary function from the bytes hashed to the words of
`ctx.hash`. -/
structure RngConfig where
  gRngMaxRequests_d : Nat
  SHA1_Hash : List Nat → List Nat

/-- The static variables of `RNG.c` used by the pseudo random number generator:
the five `uint32_t` words of `XKEY` and the `uint32_t` counter `mPRNG_Requests`. -/
structure RngState where
  XKEY : List Nat
  mPRNG_Requests : Nat
deriving DecidableEq

/-- The content of the static variables at start-up: `XKEY` is zero-initialised
and `mPRNG_Requests` is `gRngMaxRequests_d`. -/
def rngBoot (cfg : RngConfig) : RngState :=
  { XKEY := [0, 0, 0, 0, 0], mPRNG_Requests := cfg.gRngMaxRequests_d % 2 ^ 32 }

/-- The byte `((uint8_t*)words)[i]` of an array of `uint32_t` words (the target
is little-endian). -/
def byteOf (words : List Nat) (i : Nat) : Nat :=
  (words.getD (i / 4) 0 / 256 ^ (i % 4)) % 256

/-- The `uint32_t` word number `i` of a byte buffer seen as an array of words
(the target is little-endian). -/
def wordOf (bytes : List Nat) (i : Nat) : Nat :=
  bytes.getD (4 * i) 0 % 256 + bytes.getD (4 * i + 1) 0 % 256 * 256
    + bytes.getD (4 * i + 2) 0 % 256 * 65536 + bytes.getD (4 * i + 3) 0 % 256 * 16777216

/-- `RNG_SetPseudoRandomNoSeed`: the counter is set to 1 and the 20 bytes of the
seed are copied over `XKEY`. -/
def RNG_SetPseudoRandomNoSeed (pSeed : List Nat) : RngState :=
  { mPRNG_Requests := 1
    XKEY := (List.range 5).map (wordOf pSeed) }

/-- The words `ctx.hash[0..4]` after `SHA1_Hash(&ctx, ctx.buffer, 20)`. -/
def hashWords (cfg : RngConfig) (buffer : List Nat) : List Nat :=
  (List.range 5).map fun i => (cfg.SHA1_Hash buffer).getD i 0 % 2 ^ 32

/-- `RNG_GetPseudoRandomNo(pOut, outBytes, pXSEED)`: the value returned, the
static variables and the output buffer after the call. `pXSEED` is `none` for
`NULL`; `outBytes` is a `uint8_t`. The statement `XKEY[0] += 1` and the loop
`XKEY[i] += ctx.hash[i]` are additions of `uint32_t` words. -/
def RNG_GetPseudoRandomNo (cfg : RngConfig) (st : RngState) (pOut : List Nat) (outBytes : Nat)
    (pXSEED : Option (List Nat)) : Int × RngState × List Nat :=
  let requests := if pXSEED.isSome then 1 else st.mPRNG_Requests
  if requests = cfg.gRngMaxRequests_d then
    (-1, { st with mPRNG_Requests := requests }, pOut)
  else
    let buffer := (List.range 20).map fun i =>
      match pXSEED with
      | some x => (byteOf st.XKEY i + x.getD i 0) % 256
      | none => byteOf st.XKEY i
    let hash := hashWords cfg buffer
    let XKEY := (List.range 5).map fun i =>
      if i = 0 then ((st.XKEY.getD 0 0 + 1) % 2 ^ 32 + hash.getD 0 0) % 2 ^ 32
      else (st.XKEY.getD i 0 + hash.getD i 0) % 2 ^ 32
    let outBytes := if outBytes > 20 then 20 else outBytes
    (outBytes,
      { XKEY := XKEY, mPRNG_Requests := (requests + 1) % 2 ^ 32 },
      (List.range outBytes).map (byteOf hash) ++ pOut.drop outBytes)

/-- The state after `k` consecutive calls `RNG_GetPseudoRandomNo(pOut, outBytes,
NULL)`. -/
def getTimes (cfg : RngConfig) (outBytes : Nat) : Nat → RngState → RngState
  | 0, st => st
  | k + 1, st => getTimes cfg outBytes k (RNG_GetPseudoRandomNo cfg st [] outBytes none).2.1

/-- An array of five `uint32_t` words as a 160-bit integer, word 0 least
significant. -/
def value160 (words : List Nat) : Nat :=
  words.getD 0 0 + words.getD 1 0 * 2 ^ 32 + words.getD 2 0 * 2 ^ 64
    + words.getD 3 0 * 2 ^ 96 + words.getD 4 0 * 2 ^ 128

/-- An array of five `uint32_t` words as a 160-bit integer, word 0 most
significant. -/
def value160be (words : List Nat) : Nat :=
  words.getD 4 0 + words.getD 3 0 * 2 ^ 32 + words.getD 2 0 * 2 ^ 64
    + words.getD 1 0 * 2 ^ 96 + words.getD 0 0 * 2 ^ 128

/-- A seed key whose word 0 is `0xFFFFFFFF`, after seeding. -/
def carryState : RngState :=
  { XKEY := [4294967295, 0, 0, 0, 0], mPRNG_Requests := 1 }

/-- A build with `gRngMaxRequests_d` 100000 and a hash function that returns the
words 1 to 5. -/
def rngConfig : RngConfig :=
  { gRngMaxRequests_d := 100000, SHA1_Hash := fun _ => [1, 2, 3, 4, 5] }

/-- A build with `gRngMaxRequests_d` 1. -/
def rngOne : RngConfig :=
  { gRngMaxRequests_d := 1, SHA1_Hash := fun _ => [1, 2, 3, 4, 5] }

/-- A state in which four requests have been served since the last seeding. -/
def rngFive : RngState :=
  { XKEY := [0, 0, 0, 0, 0], mPRNG_Requests := 5 }

/-- A build with `gRngMaxRequests_d` 100000 and the hash function `f`. -/
def rngWith (f : List Nat → List Nat) : RngConfig :=
  { gRngMaxRequests_d := 100000, SHA1_Hash := f }

/-! ## The state after `MEM_Init` -/

theorem mem_sliceAddrs {d : Nat} (hd : 0 < d) :
    ∀ (n a x : Nat), x ∈ sliceAddrs d n a → a ≤ x ∧ x < a + n * d := by
  intro n
  induction n with
  | zero => intro a x h; simp [sliceAddrs] at h
  | succ n ih =>
    intro a x h
    simp only [sliceAddrs, List.mem_cons] at h
    rcases h with h | h
    · subst h
      constructor
      · exact le_refl _
      · have : 0 < (n + 1) * d := Nat.mul_pos (Nat.succ_pos n) hd
        omega
    · have := ih (a + d) x h
      have e : (n + 1) * d = n * d + d := by ring
      omega

theorem length_sliceAddrs (d : Nat) : ∀ (n a : Nat), (sliceAddrs d n a).length = n := by
  intro n
  induction n with
  | zero => intro a; rfl
  | succ n ih => intro a; simp [sliceAddrs, ih]

theorem nodup_sliceAddrs {d : Nat} (hd : 0 < d) : ∀ (n a : Nat), (sliceAddrs d n a).Nodup := by
  intro n
  induction n with
  | zero => intro a; simp [sliceAddrs]
  | succ n ih =>
    intro a
    simp only [sliceAddrs, List.nodup_cons]
    refine ⟨?_, ih _⟩
    intro h
    have := mem_sliceAddrs hd n (a + d) a h
    omega

theorem sliceAddrs_snoc (d : Nat) : ∀ (n a : Nat),
    sliceAddrs d (n + 1) a = sliceAddrs d n a ++ [a + n * d] := by
  intro n
  induction n with
  | zero => intro a; simp [sliceAddrs]
  | succ n ih =>
    intro a
    have e : a + d + n * d = a + (n + 1) * d := by ring
    rw [sliceAddrs, ih (a + d), e]
    rfl
theorem blocks_pHeap (c : Config) (i bs : Nat) : ∀ (n : Nat) (v : InitVars),
    (MEM_Init.blocks c i bs n v).pHeap = v.pHeap + n * (bs + c.sizeofListHeader) := by
  intro n
  induction n with
  | zero => intro v; simp [MEM_Init.blocks]
  | succ n ih =>
    intro v
    rw [MEM_Init.blocks, ih]
    simp only []
    ring

theorem blocks_pPools (c : Config) (i bs : Nat) : ∀ (n : Nat) (v : InitVars),
    v.pPools.poolStatistics.numBlocks + n < 2 ^ c.statBits →
    (MEM_Init.blocks c i bs n v).pPools =
      { v.pPools with
        anchor := v.pPools.anchor ++ sliceAddrs (bs + c.sizeofListHeader) n v.pHeap
        poolStatistics := { v.pPools.poolStatistics with
          numBlocks := v.pPools.poolStatistics.numBlocks + n } } := by
  intro n
  induction n with
  | zero => intro v _; simp [MEM_Init.blocks, sliceAddrs]
  | succ n ih =>
    intro v h
    have h1 : (v.pPools.poolStatistics.numBlocks + 1) % 2 ^ c.statBits
        = v.pPools.poolStatistics.numBlocks + 1 := Nat.mod_eq_of_lt (by omega)
    rw [MEM_Init.blocks, ih]
    · simp [ListAddTail, sliceAddrs, h1, Nat.add_assoc, Nat.add_comm 1 n]
    · simp only [h1]; omega

theorem blocks_hdr (c : Config) (i bs : Nat) : ∀ (n : Nat) (v : InitVars) (a : Nat),
    (MEM_Init.blocks c i bs n v).hdr a =
      if a ∈ sliceAddrs (bs + c.sizeofListHeader) n v.pHeap
      then { list := some i, pParentPool := PoolPtr.pool i } else v.hdr a := by
  intro n
  induction n with
  | zero => intro v a; simp [MEM_Init.blocks, sliceAddrs]
  | succ n ih =>
    intro v a
    rw [MEM_Init.blocks, ih]
    simp only [ListAddTail, sliceAddrs, List.mem_cons, setParent, setList]
    by_cases h1 : a ∈ sliceAddrs (bs + c.sizeofListHeader) n (v.pHeap + (bs + c.sizeofListHeader))
    · simp [h1]
    · by_cases h2 : a = v.pHeap
      · simp [h1, h2]
      · simp [h1, h2]

theorem blocks_gFree (c : Config) (i bs : Nat) : ∀ (n : Nat) (v : InitVars),
    v.gFreeMessagesCount < 65536 →
    (MEM_Init.blocks c i bs n v).gFreeMessagesCount = (v.gFreeMessagesCount + n) % 65536 := by
  intro n
  induction n with
  | zero => intro v h; simp [MEM_Init.blocks]; omega
  | succ n ih =>
    intro v h
    rw [MEM_Init.blocks, ih]
    · simp only []; omega
    · simp only []; omega

theorem two_pow_statBits {c : Config} (hw : 8 ≤ c.statBits) : 256 ≤ 2 ^ c.statBits := by
  calc 256 = 2 ^ 8 := by norm_num
    _ ≤ 2 ^ c.statBits := Nat.pow_le_pow_right (by norm_num) hw

theorem pool_pPools (c : Config) (hw : 8 ≤ c.statBits) (i : Nat) (e : poolInfo_t) (pHeap : Nat)
    (hdr : Nat → listHeader_t) (g : Nat) :
    (MEM_Init.pool c i e pHeap hdr g).pPools =
      { anchor := sliceAddrs (e.blockSize + c.sizeofListHeader) (e.poolSize % 256) pHeap
        nextBlockSize := 0
        blockSize := 0
        poolStatistics :=
          { numBlocks := e.poolSize % 256, allocatedBlocks := 0, allocatedBlocksPeak := 0,
            allocationFailures := 0, freeFailures := 0 } } := by
  have hW := two_pow_statBits hw
  have hn : e.poolSize % 256 < 2 ^ c.statBits := by
    have := Nat.mod_lt e.poolSize (by norm_num : 256 > 0)
    omega
  unfold MEM_Init.pool
  rw [blocks_pPools c i e.blockSize _ _ (by simpa using hn)]
  simp [ListInit]

theorem pool_pHeap (c : Config) (i : Nat) (e : poolInfo_t) (pHeap : Nat)
    (hdr : Nat → listHeader_t) (g : Nat) :
    (MEM_Init.pool c i e pHeap hdr g).pHeap
      = pHeap + e.poolSize % 256 * (e.blockSize + c.sizeofListHeader) := by
  unfold MEM_Init.pool
  rw [blocks_pHeap]

theorem pool_hdr (c : Config) (i : Nat) (e : poolInfo_t) (pHeap : Nat)
    (hdr : Nat → listHeader_t) (g : Nat) (a : Nat) :
    (MEM_Init.pool c i e pHeap hdr g).hdr a =
      if a ∈ sliceAddrs (e.blockSize + c.sizeofListHeader) (e.poolSize % 256) pHeap
      then { list := some i, pParentPool := PoolPtr.pool i } else hdr a := by
  unfold MEM_Init.pool
  rw [blocks_hdr]

theorem pool_gFree (c : Config) (i : Nat) (e : poolInfo_t) (pHeap : Nat)
    (hdr : Nat → listHeader_t) (g : Nat) (hg : g < 65536) :
    (MEM_Init.pool c i e pHeap hdr g).gFreeMessagesCount = (g + e.poolSize % 256) % 65536 := by
  unfold MEM_Init.pool
  rw [blocks_gFree _ _ _ _ _ hg]

theorem pools_stop (c : Config) (e term : poolInfo_t) (i pHeap : Nat)
    (hdr : Nat → listHeader_t) (g : Nat) (h : term.blockSize = 0) (rest : List poolInfo_t) :
    MEM_Init.pools c (e :: term :: rest) i pHeap hdr g =
      ([{ (MEM_Init.pool c i e pHeap hdr g).pPools with
            blockSize := e.blockSize, nextBlockSize := 0 }],
        (MEM_Init.pool c i e pHeap hdr g).hdr,
        (MEM_Init.pool c i e pHeap hdr g).gFreeMessagesCount) := by
  rw [MEM_Init.pools]
  simp [h]

theorem pools_go (c : Config) (e next : poolInfo_t) (i pHeap : Nat)
    (hdr : Nat → listHeader_t) (g : Nat) (h : next.blockSize ≠ 0) (rest : List poolInfo_t) :
    MEM_Init.pools c (e :: next :: rest) i pHeap hdr g =
      ({ (MEM_Init.pool c i e pHeap hdr g).pPools with
            blockSize := e.blockSize, nextBlockSize := next.blockSize } ::
          (MEM_Init.pools c (next :: rest) (i + 1) (MEM_Init.pool c i e pHeap hdr g).pHeap
            (MEM_Init.pool c i e pHeap hdr g).hdr
            (MEM_Init.pool c i e pHeap hdr g).gFreeMessagesCount).1,
        (MEM_Init.pools c (next :: rest) (i + 1) (MEM_Init.pool c i e pHeap hdr g).pHeap
            (MEM_Init.pool c i e pHeap hdr g).hdr
            (MEM_Init.pool c i e pHeap hdr g).gFreeMessagesCount).2.1,
        (MEM_Init.pools c (next :: rest) (i + 1) (MEM_Init.pool c i e pHeap hdr g).pHeap
            (MEM_Init.pool c i e pHeap hdr g).hdr
            (MEM_Init.pool c i e pHeap hdr g).gFreeMessagesCount).2.2) := by
  rw [MEM_Init.pools]
  simp [h]

theorem pools_fst (c : Config) (hw : 8 ≤ c.statBits) :
    ∀ (t : List poolInfo_t) (i pHeap : Nat) (hdr : Nat → listHeader_t) (g : Nat),
      t ≠ [] → (∀ e ∈ t, e.blockSize ≠ 0) →
      (MEM_Init.pools c (t ++ [{ blockSize := 0, poolSize := 0 }]) i pHeap hdr g).1
        = layout c t pHeap := by
  intro t
  induction t with
  | nil => intro i pHeap hdr g h; exact absurd rfl h
  | cons e t ih =>
    intro i pHeap hdr g _ hz
    cases t with
    | nil =>
      rw [List.cons_append, List.nil_append, pools_stop c e _ i pHeap hdr g rfl,
        pool_pPools c hw]
      simp [layout, headBlockSize]
    | cons e' t' =>
      have hz' : e'.blockSize ≠ 0 := hz e' (by simp)
      rw [List.cons_append, List.cons_append, pools_go c e e' i pHeap hdr g hz',
        ← List.cons_append, ih _ _ _ _ (by simp) (fun x hx => hz x (by simp [hx])),
        pool_pPools c hw, pool_pHeap]
      simp [layout, headBlockSize]

theorem pools_hdr_below (c : Config) (hH : 0 < c.sizeofListHeader) :
    ∀ (t : List poolInfo_t) (i pHeap : Nat) (hdr : Nat → listHeader_t) (g : Nat),
      t ≠ [] → (∀ e ∈ t, e.blockSize ≠ 0) → ∀ a, a < pHeap →
      (MEM_Init.pools c (t ++ [{ blockSize := 0, poolSize := 0 }]) i pHeap hdr g).2.1 a
        = hdr a := by
  intro t
  induction t with
  | nil => intro i pHeap hdr g h; exact absurd rfl h
  | cons e t ih =>
    intro i pHeap hdr g _ hz a ha
    have hd : 0 < e.blockSize + c.sizeofListHeader := by omega
    have hnot : a ∉ sliceAddrs (e.blockSize + c.sizeofListHeader) (e.poolSize % 256) pHeap := by
      intro hm
      have := mem_sliceAddrs hd _ _ _ hm
      omega
    cases t with
    | nil =>
      rw [List.cons_append, List.nil_append, pools_stop c e _ i pHeap hdr g rfl]
      simp only []
      rw [pool_hdr, if_neg hnot]
    | cons e' t' =>
      have hz' : e'.blockSize ≠ 0 := hz e' (by simp)
      rw [List.cons_append, List.cons_append, pools_go c e e' i pHeap hdr g hz']
      simp only []
      rw [← List.cons_append, ih _ _ _ _ (by simp) (fun x hx => hz x (by simp [hx])) a
        (by rw [pool_pHeap]; omega), pool_hdr, if_neg hnot]

theorem pools_hdr_block (c : Config) (hH : 0 < c.sizeofListHeader) :
    ∀ (t : List poolInfo_t) (i pHeap : Nat) (hdr : Nat → listHeader_t) (g : Nat),
      t ≠ [] → (∀ e ∈ t, e.blockSize ≠ 0) →
      ∀ k p, (layout c t pHeap)[k]? = some p → ∀ b ∈ p.anchor,
      (MEM_Init.pools c (t ++ [{ blockSize := 0, poolSize := 0 }]) i pHeap hdr g).2.1 b
        = { list := some (i + k), pParentPool := PoolPtr.pool (i + k) } := by
  intro t
  induction t with
  | nil => intro i pHeap hdr g h; exact absurd rfl h
  | cons e t ih =>
    intro i pHeap hdr g _ hz k p hk b hb
    have hd : 0 < e.blockSize + c.sizeofListHeader := by omega
    cases t with
    | nil =>
      rw [List.cons_append, List.nil_append, pools_stop c e _ i pHeap hdr g rfl]
      simp only []
      cases k with
      | zero =>
        simp only [layout, List.getElem?_cons_zero, Option.some.injEq] at hk
        subst hk
        rw [pool_hdr, if_pos hb]
        rfl
      | succ k => simp [layout] at hk
    | cons e' t' =>
      have hz' : e'.blockSize ≠ 0 := hz e' (by simp)
      rw [List.cons_append, List.cons_append, pools_go c e e' i pHeap hdr g hz']
      simp only []
      cases k with
      | zero =>
        simp only [layout, List.getElem?_cons_zero, Option.some.injEq] at hk
        subst hk
        have hlt := (mem_sliceAddrs hd _ _ _ hb).2
        rw [← List.cons_append, pools_hdr_below c hH _ _ _ _ _ (by simp)
          (fun x hx => hz x (by simp [hx])) b (by rw [pool_pHeap]; omega), pool_hdr, if_pos hb]
        rfl
      | succ k =>
        rw [layout, List.getElem?_cons_succ] at hk
        rw [← List.cons_append, pool_pHeap, ih _ _ _ _ (by simp)
          (fun x hx => hz x (by simp [hx])) k p hk b hb]
        have : i + 1 + k = i + (k + 1) := by omega
        rw [this]

theorem layout_lower (c : Config) (hH : 0 < c.sizeofListHeader) :
    ∀ (t : List poolInfo_t) (a : Nat) (p : pools_t), p ∈ layout c t a →
      ∀ b ∈ p.anchor, a ≤ b := by
  intro t
  induction t with
  | nil => intro a p h; simp [layout] at h
  | cons e t ih =>
    intro a p h b hb
    have hd : 0 < e.blockSize + c.sizeofListHeader := by omega
    simp only [layout, List.mem_cons] at h
    rcases h with h | h
    · subst h
      exact (mem_sliceAddrs hd _ _ _ hb).1
    · have := ih _ p h b hb
      omega

theorem layout_distinct (c : Config) (hH : 0 < c.sizeofListHeader) :
    ∀ (t : List poolInfo_t) (a : Nat) (i j : Nat) (p q : pools_t) (b : Nat),
      (layout c t a)[i]? = some p → (layout c t a)[j]? = some q →
      b ∈ p.anchor → b ∈ q.anchor → i = j := by
  intro t
  induction t with
  | nil => intro a i j p q b h; simp [layout] at h
  | cons e t ih =>
    intro a i j p q b hi hj hp hq
    have hd : 0 < e.blockSize + c.sizeofListHeader := by omega
    cases i with
    | zero =>
      cases j with
      | zero => rfl
      | succ j =>
        simp only [layout, List.getElem?_cons_zero, Option.some.injEq] at hi
        rw [layout, List.getElem?_cons_succ] at hj
        subst hi
        have h1 := (mem_sliceAddrs hd _ _ _ hp).2
        have h2 := layout_lower c hH _ _ q (List.getElem?_mem hj) b hq
        omega
    | succ i =>
      cases j with
      | zero =>
        simp only [layout, List.getElem?_cons_zero, Option.some.injEq] at hj
        rw [layout, List.getElem?_cons_succ] at hi
        subst hj
        have h1 := (mem_sliceAddrs hd _ _ _ hq).2
        have h2 := layout_lower c hH _ _ p (List.getElem?_mem hi) b hp
        omega
      | succ j =>
        rw [layout, List.getElem?_cons_succ] at hi hj
        rw [ih _ i j p q b hi hj hp hq]

theorem layout_pool (c : Config) (hH : 0 < c.sizeofListHeader) :
    ∀ (t : List poolInfo_t) (a : Nat) (p : pools_t), p ∈ layout c t a →
      p.anchor.Nodup ∧ p.anchor.length < 256 ∧
      p.poolStatistics =
        { numBlocks := p.anchor.length, allocatedBlocks := 0, allocatedBlocksPeak := 0,
          allocationFailures := 0, freeFailures := 0 } := by
  intro t
  induction t with
  | nil => intro a p h; simp [layout] at h
  | cons e t ih =>
    intro a p h
    have hd : 0 < e.blockSize + c.sizeofListHeader := by omega
    simp only [layout, List.mem_cons] at h
    rcases h with h | h
    · subst h
      refine ⟨nodup_sliceAddrs hd _ _, ?_, ?_⟩
      · simp only [length_sliceAddrs]
        exact Nat.mod_lt _ (by norm_num)
      · simp only [length_sliceAddrs]
    · exact ih _ p h

theorem layout_linked (c : Config) :
    ∀ (t : List poolInfo_t) (a : Nat), (∀ e ∈ t, e.blockSize ≠ 0) → Linked (layout c t a) := by
  intro t
  induction t with
  | nil => intro a _; simp [layout, Linked]
  | cons e t ih =>
    intro a hz
    cases t with
    | nil => simp [layout, Linked, headBlockSize]
    | cons e' t' =>
      have hz' : e'.blockSize ≠ 0 := hz e' (by simp)
      have := ih (a + e.poolSize % 256 * (e.blockSize + c.sizeofListHeader))
        (fun x hx => hz x (by simp [hx]))
      rw [layout] at this
      rw [layout, layout, Linked]
      exact ⟨rfl, hz', this⟩

theorem layout_map (c : Config) :
    ∀ (t : List poolInfo_t) (a : Nat),
      (layout c t a).map (fun p => (p.blockSize, p.anchor.length))
        = t.map (fun e => (e.blockSize, e.poolSize % 256)) := by
  intro t
  induction t with
  | nil => intro a; simp [layout]
  | cons e t ih => intro a; simp [layout, length_sliceAddrs, ih]

theorem init_memPools (c : Config) (boot : MemState) (hv : ValidConfig c) :
    (MEM_Init c boot).2.memPools = layout c c.PoolsDetails_c c.memHeap := by
  obtain ⟨h1, h2, _, _, _, h6, _⟩ := hv
  simp only [MEM_Init, poolInfo]
  exact pools_fst c h6 _ _ _ _ _ h1 h2

theorem init_facts (c : Config) (boot : MemState) (hv : ValidConfig c) :
    InitFacts c (MEM_Init c boot).2 := by
  have hm := init_memPools c boot hv
  obtain ⟨h1, h2, _, h4, _, h6, _⟩ := hv
  refine ⟨h4, h6, ?_, ?_, ?_, ?_, ?_, ?_, ?_⟩
  · rw [hm]; exact layout_linked c _ _ h2
  · rw [hm]
    cases ht : c.PoolsDetails_c with
    | nil => exact absurd ht h1
    | cons e t => simp [layout]
  · intro i j p q b hi hj hp hq
    rw [hm] at hi hj
    exact layout_distinct c h4 _ _ i j p q b hi hj hp hq
  · intro p hp
    rw [hm] at hp
    exact (layout_pool c h4 _ _ p hp).1
  · intro p hp
    rw [hm] at hp
    exact (layout_pool c h4 _ _ p hp).2.2
  · intro p hp
    rw [hm] at hp
    exact (layout_pool c h4 _ _ p hp).2.1
  · intro i p hi b hb
    rw [hm] at hi
    have := pools_hdr_block c h4 c.PoolsDetails_c 0 c.memHeap boot.hdr 0 h1 h2 i p hi b hb
    simpa [MEM_Init, poolInfo] using this

/-! ## The outcomes of `MEM_BufferAlloc` -/

theorem alloc_loop_cases (c : Config) (s : MemState) :
    ∀ (rest : List pools_t) (i m : Nat),
      (∀ (k : Nat) (p : pools_t), rest[k]? = some p → s.memPools[i + k]? = some p) →
      MEM_BufferAlloc.loop c s rest i m = (0, s) ∨
      (∃ (j : Nat) (p : pools_t), s.memPools[j]? = some p ∧
        MEM_BufferAlloc.loop c s rest i m = (0, failedState c s j p)) ∨
      (∃ (j : Nat) (p : pools_t) (b : Nat) (tl : List Nat), s.memPools[j]? = some p ∧
        p.anchor = b :: tl ∧ m ≤ p.blockSize ∧ m ≠ 0 ∧
        MEM_BufferAlloc.loop c s rest i m
          = (b + c.sizeofListHeader, servedState c s j p b tl)) := by
  intro rest
  induction rest with
  | nil => intro i m _; left; rfl
  | cons p rest ih =>
    intro i m hrest
    have hp : s.memPools[i]? = some p := by simpa using hrest 0 p (by simp)
    have hrest' : ∀ (k : Nat) (q : pools_t), rest[k]? = some q →
        s.memPools[i + 1 + k]? = some q := by
      intro k q hk
      have := hrest (k + 1) q (by simpa using hk)
      rwa [show i + 1 + k = i + (k + 1) by omega]
    have hfail : MEM_BufferAlloc.fail c s i p = (0, failedState c s i p) := rfl
    rw [MEM_BufferAlloc.loop]
    by_cases hm : m = 0
    · right; left
      exact ⟨i, p, hp, by simp [hm, hfail]⟩
    · simp only [hm, if_false]
      by_cases hle : m ≤ p.blockSize
      · simp only [hle, if_true]
        cases ha : p.anchor with
        | nil =>
          simp only [ListRemoveHead]
          by_cases hgt : m > p.nextBlockSize
          · right; left
            exact ⟨i, p, hp, by simp [hgt, hfail]⟩
          · simp only [hgt, if_false]
            by_cases hn : p.nextBlockSize = 0
            · right; left
              exact ⟨i, p, hp, by simp [hn, hfail]⟩
            · simp only [ne_eq, hn, not_false_eq_true, if_true]
              rcases ih (i + 1) p.nextBlockSize hrest' with h | h | h
              · left; exact h
              · right; left; exact h
              · right; right
                obtain ⟨j, q, b, tl, h1, h2, h3, _, h5⟩ := h
                exact ⟨j, q, b, tl, h1, h2, by omega, hm, h5⟩
        | cons b tl =>
          right; right
          refine ⟨i, p, b, tl, hp, ha, hle, hm, ?_⟩
          simp [ListRemoveHead, servedState, servedPool]
      · simp only [hle, if_false]
        by_cases hn : p.nextBlockSize = 0
        · right; left
          exact ⟨i, p, hp, by simp [hn, hfail]⟩
        · simp only [ne_eq, hn, not_false_eq_true, if_true]
          rcases ih (i + 1) m hrest' with h | h | h
          · left; exact h
          · right; left; exact h
          · right; right; exact h

theorem alloc_cases (c : Config) (s : MemState) (numBytes : Nat) :
    MEM_BufferAlloc c s numBytes = (0, s) ∨
    (∃ (j : Nat) (p : pools_t), s.memPools[j]? = some p ∧
      MEM_BufferAlloc c s numBytes = (0, failedState c s j p)) ∨
    (∃ (j : Nat) (p : pools_t) (b : Nat) (tl : List Nat), s.memPools[j]? = some p ∧
      p.anchor = b :: tl ∧ numBytes ≤ p.blockSize ∧ numBytes ≠ 0 ∧
      MEM_BufferAlloc c s numBytes
        = (b + c.sizeofListHeader, servedState c s j p b tl)) := by
  unfold MEM_BufferAlloc
  exact alloc_loop_cases c s s.memPools 0 numBytes (by intro k p h; simpa using h)

/-! ## The invariant -/

theorem getElem?_set_some {α : Type} {l : List α} {j i : Nat} {a x y : α}
    (hj : l[j]? = some y) :
    (l.set j a)[i]? = some x ↔ (i = j ∧ x = a) ∨ (i ≠ j ∧ l[i]? = some x) := by
  have hlt : j < l.length := (List.getElem?_eq_some.1 hj).1
  rw [List.getElem?_set]
  by_cases h : j = i
  · subst h
    simp [hlt, eq_comm]
  · have h' : i ≠ j := fun e => h e.symm
    simp [h, h']

theorem shape_same (s0 : MemState) {s : MemState}
    (hs : s.memPools.map shape = s0.memPools.map shape) {i : Nat} {p : pools_t}
    (hp : s.memPools[i]? = some p) :
    ∃ p0, s0.memPools[i]? = some p0 ∧ shape p0 = shape p := by
  have h1 : (s.memPools.map shape)[i]? = some (shape p) := by simp [hp]
  rw [hs] at h1
  simp only [List.getElem?_map, Option.map_eq_some'] at h1
  exact h1

theorem inv_init (c : Config) (s0 : MemState) (hf : InitFacts c s0) : Inv c s0 s0 [] := by
  refine ⟨rfl, ?_, ?_, List.nodup_nil⟩
  · intro i p p0 hp hp0
    rw [hp] at hp0
    cases hp0
    have hmem := List.getElem?_mem hp
    refine ⟨hf.nodup p hmem, List.Subset.refl _, ?_, ?_⟩
    · rw [hf.stats p hmem]; simp
    · intro b hb
      rw [hf.hdr i p hp b hb]
      simp [hb]
  · intro q
    constructor
    · intro h; simp at h
    · rintro ⟨i, p, p0, b, hp, hp0, hb, hnb, _⟩
      rw [hp] at hp0
      cases hp0
      exact absurd hb hnb

theorem inv_counters (c : Config) {s0 s : MemState} {held : List Nat} (hi : Inv c s0 s held)
    {j : Nat} {p p' : pools_t} (hp : s.memPools[j]? = some p)
    (h1 : shape p' = shape p) (h2 : p'.anchor = p.anchor)
    (h3 : p'.poolStatistics.allocatedBlocks = p.poolStatistics.allocatedBlocks) :
    Inv c s0 { s with memPools := s.memPools.set j p' } held := by
  have hset : (s.memPools.set j p').map shape = s.memPools.map shape := by
    rw [List.map_set, h1]
    apply List.ext_getElem?
    intro n
    rw [List.getElem?_set]
    have hlt : j < s.memPools.length := (List.getElem?_eq_some.1 hp).1
    by_cases hn : j = n
    · subst hn
      have := (List.getElem?_eq_some.1 hp).2
      simp [hlt, this]
    · simp [hn]
  refine ⟨by simp only [hset, hi.shape], ?_, ?_, hi.held_nodup⟩
  · intro i q q0 hq hq0
    simp only [getElem?_set_some hp] at hq
    rcases hq with ⟨e1, e2⟩ | ⟨_, hq⟩
    · subst e1 e2
      have := hi.pools i p q0 hp hq0
      rw [h2, h3]
      exact this
    · exact hi.pools i q q0 hq hq0
  · intro q
    rw [hi.held_iff q]
    constructor
    · rintro ⟨i, q1, q0, b, hq1, hq0, hb, hnb, e⟩
      by_cases hij : i = j
      · subst hij
        rw [hp] at hq1
        cases hq1
        exact ⟨i, p', q0, b, (getElem?_set_some hp).2 (Or.inl ⟨rfl, rfl⟩), hq0, hb,
          by rw [h2]; exact hnb, e⟩
      · exact ⟨i, q1, q0, b, (getElem?_set_some hp).2 (Or.inr ⟨hij, hq1⟩), hq0, hb, hnb, e⟩
    · rintro ⟨i, q1, q0, b, hq1, hq0, hb, hnb, e⟩
      simp only [getElem?_set_some hp] at hq1
      rcases hq1 with ⟨e1, e2⟩ | ⟨_, hq1⟩
      · subst e1 e2
        exact ⟨i, p, q0, b, hp, hq0, hb, by rw [← h2]; exact hnb, e⟩
      · exact ⟨i, q1, q0, b, hq1, hq0, hb, hnb, e⟩

theorem shape_set {l : List pools_t} {j : Nat} {p p' : pools_t} (hp : l[j]? = some p)
    (h1 : shape p' = shape p) : (l.set j p').map shape = l.map shape := by
  rw [List.map_set, h1]
  apply List.ext_getElem?
  intro n
  rw [List.getElem?_set]
  have hlt : j < l.length := (List.getElem?_eq_some.1 hp).1
  by_cases hn : j = n
  · subst hn
    have := (List.getElem?_eq_some.1 hp).2
    simp [hlt, this]
  · simp [hn]

theorem inv_served (c : Config) {s0 s : MemState} {held : List Nat} (hf : InitFacts c s0)
    (hi : Inv c s0 s held) {j : Nat} {p : pools_t} {b : Nat} {tl : List Nat}
    (hp : s.memPools[j]? = some p) (ha : p.anchor = b :: tl) :
    Inv c s0 (servedState c s j p b tl) ((b + c.sizeofListHeader) :: held) := by
  obtain ⟨p0, hp0, _⟩ := shape_same s0 hi.shape hp
  obtain ⟨hnd, hsub, hcnt, hhdr⟩ := hi.pools j p p0 hp hp0
  rw [ha] at hnd hsub hcnt
  have hb0 : b ∈ p0.anchor := hsub (by simp)
  have hbtl : b ∉ tl := (List.nodup_cons.1 hnd).1
  have hsmall := hf.small p0 (List.getElem?_mem hp0)
  have hW := two_pow_statBits hf.bits
  have hmod : (p.poolStatistics.allocatedBlocks + 1) % 2 ^ c.statBits
      = p.poolStatistics.allocatedBlocks + 1 := by
    apply Nat.mod_eq_of_lt
    simp only [List.length_cons] at hcnt
    omega
  have hnotheld : b + c.sizeofListHeader ∉ held := by
    intro hmem
    obtain ⟨i, q, q0, b1, hq, hq0, hb1, hnb1, e⟩ := (hi.held_iff _).1 hmem
    have hbb : b1 = b := by omega
    subst hbb
    have hij := hf.distinct i j q0 p0 b1 hq0 hp0 hb1 hb0
    subst hij
    rw [hp] at hq
    cases hq
    exact hnb1 (by rw [ha]; simp)
  refine ⟨?_, ?_, ?_, List.nodup_cons.2 ⟨hnotheld, hi.held_nodup⟩⟩
  · simp only [servedState]
    rw [shape_set hp (by rfl), hi.shape]
  · intro i q q0 hq hq0
    simp only [servedState, getElem?_set_some hp] at hq
    rcases hq with ⟨e1, e2⟩ | ⟨hij, hq⟩
    · subst e1 e2
      rw [hp0] at hq0
      cases hq0
      refine ⟨(List.nodup_cons.1 hnd).2, fun x hx => hsub (List.mem_cons_of_mem _ hx), ?_, ?_⟩
      · simp only [servedPool, hmod]
        simp only [List.length_cons] at hcnt
        omega
      · intro b1 hb1
        obtain ⟨h1, h2⟩ := hhdr b1 hb1
        simp only [servedState, servedPool, setList]
        by_cases hbb : b1 = b
        · subst hbb
          simp [h1, hbtl]
        · simp only [hbb, if_false]
          refine ⟨h1, ?_⟩
          rw [h2, ha]
          simp [hbb]
    · obtain ⟨h1, h2, h3, h4⟩ := hi.pools i q q0 hq hq0
      refine ⟨h1, h2, h3, ?_⟩
      intro b1 hb1
      have hbb : b1 ≠ b := by
        intro e
        subst e
        exact hij (hf.distinct i j q0 p0 b1 hq0 hp0 hb1 hb0)
      simp only [servedState, setList, hbb, if_false]
      exact h4 b1 hb1
  · intro x
    simp only [List.mem_cons, hi.held_iff x, servedState]
    constructor
    · rintro (e | ⟨i, q, q0, b1, hq, hq0, hb1, hnb1, e⟩)
      · exact ⟨j, servedPool c p tl, p0, b, (getElem?_set_some hp).2 (Or.inl ⟨rfl, rfl⟩),
          hp0, hb0, hbtl, e⟩
      · by_cases hij : i = j
        · subst hij
          rw [hp] at hq
          cases hq
          refine ⟨i, servedPool c p tl, q0, b1,
            (getElem?_set_some hp).2 (Or.inl ⟨rfl, rfl⟩), hq0, hb1, ?_, e⟩
          intro hm
          exact hnb1 (by rw [ha]; simp [show b1 ∈ tl from hm])
        · exact ⟨i, q, q0, b1, (getElem?_set_some hp).2 (Or.inr ⟨hij, hq⟩), hq0, hb1,
            hnb1, e⟩
    · rintro ⟨i, q, q0, b1, hq, hq0, hb1, hnb1, e⟩
      simp only [getElem?_set_some hp] at hq
      rcases hq with ⟨e1, e2⟩ | ⟨_, hq⟩
      · subst e1 e2
        by_cases hbb : b1 = b
        · left; rw [e, hbb]
        · right
          refine ⟨i, p, q0, b1, hp, hq0, hb1, ?_, e⟩
          rw [ha]
          simp only [List.mem_cons, not_or]
          exact ⟨hbb, hnb1⟩
      · right
        exact ⟨i, q, q0, b1, hq, hq0, hb1, hnb1, e⟩

theorem inv_freed (c : Config) {s0 s : MemState} {held : List Nat} (hf : InitFacts c s0)
    (hi : Inv c s0 s held) {j : Nat} {p p0 : pools_t} {b : Nat}
    (hp : s.memPools[j]? = some p) (hp0 : s0.memPools[j]? = some p0)
    (hb0 : b ∈ p0.anchor) (hnb : b ∉ p.anchor) :
    Inv c s0 (freedState c s j p b)
      (held.filter (fun q => q ≠ b + c.sizeofListHeader)) := by
  obtain ⟨hnd, hsub, hcnt, hhdr⟩ := hi.pools j p p0 hp hp0
  have hsmall := hf.small p0 (List.getElem?_mem hp0)
  have hW := two_pow_statBits hf.bits
  have hlen : (b :: p.anchor).length ≤ p0.anchor.length := by
    apply List.Subperm.length_le
    apply List.subperm_of_subset (List.nodup_cons.2 ⟨hnb, hnd⟩)
    intro x hx
    simp only [List.mem_cons] at hx
    rcases hx with hx | hx
    · rw [hx]; exact hb0
    · exact hsub hx
  simp only [List.length_cons] at hlen
  have hmod : (p.poolStatistics.allocatedBlocks + (2 ^ c.statBits - 1)) % 2 ^ c.statBits
      = p.poolStatistics.allocatedBlocks - 1 := by
    have e : p.poolStatistics.allocatedBlocks + (2 ^ c.statBits - 1)
        = (p.poolStatistics.allocatedBlocks - 1) + 2 ^ c.statBits := by omega
    rw [e, Nat.add_mod_right]
    apply Nat.mod_eq_of_lt
    omega
  refine ⟨?_, ?_, ?_, hi.held_nodup.filter _⟩
  · simp only [freedState]
    rw [shape_set hp (by rfl), hi.shape]
  · intro i q q0 hq hq0
    simp only [freedState, getElem?_set_some hp] at hq
    rcases hq with ⟨e1, e2⟩ | ⟨hij, hq⟩
    · subst e1 e2
      rw [hp0] at hq0
      cases hq0
      refine ⟨?_, ?_, ?_, ?_⟩
      · simp only [freedPool]
        rw [List.nodup_append]
        refine ⟨hnd, List.nodup_singleton b, ?_⟩
        intro x hx hx'
        simp only [List.mem_singleton] at hx'
        subst hx'
        exact hnb hx
      · intro x hx
        simp only [freedPool, List.mem_append, List.mem_singleton] at hx
        rcases hx with hx | hx
        · exact hsub hx
        · rw [hx]; exact hb0
      · simp only [freedPool, hmod, List.length_append, List.length_singleton]
        omega
      · intro b1 hb1
        obtain ⟨h1, h2⟩ := hhdr b1 hb1
        simp only [freedState, freedPool, setList, List.mem_append, List.mem_singleton]
        by_cases hbb : b1 = b
        · subst hbb
          simp [h1]
        · simp only [hbb, if_false, or_false]
          exact ⟨h1, h2⟩
    · obtain ⟨h1, h2, h3, h4⟩ := hi.pools i q q0 hq hq0
      refine ⟨h1, h2, h3, ?_⟩
      intro b1 hb1
      have hbb : b1 ≠ b := by
        intro e
        subst e
        exact hij (hf.distinct i j q0 p0 b1 hq0 hp0 hb1 hb0)
      simp only [freedState, setList, hbb, if_false]
      exact h4 b1 hb1
  · intro x
    simp only [List.mem_filter, hi.held_iff x, freedState, decide_eq_true_eq]
    constructor
    · rintro ⟨⟨i, q, q0, b1, hq, hq0, hb1, hnb1, e⟩, hne⟩
      by_cases hij : i = j
      · subst hij
        rw [hp] at hq
        cases hq
        refine ⟨i, freedPool c p b, q0, b1,
          (getElem?_set_some hp).2 (Or.inl ⟨rfl, rfl⟩), hq0, hb1, ?_, e⟩
        simp only [freedPool, List.mem_append, List.mem_singleton, not_or]
        refine ⟨hnb1, ?_⟩
        intro hbb
        exact hne (by rw [e, hbb])
      · exact ⟨i, q, q0, b1, (getElem?_set_some hp).2 (Or.inr ⟨hij, hq⟩), hq0, hb1,
          hnb1, e⟩
    · rintro ⟨i, q, q0, b1, hq, hq0, hb1, hnb1, e⟩
      simp only [getElem?_set_some hp] at hq
      rcases hq with ⟨e1, e2⟩ | ⟨hij, hq⟩
      · subst e1 e2
        simp only [freedPool, List.mem_append, List.mem_singleton, not_or] at hnb1
        refine ⟨⟨i, p, q0, b1, hp, hq0, hb1, hnb1.1, e⟩, ?_⟩
        intro hx
        exact hnb1.2 (by omega)
      · refine ⟨⟨i, q, q0, b1, hq, hq0, hb1, hnb1, e⟩, ?_⟩
        intro hx
        have hbb : b1 = b := by omega
        subst hbb
        exact hij (hf.distinct i j q0 p0 b1 hq0 hp0 hb1 hb0)

/-! ## The outcomes of `MEM_BufferFree` on a block of the heap -/

theorem linked_of_shape : ∀ (l l' : List pools_t), l.map shape = l'.map shape →
    Linked l → Linked l'
  | [], [], _, _ => trivial
  | [], _ :: _, h, _ => by simp at h
  | _ :: _, [], h, _ => by simp at h
  | [p], [p'], h, hl => by
    simp only [List.map_cons, List.map_nil, List.cons.injEq, and_true, shape,
      Prod.mk.injEq] at h
    simp only [Linked] at hl ⊢
    omega
  | [_], _ :: _ :: _, h, _ => by simp at h
  | _ :: _ :: _, [_], h, _ => by simp at h
  | p :: q :: r, p' :: q' :: r', h, hl => by
    simp only [List.map_cons, List.cons.injEq] at h
    obtain ⟨h1, h2, h3⟩ := h
    have ih := linked_of_shape (q :: r) (q' :: r')
      (by simp only [List.map_cons, h2, h3]) hl.2.2
    simp only [shape, Prod.mk.injEq] at h1 h2
    refine ⟨?_, ?_, ih⟩
    · have := hl.1; omega
    · have := hl.2.1; omega

theorem scan_found (j : Nat) : ∀ (rest : List pools_t) (i : Nat) (p : pools_t),
    Linked rest → i ≤ j → rest[j - i]? = some p →
    MEM_BufferFree.scan (PoolPtr.pool j) rest i = some (j, p) := by
  intro rest
  induction rest with
  | nil => intro i p _ _ h; simp at h
  | cons p1 rest ih =>
    intro i p hl hij hp
    rw [MEM_BufferFree.scan]
    by_cases e : i = j
    · subst e
      simp only [Nat.sub_self, List.getElem?_cons_zero, Option.some.injEq] at hp
      simp [hp]
    · have hne : PoolPtr.pool j ≠ PoolPtr.pool i := by
        intro h; cases h; exact e rfl
      have hsucc : j - i = (j - (i + 1)) + 1 := by omega
      rw [hsucc, List.getElem?_cons_succ] at hp
      cases rest with
      | nil => simp at hp
      | cons q rest' =>
        have hnext : p1.nextBlockSize ≠ 0 := by
          have := hl.1; have := hl.2.1; omega
        simp only [hne, if_false, hnext]
        exact ih (i + 1) p hl.2.2 (by omega) hp

theorem free_block_cases (c : Config) {s0 s : MemState} {held : List Nat}
    (hf : InitFacts c s0) (hi : Inv c s0 s held) {j : Nat} {p0 : pools_t} {b : Nat}
    (hp0 : s0.memPools[j]? = some p0) (hb : b ∈ p0.anchor) :
    ∃ p, s.memPools[j]? = some p ∧
      ((b ∈ p.anchor ∧ MEM_BufferFree c s (b + c.sizeofListHeader)
          = (memStatus_t.MEM_FREE_ERROR_c,
              { s with memPools := s.memPools.set j (freeFailedPool c p) })) ∨
       (b ∉ p.anchor ∧ MEM_BufferFree c s (b + c.sizeofListHeader)
          = (memStatus_t.MEM_SUCCESS_c, freedState c s j p b))) := by
  have hH := hf.hsize
  obtain ⟨p, hp, _⟩ := shape_same s hi.shape.symm hp0
  obtain ⟨_, _, _, hhdr⟩ := hi.pools j p p0 hp hp0
  obtain ⟨hpar, hlist⟩ := hhdr b hb
  have hl : Linked s.memPools := linked_of_shape _ _ hi.shape.symm hf.linked
  have hscan := scan_found j s.memPools 0 p hl (Nat.zero_le _) (by simpa using hp)
  have hne : b + c.sizeofListHeader ≠ 0 := by omega
  refine ⟨p, hp, ?_⟩
  unfold MEM_BufferFree
  simp only [hne, if_false, Nat.add_sub_cancel, hpar, hscan]
  by_cases hmem : b ∈ p.anchor
  · left
    have hl2 : (s.hdr b).list ≠ none := fun h => (hlist.1 h) hmem
    refine ⟨hmem, ?_⟩
    simp [hl2, MEM_BufferFree.freeFailure, hp, freeFailedPool]
  · right
    have hl2 : (s.hdr b).list = none := hlist.2 hmem
    refine ⟨hmem, ?_⟩
    simp [hl2, freedState, freedPool, ListAddTail]

theorem mem_payloads {c : Config} {s0 : MemState} {q : Nat} (h : q ∈ payloads c s0) :
    ∃ (j : Nat) (p0 : pools_t) (b : Nat), s0.memPools[j]? = some p0 ∧ b ∈ p0.anchor ∧
      q = b + c.sizeofListHeader := by
  simp only [payloads, List.mem_map, List.mem_flatten] at h
  obtain ⟨b, ⟨l, ⟨p0, hp0, e⟩, hb⟩, e2⟩ := h
  obtain ⟨j, hj⟩ := List.mem_iff_getElem?.1 hp0
  subst e
  exact ⟨j, p0, b, hj, hb, e2.symm⟩

theorem reachable_inv (c : Config) (boot : MemState) (hv : ValidConfig c)
    {s : MemState} {held : List Nat} (hr : Reachable c boot s held) :
    Inv c (MEM_Init c boot).2 s held := by
  have hf := init_facts c boot hv
  induction hr with
  | init => exact inv_init c _ hf
  | @alloc s held numBytes _ ih =>
    rcases alloc_cases c s numBytes with h | ⟨j, p, hp, h⟩ | ⟨j, p, b, tl, hp, ha, _, _, h⟩
    · rw [h]; simpa using ih
    · rw [h]
      simp only [if_true]
      exact inv_counters c ih hp rfl rfl rfl
    · rw [h]
      have hne : b + c.sizeofListHeader ≠ 0 := by have := hf.hsize; omega
      simp only [hne, if_false]
      exact inv_served c hf ih hp ha
  | @free s held buffer _ hlegal ih =>
    rcases hlegal with h0 | hmem
    · subst h0
      simpa [MEM_BufferFree] using ih
    · obtain ⟨j, p0, b, hp0, hb, e⟩ := mem_payloads hmem
      subst e
      obtain ⟨p, hp, h | h⟩ := free_block_cases c hf ih hp0 hb
      · rw [h.2]
        simp only [reduceCtorEq, if_false]
        exact inv_counters c ih hp rfl rfl rfl
      · rw [h.2]
        simp only [if_true]
        exact inv_freed c hf ih hp hp0 hb h.1

/-! ## The claims -/

/-- C1 (conservation): in every state reached from `MEM_Init` on a valid table by
`MEM_BufferAlloc` / `MEM_BufferFree` calls, for every pool, the length of the
free list plus the `allocatedBlocks` counter equals the `numBlocks` counter. -/
theorem C1_conservation (c : Config) (boot : MemState) (hv : ValidConfig c)
    {s : MemState} {held : List Nat} (hr : Reachable c boot s held)
    (i : Nat) (p : pools_t) (hp : s.memPools[i]? = some p) :
    ListGetSize p.anchor + p.poolStatistics.allocatedBlocks = p.poolStatistics.numBlocks := by
  have hf := init_facts c boot hv
  have hi := reachable_inv c boot hv hr
  obtain ⟨p0, hp0, hsh⟩ := shape_same _ hi.shape hp
  obtain ⟨_, _, hcnt, _⟩ := hi.pools i p p0 hp hp0
  have hst := hf.stats p0 (List.getElem?_mem hp0)
  simp only [shape, Prod.mk.injEq] at hsh
  have h3 := hsh.2.2
  rw [hst] at h3
  simp only at h3
  simp only [ListGetSize]
  omega

/-- C1 on the example allocator after one allocation, pool 0. -/
theorem C1_conservation_witness :
    ValidConfig exampleConfig ∧ exampleOne.memPools[0]? = some examplePool ∧
    ListGetSize examplePool.anchor + examplePool.poolStatistics.allocatedBlocks
      = examplePool.poolStatistics.numBlocks :=
  ⟨by decide, by decide,
    C1_conservation exampleConfig exampleBoot (by decide)
      (Reachable.alloc 16 Reachable.init) 0 examplePool (by decide)⟩

/-- C2 (exclusive ownership): in every reachable state, `MEM_BufferAlloc` never
returns a pointer that is in `held` (returned by an earlier allocation and not
freed with success since); and every block of the heap is either held and in
no free list, or not held and exactly once in the free list of its own pool
and in no other list. -/
theorem C2_exclusive_ownership (c : Config) (boot : MemState) (hv : ValidConfig c)
    {s : MemState} {held : List Nat} (hr : Reachable c boot s held) :
    (∀ numBytes : Nat, (MEM_BufferAlloc c s numBytes).1 ≠ 0 →
      (MEM_BufferAlloc c s numBytes).1 ∉ held) ∧
    (∀ (i : Nat) (p0 : pools_t) (b : Nat), (MEM_Init c boot).2.memPools[i]? = some p0 →
      b ∈ p0.anchor →
      (b + c.sizeofListHeader ∈ held ∧ ∀ q ∈ s.memPools, b ∉ q.anchor) ∨
      (b + c.sizeofListHeader ∉ held ∧
        (∃ p, s.memPools[i]? = some p ∧ p.anchor.count b = 1) ∧
        ∀ (k : Nat) (q : pools_t), s.memPools[k]? = some q → b ∈ q.anchor → k = i)) := by
  have hf := init_facts c boot hv
  have hi := reachable_inv c boot hv hr
  have hother : ∀ (i : Nat) (p0 : pools_t) (b : Nat),
      (MEM_Init c boot).2.memPools[i]? = some p0 → b ∈ p0.anchor →
      ∀ (k : Nat) (q : pools_t), s.memPools[k]? = some q → b ∈ q.anchor → k = i := by
    intro i p0 b hp0 hb k q hq hbq
    obtain ⟨q0, hq0, _⟩ := shape_same _ hi.shape hq
    obtain ⟨_, hsub, _, _⟩ := hi.pools k q q0 hq hq0
    exact hf.distinct k i q0 p0 b hq0 hp0 (hsub hbq) hb
  constructor
  · intro numBytes hne
    rcases alloc_cases c s numBytes with h | ⟨j, p, _, h⟩ | ⟨j, p, b, tl, hp, ha, _, _, h⟩
    · rw [h] at hne; exact absurd rfl hne
    · rw [h] at hne; exact absurd rfl hne
    · rw [h]
      have := (inv_served c hf hi hp ha).held_nodup
      exact (List.nodup_cons.1 this).1
  · intro i p0 b hp0 hb
    obtain ⟨p, hp, _⟩ := shape_same s hi.shape.symm hp0
    obtain ⟨hnd, _, _, _⟩ := hi.pools i p p0 hp hp0
    by_cases hmem : b ∈ p.anchor
    · right
      refine ⟨?_, ⟨p, hp, List.count_eq_one_of_mem hnd hmem⟩, hother i p0 b hp0 hb⟩
      intro hheld
      obtain ⟨k, q, q0, b1, hq, hq0, hb1, hnb1, e⟩ := (hi.held_iff _).1 hheld
      have hbb : b1 = b := by omega
      subst hbb
      have hki := hf.distinct k i q0 p0 b1 hq0 hp0 hb1 hb
      subst hki
      rw [hp] at hq
      cases hq
      exact hnb1 hmem
    · left
      refine ⟨(hi.held_iff _).2 ⟨i, p, p0, b, hp, hp0, hb, hmem, rfl⟩, ?_⟩
      intro q hq hbq
      obtain ⟨k, hk⟩ := List.mem_iff_getElem?.1 hq
      have hki := hother i p0 b hp0 hb k q hk hbq
      subst hki
      rw [hp] at hk
      cases hk
      exact hmem hbq

/-- C2 on the example allocator: after one allocation the next allocation does
not return the pointer that is held. -/
theorem C2_exclusive_ownership_witness :
    ValidConfig exampleConfig ∧ (MEM_BufferAlloc exampleConfig exampleOne 16).1 ≠ 0 ∧
    (MEM_BufferAlloc exampleConfig exampleOne 16).1 ∉ [4112] :=
  ⟨by decide, by decide,
    (C2_exclusive_ownership exampleConfig exampleBoot (by decide)
      (Reachable.alloc 16 Reachable.init)).1 16 (by decide)⟩

/-! ## The search of `MEM_BufferAlloc` on increasing block sizes -/

theorem layout_blockSize (c : Config) : ∀ (t : List poolInfo_t) (a : Nat),
    (layout c t a).map (fun p => p.blockSize) = t.map (fun e => e.blockSize) := by
  intro t
  induction t with
  | nil => intro a; simp [layout]
  | cons e t ih => intro a; simp [layout, ih]

theorem blockSize_of_shape {l l' : List pools_t} (h : l.map shape = l'.map shape) :
    l.map (fun p => p.blockSize) = l'.map (fun p => p.blockSize) := by
  have e : (fun p : pools_t => p.blockSize) = Prod.fst ∘ shape := by
    funext p; rfl
  rw [e, ← List.map_map, ← List.map_map, h]

theorem reachable_increasing (c : Config) (boot : MemState) (hv : ValidConfig c)
    {s : MemState} {held : List Nat} (hr : Reachable c boot s held) :
    (s.memPools.map (fun p => p.blockSize)).Pairwise (fun a b => a < b) := by
  have hi := reachable_inv c boot hv hr
  rw [blockSize_of_shape hi.shape, init_memPools c boot hv, layout_blockSize]
  exact (List.pairwise_map).2 hv.2.2.1

theorem reachable_linked (c : Config) (boot : MemState) (hv : ValidConfig c)
    {s : MemState} {held : List Nat} (hr : Reachable c boot s held) :
    Linked s.memPools :=
  linked_of_shape _ _ (reachable_inv c boot hv hr).shape.symm (init_facts c boot hv).linked

theorem alloc_loop_fit (c : Config) (s : MemState) (n : Nat) (hn : n ≠ 0) :
    ∀ (rest : List pools_t) (i m : Nat),
      (∀ (k : Nat) (p : pools_t), rest[k]? = some p → s.memPools[i + k]? = some p) →
      Linked rest → (rest.map (fun p => p.blockSize)).Pairwise (fun a b => a < b) →
      (m = n ∨ (n ≤ m ∧ ∃ p r, rest = p :: r ∧ m = p.blockSize)) → rest ≠ [] →
      ((∀ q ∈ rest, n ≤ q.blockSize → q.anchor = []) ∧
        (MEM_BufferAlloc.loop c s rest i m).1 = 0) ∨
      (∃ (k : Nat) (p : pools_t) (b : Nat) (tl : List Nat), rest[k]? = some p ∧
        p.anchor = b :: tl ∧ n ≤ p.blockSize ∧
        MEM_BufferAlloc.loop c s rest i m
          = (b + c.sizeofListHeader, servedState c s (i + k) p b tl) ∧
        ∀ (k' : Nat) (q : pools_t), rest[k']? = some q → k' < k →
          n ≤ q.blockSize → q.anchor = []) := by
  intro rest
  induction rest with
  | nil => intro i m _ _ _ _ h; exact absurd rfl h
  | cons p rest ih =>
    intro i m hrest hl hpw hm _
    have hrest' : ∀ (k : Nat) (q : pools_t), rest[k]? = some q →
        s.memPools[i + 1 + k]? = some q := by
      intro k q hk
      have := hrest (k + 1) q (by simpa using hk)
      rwa [show i + 1 + k = i + (k + 1) by omega]
    have hfail : (MEM_BufferAlloc.fail c s i p).1 = 0 := rfl
    have hm0 : m ≠ 0 := by
      rcases hm with h | ⟨h, _⟩
      · omega
      · omega
    rw [MEM_BufferAlloc.loop]
    simp only [hm0, if_false]
    by_cases hle : m ≤ p.blockSize
    · have hnle : n ≤ p.blockSize := by
        rcases hm with h | ⟨h, q, r, e, h2⟩
        · omega
        · simp only [List.cons.injEq] at e
          rw [← e.1] at h2
          omega
      simp only [hle, if_true]
      cases ha : p.anchor with
      | cons b tl =>
        right
        refine ⟨0, p, b, tl, by simp, ha, hnle, ?_, ?_⟩
        · simp [ListRemoveHead, servedState, servedPool]
        · intro k' q _ hk'; omega
      | nil =>
        simp only [ListRemoveHead]
        cases rest with
        | nil =>
          left
          have hnext : p.nextBlockSize = 0 := hl
          have hgt : m > p.nextBlockSize := by omega
          refine ⟨?_, by simp [hgt, hfail]⟩
          intro q hq _
          simp only [List.mem_singleton] at hq
          rw [hq]; exact ha
        | cons q r =>
          have hnext : p.nextBlockSize = q.blockSize := hl.1
          have hq0 : q.blockSize ≠ 0 := hl.2.1
          have hlt : p.blockSize < q.blockSize := by
            simp only [List.map_cons, List.pairwise_cons] at hpw
            exact hpw.1 q.blockSize (by simp)
          have hgt : ¬ m > p.nextBlockSize := by omega
          have hnz : p.nextBlockSize ≠ 0 := by omega
          simp only [hgt, if_false, ne_eq, hnz, not_false_eq_true, if_true]
          have hpw' : ((q :: r).map (fun p => p.blockSize)).Pairwise (fun a b => a < b) := by
            simp only [List.map_cons, List.pairwise_cons] at hpw ⊢
            exact hpw.2
          rcases ih (i + 1) p.nextBlockSize hrest' hl.2.2 hpw'
            (Or.inr ⟨by omega, q, r, rfl, hnext⟩) (by simp) with ⟨h1, h2⟩ | h
          · left
            refine ⟨?_, h2⟩
            intro x hx hxn
            simp only [List.mem_cons] at hx
            rcases hx with hx | hx
            · rw [hx]; exact ha
            · exact h1 x (by simpa using hx) hxn
          · right
            obtain ⟨k, x, b, tl, hk, hxa, hxn, hres, hbefore⟩ := h
            refine ⟨k + 1, x, b, tl, by simpa using hk, hxa, hxn, ?_, ?_⟩
            · rw [hres, show i + 1 + k = i + (k + 1) by omega]
            · intro k' y hk' hlt' hyn
              cases k' with
              | zero =>
                simp only [List.getElem?_cons_zero, Option.some.injEq] at hk'
                rw [← hk']; exact ha
              | succ k' =>
                exact hbefore k' y (by simpa using hk') (by omega) hyn
    · have hmn : m = n := by
        rcases hm with h | ⟨_, q, r, e, h2⟩
        · exact h
        · simp only [List.cons.injEq] at e
          rw [← e.1] at h2
          omega
      have hnp : ¬ n ≤ p.blockSize := by omega
      simp only [hle, if_false]
      cases rest with
      | nil =>
        left
        have hnext : p.nextBlockSize = 0 := hl
        refine ⟨?_, by simp [hnext, hfail]⟩
        intro q hq hqn
        simp only [List.mem_singleton] at hq
        rw [hq] at hqn
        exact absurd hqn hnp
      | cons q r =>
        have hnext : p.nextBlockSize = q.blockSize := hl.1
        have hq0 : q.blockSize ≠ 0 := hl.2.1
        have hnz : p.nextBlockSize ≠ 0 := by omega
        simp only [ne_eq, hnz, not_false_eq_true, if_true]
        have hpw' : ((q :: r).map (fun p => p.blockSize)).Pairwise (fun a b => a < b) := by
          simp only [List.map_cons, List.pairwise_cons] at hpw ⊢
          exact hpw.2
        rcases ih (i + 1) m hrest' hl.2.2 hpw' (Or.inl hmn) (by simp) with ⟨h1, h2⟩ | h
        · left
          refine ⟨?_, h2⟩
          intro x hx hxn
          simp only [List.mem_cons] at hx
          rcases hx with hx | hx
          · rw [hx] at hxn; exact absurd hxn hnp
          · exact h1 x (by simpa using hx) hxn
        · right
          obtain ⟨k, x, b, tl, hk, hxa, hxn, hres, hbefore⟩ := h
          refine ⟨k + 1, x, b, tl, by simpa using hk, hxa, hxn, ?_, ?_⟩
          · rw [hres, show i + 1 + k = i + (k + 1) by omega]
          · intro k' y hk' hlt' hyn
            cases k' with
            | zero =>
              simp only [List.getElem?_cons_zero, Option.some.injEq] at hk'
              rw [← hk'] at hyn
              exact absurd hyn hnp
            | succ k' =>
              exact hbefore k' y (by simpa using hk') (by omega) hyn

theorem increasing_index {l : List pools_t}
    (h : (l.map (fun p => p.blockSize)).Pairwise (fun a b => a < b))
    {i j : Nat} {p q : pools_t} (hp : l[i]? = some p) (hq : l[j]? = some q) (hij : i < j) :
    p.blockSize < q.blockSize := by
  rw [List.pairwise_map, List.pairwise_iff_getElem] at h
  obtain ⟨hi, e1⟩ := List.getElem?_eq_some.1 hp
  obtain ⟨hj, e2⟩ := List.getElem?_eq_some.1 hq
  have := h i j hi hj hij
  rw [e1, e2] at this
  exact this

/-- C3 (escalation): with a valid table (strictly increasing block sizes), in
every reachable state and for every request `numBytes > 0`, `MEM_BufferAlloc`
returns a block exactly when some pool with `blockSize >= numBytes` has a
non-empty free list; the block returned is the head of the free list of the
pool of smallest block size among those; otherwise the result is `NULL`. -/
theorem C3_escalation (c : Config) (boot : MemState) (hv : ValidConfig c)
    {s : MemState} {held : List Nat} (hr : Reachable c boot s held)
    (numBytes : Nat) (hn : numBytes ≠ 0) :
    ((MEM_BufferAlloc c s numBytes).1 ≠ 0 ↔
      ∃ q ∈ s.memPools, numBytes ≤ q.blockSize ∧ q.anchor ≠ []) ∧
    ((MEM_BufferAlloc c s numBytes).1 ≠ 0 →
      ∃ (p : pools_t) (b : Nat) (tl : List Nat), p ∈ s.memPools ∧ numBytes ≤ p.blockSize ∧
        p.anchor = b :: tl ∧ (MEM_BufferAlloc c s numBytes).1 = b + c.sizeofListHeader ∧
        ∀ q ∈ s.memPools, numBytes ≤ q.blockSize → q.anchor ≠ [] →
          p.blockSize ≤ q.blockSize) := by
  have hf := init_facts c boot hv
  have hi := reachable_inv c boot hv hr
  have hl := reachable_linked c boot hv hr
  have hpw := reachable_increasing c boot hv hr
  have hne : s.memPools ≠ [] := by
    intro e
    have := congrArg List.length hi.shape
    rw [e] at this
    simp only [List.map_nil, List.length_nil, List.length_map] at this
    exact hf.nonempty (List.length_eq_zero.1 this.symm)
  have hH := hf.hsize
  unfold MEM_BufferAlloc
  rcases alloc_loop_fit c s numBytes hn s.memPools 0 numBytes
    (by intro k p h; simpa using h) hl hpw (Or.inl rfl) hne with ⟨h1, h2⟩ | h
  · constructor
    · constructor
      · intro h; exact absurd h2 h
      · rintro ⟨q, hq, hqn, hqa⟩
        exact absurd (h1 q hq hqn) hqa
    · intro h; exact absurd h2 h
  · obtain ⟨k, p, b, tl, hk, ha, hpn, hres, hbefore⟩ := h
    have hpm : p ∈ s.memPools := List.getElem?_mem hk
    have hnz : (MEM_BufferAlloc.loop c s s.memPools 0 numBytes).1 ≠ 0 := by
      rw [hres]; simp only; omega
    refine ⟨⟨fun _ => ⟨p, hpm, hpn, by rw [ha]; simp⟩, fun _ => hnz⟩, fun _ => ?_⟩
    refine ⟨p, b, tl, hpm, hpn, ha, by rw [hres], ?_⟩
    intro q hq hqn hqa
    obtain ⟨k', hk'⟩ := List.mem_iff_getElem?.1 hq
    rcases Nat.lt_trichotomy k' k with hlt | heq | hgt
    · exact absurd (hbefore k' q hk' hlt hqn) hqa
    · subst heq
      rw [hk] at hk'
      cases hk'
      exact le_refl _
    · exact le_of_lt (increasing_index hpw hk hk' hgt)

/-- C3 on the example allocator: a 16-byte request after one allocation. -/
theorem C3_escalation_witness :
    ValidConfig exampleConfig ∧ (16 : Nat) ≠ 0 ∧
    ((MEM_BufferAlloc exampleConfig exampleOne 16).1 ≠ 0 ↔
      ∃ q ∈ exampleOne.memPools, 16 ≤ q.blockSize ∧ q.anchor ≠ []) :=
  ⟨by decide, by decide,
    (C3_escalation exampleConfig exampleBoot (by decide)
      (Reachable.alloc 16 Reachable.init) 16 (by decide)).1⟩

/-! ## `MEM_BufferGetSize` on the blocks of the heap -/

theorem layout_getElem (c : Config) : ∀ (t : List poolInfo_t) (a i : Nat) (p0 : pools_t),
    (layout c t a)[i]? = some p0 →
    ∃ e, t[i]? = some e ∧ p0.blockSize = e.blockSize ∧
      p0.anchor.length = e.poolSize % 256 := by
  intro t
  induction t with
  | nil => intro a i p0 h; simp [layout] at h
  | cons e t ih =>
    intro a i p0 h
    cases i with
    | zero =>
      simp only [layout, List.getElem?_cons_zero, Option.some.injEq] at h
      subst h
      exact ⟨e, by simp, rfl, by simp [length_sliceAddrs]⟩
    | succ i =>
      simp only [layout, List.getElem?_cons_succ] at h
      obtain ⟨e', h1, h2⟩ := ih _ i p0 h
      exact ⟨e', by simpa using h1, h2⟩

theorem getSize_block (c : Config) {s0 s : MemState} {held : List Nat}
    (hf : InitFacts c s0) (hi : Inv c s0 s held) {i : Nat} {p0 : pools_t} {b : Nat}
    (hp0 : s0.memPools[i]? = some p0) (hb : b ∈ p0.anchor) :
    MEM_BufferGetSize c s (b + c.sizeofListHeader) = some (p0.blockSize % 65536) := by
  have hH := hf.hsize
  obtain ⟨p, hp, hsh⟩ := shape_same s hi.shape.symm hp0
  obtain ⟨_, _, _, hhdr⟩ := hi.pools i p p0 hp hp0
  have hpar := (hhdr b hb).1
  have hne : b + c.sizeofListHeader ≠ 0 := by omega
  simp only [shape, Prod.mk.injEq] at hsh
  unfold MEM_BufferGetSize
  simp only [ne_eq, hne, not_false_eq_true, if_true, Nat.add_sub_cancel, hpar, hp,
    Option.map_some', hsh.1]

/-- C4 (at-least-N), amended: whenever `MEM_BufferAlloc(numBytes)` returns a
non-`NULL` pointer in a reachable state, the block behind it is a block of a
pool whose `blockSize` is at least `numBytes`; `MEM_BufferGetSize` of the result
is that block size modulo 65536, hence at least `numBytes` when the block size
is below 65536. -/
theorem C4_at_least (c : Config) (boot : MemState) (hv : ValidConfig c)
    {s : MemState} {held : List Nat} (hr : Reachable c boot s held)
    (numBytes : Nat) (hne : (MEM_BufferAlloc c s numBytes).1 ≠ 0) :
    ∃ (i : Nat) (p p0 : pools_t), s.memPools[i]? = some p ∧
      (MEM_Init c boot).2.memPools[i]? = some p0 ∧
      (MEM_BufferAlloc c s numBytes).1 - c.sizeofListHeader ∈ p0.anchor ∧
      ((MEM_BufferAlloc c s numBytes).2.hdr
        ((MEM_BufferAlloc c s numBytes).1 - c.sizeofListHeader)).pParentPool = PoolPtr.pool i ∧
      numBytes ≤ p.blockSize ∧
      MEM_BufferGetSize c (MEM_BufferAlloc c s numBytes).2 (MEM_BufferAlloc c s numBytes).1
        = some (p.blockSize % 65536) ∧
      (p.blockSize < 65536 →
        MEM_BufferGetSize c (MEM_BufferAlloc c s numBytes).2 (MEM_BufferAlloc c s numBytes).1
          = some p.blockSize) := by
  have hf := init_facts c boot hv
  have hi := reachable_inv c boot hv hr
  rcases alloc_cases c s numBytes with h | ⟨j, p, _, h⟩ | ⟨j, p, b, tl, hp, ha, hle, _, h⟩
  · rw [h] at hne; exact absurd rfl hne
  · rw [h] at hne; exact absurd rfl hne
  · obtain ⟨p0, hp0, hsh⟩ := shape_same _ hi.shape hp
    obtain ⟨_, hsub, _, _⟩ := hi.pools j p p0 hp hp0
    have hb0 : b ∈ p0.anchor := hsub (by rw [ha]; simp)
    have hi' := inv_served c hf hi hp ha
    have hsp : (servedState c s j p b tl).memPools[j]? = some (servedPool c p tl) :=
      (getElem?_set_some hp).2 (Or.inl ⟨rfl, rfl⟩)
    have hpar := ((hi'.pools j _ p0 hsp hp0).2.2.2 b hb0).1
    have hgs := getSize_block c hf hi' hp0 hb0
    simp only [shape, Prod.mk.injEq] at hsh
    rw [hsh.1] at hgs
    rw [h]
    simp only [Nat.add_sub_cancel]
    refine ⟨j, p, p0, hp, hp0, hb0, hpar, hle, hgs, ?_⟩
    intro hlt
    rw [hgs, Nat.mod_eq_of_lt hlt]

/-- C4, amended, on the example allocator: the second 16-byte allocation. -/
theorem C4_at_least_witness :
    ValidConfig exampleConfig ∧ (MEM_BufferAlloc exampleConfig exampleOne 16).1 ≠ 0 ∧
    ∃ (i : Nat) (p p0 : pools_t), exampleOne.memPools[i]? = some p ∧
      (MEM_Init exampleConfig exampleBoot).2.memPools[i]? = some p0 ∧
      (MEM_BufferAlloc exampleConfig exampleOne 16).1 - exampleConfig.sizeofListHeader
        ∈ p0.anchor ∧
      ((MEM_BufferAlloc exampleConfig exampleOne 16).2.hdr
        ((MEM_BufferAlloc exampleConfig exampleOne 16).1
          - exampleConfig.sizeofListHeader)).pParentPool = PoolPtr.pool i ∧
      16 ≤ p.blockSize ∧
      MEM_BufferGetSize exampleConfig (MEM_BufferAlloc exampleConfig exampleOne 16).2
        (MEM_BufferAlloc exampleConfig exampleOne 16).1 = some (p.blockSize % 65536) ∧
      (p.blockSize < 65536 →
        MEM_BufferGetSize exampleConfig (MEM_BufferAlloc exampleConfig exampleOne 16).2
          (MEM_BufferAlloc exampleConfig exampleOne 16).1 = some p.blockSize) :=
  ⟨by decide, by decide,
    C4_at_least exampleConfig exampleBoot (by decide)
      (Reachable.alloc 16 Reachable.init) 16 (by decide)⟩

/-- C4 as stated fails: with one class of 65536-byte blocks, the
table is valid, `MEM_BufferAlloc(1)` right after `MEM_Init` returns a block, and
`MEM_BufferGetSize` of the result is 0, which is below the request. -/
theorem C4_counterexample :
    ValidConfig bigConfig ∧ (MEM_BufferAlloc bigConfig bigInit 1).1 ≠ 0 ∧
    ¬ (∃ v, MEM_BufferGetSize bigConfig (MEM_BufferAlloc bigConfig bigInit 1).2
        (MEM_BufferAlloc bigConfig bigInit 1).1 = some v ∧ 1 ≤ v) := by
  refine ⟨by decide, by decide, ?_⟩
  rintro ⟨v, hv, hle⟩
  have h0 : MEM_BufferGetSize bigConfig (MEM_BufferAlloc bigConfig bigInit 1).2
      (MEM_BufferAlloc bigConfig bigInit 1).1 = some 0 := by decide
  rw [h0] at hv
  cases hv
  omega

theorem init_getElem (c : Config) (boot : MemState) (hv : ValidConfig c) {i : Nat}
    {p0 : pools_t} (hp0 : (MEM_Init c boot).2.memPools[i]? = some p0) :
    ∃ e, c.PoolsDetails_c[i]? = some e ∧ p0.blockSize = e.blockSize ∧
      p0.anchor.length = e.poolSize % 256 := by
  rw [init_memPools c boot hv] at hp0
  exact layout_getElem c _ _ i p0 hp0

/-- C5 (size lookup), amended: in every reachable state, for the pointer a
successful `MEM_BufferAlloc` returns (escalated or not) and for every pointer
that is held, `MEM_BufferGetSize` is the configured block size of the pool the
block comes from, modulo 65536; it is that block size itself when the size is
below 65536. -/
theorem C5_size_lookup (c : Config) (boot : MemState) (hv : ValidConfig c)
    {s : MemState} {held : List Nat} (hr : Reachable c boot s held) :
    (∀ numBytes : Nat, (MEM_BufferAlloc c s numBytes).1 ≠ 0 →
      ∃ (j : Nat) (e : poolInfo_t) (p : pools_t) (b : Nat) (tl : List Nat),
        c.PoolsDetails_c[j]? = some e ∧ s.memPools[j]? = some p ∧ p.anchor = b :: tl ∧
        MEM_BufferAlloc c s numBytes = (b + c.sizeofListHeader, servedState c s j p b tl) ∧
        MEM_BufferGetSize c (MEM_BufferAlloc c s numBytes).2 (MEM_BufferAlloc c s numBytes).1
          = some (e.blockSize % 65536) ∧
        (e.blockSize < 65536 →
          MEM_BufferGetSize c (MEM_BufferAlloc c s numBytes).2
            (MEM_BufferAlloc c s numBytes).1 = some e.blockSize)) ∧
    (∀ q ∈ held, ∃ (i : Nat) (e : poolInfo_t) (p0 : pools_t),
        c.PoolsDetails_c[i]? = some e ∧ (MEM_Init c boot).2.memPools[i]? = some p0 ∧
        q - c.sizeofListHeader ∈ p0.anchor ∧
        MEM_BufferGetSize c s q = some (e.blockSize % 65536) ∧
        (e.blockSize < 65536 → MEM_BufferGetSize c s q = some e.blockSize)) := by
  have hf := init_facts c boot hv
  have hi := reachable_inv c boot hv hr
  constructor
  · intro numBytes hne
    rcases alloc_cases c s numBytes with h | ⟨j, p, _, h⟩ | ⟨j, p, b, tl, hp, ha, _, _, h⟩
    · rw [h] at hne; exact absurd rfl hne
    · rw [h] at hne; exact absurd rfl hne
    · obtain ⟨p0, hp0, _⟩ := shape_same _ hi.shape hp
      obtain ⟨_, hsub, _, _⟩ := hi.pools j p p0 hp hp0
      have hb0 : b ∈ p0.anchor := hsub (by rw [ha]; simp)
      obtain ⟨e, he, hbs, _⟩ := init_getElem c boot hv hp0
      have hgs := getSize_block c hf (inv_served c hf hi hp ha) hp0 hb0
      rw [hbs] at hgs
      rw [h]
      refine ⟨j, e, p, b, tl, he, hp, ha, rfl, hgs, ?_⟩
      intro hlt
      rw [hgs, Nat.mod_eq_of_lt hlt]
  · intro q hq
    obtain ⟨i, p, p0, b, hp, hp0, hb0, _, e1⟩ := (hi.held_iff q).1 hq
    obtain ⟨e, he, hbs, _⟩ := init_getElem c boot hv hp0
    have hgs := getSize_block c hf hi hp0 hb0
    rw [hbs] at hgs
    subst e1
    refine ⟨i, e, p0, he, hp0, by simpa using hb0, hgs, ?_⟩
    intro hlt
    rw [hgs, Nat.mod_eq_of_lt hlt]

/-- C5, amended, on the example allocator: the pointer held after the first
allocation. -/
theorem C5_size_lookup_witness :
    ValidConfig exampleConfig ∧
    ∃ (i : Nat) (e : poolInfo_t) (p0 : pools_t),
      exampleConfig.PoolsDetails_c[i]? = some e ∧
      (MEM_Init exampleConfig exampleBoot).2.memPools[i]? = some p0 ∧
      4112 - exampleConfig.sizeofListHeader ∈ p0.anchor ∧
      MEM_BufferGetSize exampleConfig exampleOne 4112 = some (e.blockSize % 65536) ∧
      (e.blockSize < 65536 → MEM_BufferGetSize exampleConfig exampleOne 4112
        = some e.blockSize) :=
  ⟨by decide,
    (C5_size_lookup exampleConfig exampleBoot (by decide)
      (Reachable.alloc 16 Reachable.init)).2 4112 (by decide)⟩

/-- C5 as stated fails: with one class of 65536-byte blocks, the
pointer `MEM_BufferAlloc(1)` returns right after `MEM_Init` comes from the pool
configured with block size 65536, and `MEM_BufferGetSize` of it is 0. -/
theorem C5_counterexample :
    ValidConfig bigConfig ∧
    bigConfig.PoolsDetails_c = [{ blockSize := 65536, poolSize := 1 }] ∧
    (MEM_BufferAlloc bigConfig bigInit 1).1 = 4112 ∧
    MEM_BufferGetSize bigConfig bigOne 4112 = some 0 ∧
    MEM_BufferGetSize bigConfig bigOne 4112 ≠ some 65536 := by
  decide

theorem map_set_same {β : Type} (f : pools_t → β) {l : List pools_t} {j : Nat}
    {p p' : pools_t} (hp : l[j]? = some p) (h : f p' = f p) :
    (l.set j p').map f = l.map f := by
  rw [List.map_set, h]
  apply List.ext_getElem?
  intro n
  rw [List.getElem?_set]
  have hlt : j < l.length := (List.getElem?_eq_some.1 hp).1
  by_cases hn : j = n
  · subst hn
    have := (List.getElem?_eq_some.1 hp).2
    simp [hlt, this]
  · simp [hn]

theorem free_rejected (c : Config) (boot : MemState) (hv : ValidConfig c)
    {s : MemState} {held : List Nat} (hr : Reachable c boot s held) {i : Nat} {p0 : pools_t}
    {b : Nat} (hp0 : (MEM_Init c boot).2.memPools[i]? = some p0) (hb : b ∈ p0.anchor)
    (hnot : b + c.sizeofListHeader ∉ held) :
    (MEM_BufferFree c s (b + c.sizeofListHeader)).1 = memStatus_t.MEM_FREE_ERROR_c ∧
    (MEM_BufferFree c s (b + c.sizeofListHeader)).2.memPools.map (fun p => p.anchor)
      = s.memPools.map (fun p => p.anchor) ∧
    (MEM_BufferFree c s (b + c.sizeofListHeader)).2.memPools.map
        (fun p => p.poolStatistics.allocatedBlocks)
      = s.memPools.map (fun p => p.poolStatistics.allocatedBlocks) := by
  have hf := init_facts c boot hv
  have hi := reachable_inv c boot hv hr
  obtain ⟨p, hp, h | h⟩ := free_block_cases c hf hi hp0 hb
  · rw [h.2]
    exact ⟨rfl, map_set_same _ hp rfl, map_set_same _ hp rfl⟩
  · exact absurd ((hi.held_iff _).2 ⟨i, p, p0, b, hp, hp0, hb, h.1, rfl⟩) hnot

/-- C6 (double free): in every reachable state, for a pointer `p` that is held
(returned by `MEM_BufferAlloc` and not freed since), `MEM_BufferFree(p)` returns
`MEM_SUCCESS_c`; a second `MEM_BufferFree(p)` right after it, and more
generally `MEM_BufferFree(p)` in any reachable state in which `p` is not held
(no allocation has returned it again), returns `MEM_FREE_ERROR_c` and leaves
every free list and every `allocatedBlocks` counter as it was. -/
theorem C6_double_free (c : Config) (boot : MemState) (hv : ValidConfig c)
    {s : MemState} {held : List Nat} (hr : Reachable c boot s held)
    (p : Nat) (hp : p ∈ held) :
    (MEM_BufferFree c s p).1 = memStatus_t.MEM_SUCCESS_c ∧
    ((MEM_BufferFree c (MEM_BufferFree c s p).2 p).1 = memStatus_t.MEM_FREE_ERROR_c ∧
      (MEM_BufferFree c (MEM_BufferFree c s p).2 p).2.memPools.map (fun q => q.anchor)
        = (MEM_BufferFree c s p).2.memPools.map (fun q => q.anchor) ∧
      (MEM_BufferFree c (MEM_BufferFree c s p).2 p).2.memPools.map
          (fun q => q.poolStatistics.allocatedBlocks)
        = (MEM_BufferFree c s p).2.memPools.map
          (fun q => q.poolStatistics.allocatedBlocks)) ∧
    (∀ (s' : MemState) (held' : List Nat), Reachable c boot s' held' → p ∉ held' →
      (MEM_BufferFree c s' p).1 = memStatus_t.MEM_FREE_ERROR_c ∧
      (MEM_BufferFree c s' p).2.memPools.map (fun q => q.anchor)
        = s'.memPools.map (fun q => q.anchor) ∧
      (MEM_BufferFree c s' p).2.memPools.map (fun q => q.poolStatistics.allocatedBlocks)
        = s'.memPools.map (fun q => q.poolStatistics.allocatedBlocks)) := by
  have hf := init_facts c boot hv
  have hi := reachable_inv c boot hv hr
  obtain ⟨i, q, p0, b, hq, hp0, hb, hnb, e⟩ := (hi.held_iff p).1 hp
  subst e
  have hpay : b + c.sizeofListHeader ∈ payloads c (MEM_Init c boot).2 := by
    simp only [payloads, List.mem_map, List.mem_flatten]
    exact ⟨b, ⟨p0.anchor, ⟨p0, List.getElem?_mem hp0, rfl⟩, hb⟩, rfl⟩
  have hfirst : (MEM_BufferFree c s (b + c.sizeofListHeader)).1
      = memStatus_t.MEM_SUCCESS_c := by
    obtain ⟨q', hq', h | h⟩ := free_block_cases c hf hi hp0 hb
    · rw [hq] at hq'
      cases hq'
      exact absurd h.1 hnb
    · rw [h.2]
  have hall : ∀ (s' : MemState) (held' : List Nat), Reachable c boot s' held' →
      b + c.sizeofListHeader ∉ held' →
      (MEM_BufferFree c s' (b + c.sizeofListHeader)).1 = memStatus_t.MEM_FREE_ERROR_c ∧
      (MEM_BufferFree c s' (b + c.sizeofListHeader)).2.memPools.map (fun q => q.anchor)
        = s'.memPools.map (fun q => q.anchor) ∧
      (MEM_BufferFree c s' (b + c.sizeofListHeader)).2.memPools.map
          (fun q => q.poolStatistics.allocatedBlocks)
        = s'.memPools.map (fun q => q.poolStatistics.allocatedBlocks) :=
    fun s' held' hr' hnot => free_rejected c boot hv hr' hp0 hb hnot
  refine ⟨hfirst, ?_, hall⟩
  have hr1 := Reachable.free (b + c.sizeofListHeader) hr (Or.inr hpay)
  rw [hfirst] at hr1
  simp only [if_true] at hr1
  exact hall _ _ hr1 (by simp)

/-- C6 on the example allocator: the pointer held after the first allocation. -/
theorem C6_double_free_witness :
    ValidConfig exampleConfig ∧
    (MEM_BufferFree exampleConfig exampleOne 4112).1 = memStatus_t.MEM_SUCCESS_c ∧
    (MEM_BufferFree exampleConfig (MEM_BufferFree exampleConfig exampleOne 4112).2 4112).1
      = memStatus_t.MEM_FREE_ERROR_c :=
  ⟨by decide,
    (C6_double_free exampleConfig exampleBoot (by decide)
      (Reachable.alloc 16 Reachable.init) 4112 (by decide)).1,
    (C6_double_free exampleConfig exampleBoot (by decide)
      (Reachable.alloc 16 Reachable.init) 4112 (by decide)).2.1.1⟩

/-- C7 (free of `NULL`): `MEM_BufferFree(NULL)` returns `MEM_FREE_ERROR_c` and the
state after the call is the state before it: every free list, every
statistics counter (also `freeFailures`) and `gFreeMessagesCount`. -/
theorem C7_free_null (c : Config) (s : MemState) :
    MEM_BufferFree c s 0 = (memStatus_t.MEM_FREE_ERROR_c, s) := by
  simp [MEM_BufferFree]

theorem scan_not_pool (r : PoolPtr) (h : ∀ i, r ≠ PoolPtr.pool i) :
    ∀ (rest : List pools_t) (i : Nat), MEM_BufferFree.scan r rest i = none := by
  intro rest
  induction rest with
  | nil => intro i; rfl
  | cons p rest ih =>
    intro i
    rw [MEM_BufferFree.scan]
    simp only [h i, if_false]
    split
    · rfl
    · exact ih (i + 1)

/-- What holds of C8: when the back-reference in front of a non-`NULL` pointer
is an address through which nothing of `memPools` is reached (`away`),
`MEM_BufferFree` returns `MEM_FREE_ERROR_c` and the state is unchanged. -/
theorem free_away_unchanged (c : Config) (s : MemState) (buffer a : Nat) (hb : buffer ≠ 0)
    (h : (s.hdr (buffer - c.sizeofListHeader)).pParentPool = PoolPtr.away a) :
    MEM_BufferFree c s buffer = (memStatus_t.MEM_FREE_ERROR_c, s) := by
  unfold MEM_BufferFree
  simp only [hb, if_false, h]
  rw [scan_not_pool (PoolPtr.away a) (by intro i e; cases e)]
  simp [MEM_BufferFree.freeFailure]

/-- C8 at its failing input: in the example allocator the header in front of
the non-`NULL` pointer 116 holds a back-reference that is none of the pools;
`MEM_BufferFree(116)` returns `MEM_FREE_ERROR_c`, and the store
`pParentPool->poolStatistics.freeFailures++` made through that back-reference
changes the `allocatedBlocks` counter of pool 0 from 0 to 1. -/
theorem C8_stray_store :
    (116 : Nat) ≠ 0 ∧
    (strayInit.hdr (116 - exampleConfig.sizeofListHeader)).pParentPool
      = PoolPtr.skew 0 OtherCounter.allocatedBlocks ∧
    (∀ i, PoolPtr.skew 0 OtherCounter.allocatedBlocks ≠ PoolPtr.pool i) ∧
    (MEM_BufferFree exampleConfig strayInit 116).1 = memStatus_t.MEM_FREE_ERROR_c ∧
    strayInit.memPools.map (fun p => p.poolStatistics.allocatedBlocks) = [0, 0] ∧
    (MEM_BufferFree exampleConfig strayInit 116).2.memPools.map
      (fun p => p.poolStatistics.allocatedBlocks) = [1, 0] := by
  refine ⟨by decide, by decide, ?_, by decide, by decide, by decide⟩
  intro i e
  cases e

/-- C9 at its failing input: for the valid table with one class of 256 blocks
of 16 bytes, after `MEM_Init` the free list of the pool is empty, `numBlocks` is
0 and `MEM_GetAvailableBlocks(0)` is 0, while the configured block count is
256. -/
theorem C9_init_truncates :
    ValidConfig wideConfig ∧
    wideConfig.PoolsDetails_c.map (fun e => e.poolSize) = [256] ∧
    wideInit.memPools.map (fun p => ListGetSize p.anchor) = [0] ∧
    wideInit.memPools.map (fun p => p.poolStatistics.numBlocks) = [0] ∧
    (MEM_GetAvailableBlocks wideInit 0).1 = 0 := by
  decide

/-! ## `MEM_GetAvailableBlocks` -/

theorem avail_loop (size : Nat) : ∀ (rest : List pools_t) (acc : Nat), Linked rest →
    acc + (rest.map (fun p => p.anchor.length)).sum < 2 ^ 32 →
    MEM_GetAvailableBlocks.loop size rest acc
      = acc + ((rest.filter (fun p => decide (size ≤ p.blockSize))).map
          (fun p => p.anchor.length)).sum := by
  intro rest
  induction rest with
  | nil => intro acc _ _; simp [MEM_GetAvailableBlocks.loop]
  | cons p rest ih =>
    intro acc hl hb
    simp only [List.map_cons, List.sum_cons] at hb
    rw [MEM_GetAvailableBlocks.loop]
    cases rest with
    | nil =>
      have hnext : p.nextBlockSize = 0 := hl
      simp only [hnext, if_true, ListGetSize]
      by_cases hs : size ≤ p.blockSize
      · have hm : (acc + p.anchor.length) % 2 ^ 32 = acc + p.anchor.length :=
          Nat.mod_eq_of_lt (by simp only [List.map_nil, List.sum_nil] at hb; omega)
        simp only [hs, if_true, hm]
        simp [hs]
      · simp [hs]
    | cons q r =>
      have hnz : p.nextBlockSize ≠ 0 := by
        have := hl.1; have := hl.2.1; omega
      simp only [hnz, if_false, ListGetSize]
      by_cases hs : size ≤ p.blockSize
      · have hm : (acc + p.anchor.length) % 2 ^ 32 = acc + p.anchor.length :=
          Nat.mod_eq_of_lt (by omega)
        simp only [hs, if_true, hm]
        rw [ih (acc + p.anchor.length) hl.2.2 (by omega)]
        simp [hs, Nat.add_assoc]
      · simp only [hs, if_false]
        rw [ih acc hl.2.2 (by omega)]
        simp [hs]

theorem sum_le_pointwise (f g : pools_t → Nat) : ∀ (l l' : List pools_t),
    l.length = l'.length →
    (∀ (i : Nat) (p p' : pools_t), l[i]? = some p → l'[i]? = some p' → f p ≤ g p') →
    (l.map f).sum ≤ (l'.map g).sum := by
  intro l
  induction l with
  | nil => intro l' _ _; simp
  | cons p l ih =>
    intro l' hlen h
    cases l' with
    | nil => simp at hlen
    | cons p' l' =>
      simp only [List.map_cons, List.sum_cons]
      have h0 := h 0 p p' (by simp) (by simp)
      have h1 := ih l' (by simpa using hlen)
        (fun i q q' hq hq' => h (i + 1) q q' (by simpa using hq) (by simpa using hq'))
      omega

theorem layout_sum_le (c : Config) (hH : 0 < c.sizeofListHeader) :
    ∀ (t : List poolInfo_t) (a : Nat),
      ((layout c t a).map (fun p => p.anchor.length)).sum
        ≤ (t.map fun e => (c.sizeofListHeader + e.blockSize) * e.poolSize).sum := by
  intro t
  induction t with
  | nil => intro a; simp [layout]
  | cons e t ih =>
    intro a
    simp only [layout, List.map_cons, List.sum_cons, length_sliceAddrs]
    have h1 := ih (a + e.poolSize % 256 * (e.blockSize + c.sizeofListHeader))
    have h2 : e.poolSize % 256 ≤ e.poolSize := Nat.mod_le _ _
    have h3 : e.poolSize ≤ (c.sizeofListHeader + e.blockSize) * e.poolSize :=
      Nat.le_mul_of_pos_left _ (by omega)
    omega

theorem reachable_sum_lt (c : Config) (boot : MemState) (hv : ValidConfig c)
    {s : MemState} {held : List Nat} (hr : Reachable c boot s held) :
    (s.memPools.map (fun p => p.anchor.length)).sum < 2 ^ 32 := by
  have hi := reachable_inv c boot hv hr
  have hlen : s.memPools.length = (MEM_Init c boot).2.memPools.length := by
    have := congrArg List.length hi.shape
    simpa using this
  have h1 := sum_le_pointwise (fun p => p.anchor.length) (fun p => p.anchor.length)
    s.memPools (MEM_Init c boot).2.memPools hlen
    (fun i p p0 hp hp0 => by
      have := (hi.pools i p p0 hp hp0).2.2.1
      show p.anchor.length ≤ p0.anchor.length
      omega)
  rw [init_memPools c boot hv] at h1
  have h2 := layout_sum_le c hv.2.2.2.1 c.PoolsDetails_c c.memHeap
  have h3 : heapSize_c c < 2 ^ 32 := hv.2.2.2.2.2.2
  unfold heapSize_c at h3
  omega

/-- C10 (available blocks): in every reachable state and for every `size`,
`MEM_GetAvailableBlocks(size)` is the sum of the free-list lengths of exactly
the pools whose `blockSize >= size`, and the call leaves the state as it was. -/
theorem C10_available_blocks (c : Config) (boot : MemState) (hv : ValidConfig c)
    {s : MemState} {held : List Nat} (hr : Reachable c boot s held) (size : Nat) :
    (MEM_GetAvailableBlocks s size).1
      = ((s.memPools.filter (fun p => decide (size ≤ p.blockSize))).map
          (fun p => ListGetSize p.anchor)).sum ∧
    (MEM_GetAvailableBlocks s size).2 = s := by
  refine ⟨?_, rfl⟩
  have hl := reachable_linked c boot hv hr
  have hb := reachable_sum_lt c boot hv hr
  simp only [MEM_GetAvailableBlocks, ListGetSize]
  rw [avail_loop size s.memPools 0 hl (by omega)]
  simp

/-- C10 on the example allocator after one allocation, size 17. -/
theorem C10_available_blocks_witness :
    ValidConfig exampleConfig ∧
    (MEM_GetAvailableBlocks exampleOne 17).1
      = ((exampleOne.memPools.filter (fun p => decide (17 ≤ p.blockSize))).map
          (fun p => ListGetSize p.anchor)).sum ∧
    (MEM_GetAvailableBlocks exampleOne 17).2 = exampleOne :=
  ⟨by decide,
    C10_available_blocks exampleConfig exampleBoot (by decide)
      (Reachable.alloc 16 Reachable.init) 17⟩

theorem layout_lengths (c : Config) : ∀ (t : List poolInfo_t) (a : Nat),
    (layout c t a).map (fun p => p.anchor.length) = t.map (fun e => e.poolSize % 256) := by
  intro t
  induction t with
  | nil => intro a; simp [layout]
  | cons e t ih => intro a; simp [layout, length_sliceAddrs, ih]

/-- What `MEM_Init` does on every valid table: pool `i` gets `poolSize % 256`
blocks of row `i`, `numBlocks` is that number, `allocatedBlocks` is 0, there is
one pool for each row, and `MEM_GetAvailableBlocks(0)` is the sum of these
numbers. -/
theorem init_counts (c : Config) (boot : MemState) (hv : ValidConfig c) :
    (∀ (i : Nat) (p0 : pools_t), (MEM_Init c boot).2.memPools[i]? = some p0 →
      ∃ e, c.PoolsDetails_c[i]? = some e ∧ ListGetSize p0.anchor = e.poolSize % 256 ∧
        p0.poolStatistics.numBlocks = e.poolSize % 256 ∧
        p0.poolStatistics.allocatedBlocks = 0) ∧
    (MEM_Init c boot).2.memPools.length = c.PoolsDetails_c.length ∧
    (MEM_GetAvailableBlocks (MEM_Init c boot).2 0).1
      = (c.PoolsDetails_c.map (fun e => e.poolSize % 256)).sum := by
  have hf := init_facts c boot hv
  refine ⟨?_, ?_, ?_⟩
  · intro i p0 hp0
    obtain ⟨e, he, _, hlen⟩ := init_getElem c boot hv hp0
    have hst := hf.stats p0 (List.getElem?_mem hp0)
    refine ⟨e, he, hlen, ?_, ?_⟩
    · rw [hst]; exact hlen
    · rw [hst]
  · rw [init_memPools c boot hv]
    have := congrArg List.length (layout_lengths c c.PoolsDetails_c c.memHeap)
    simpa using this
  · have hl := reachable_linked c boot hv Reachable.init
    have hb := reachable_sum_lt c boot hv Reachable.init
    simp only [MEM_GetAvailableBlocks]
    rw [avail_loop 0 _ 0 hl (by omega), init_memPools c boot hv]
    simp only [Nat.zero_le, decide_True, List.filter_true, Nat.zero_add]
    rw [layout_lengths]

/-- C19 (non-monotonic tables): for the table with block sizes 64, 16, 128 (not
increasing), in the state after `MEM_Init` and one `MEM_BufferAlloc(64)`, the
request `MEM_BufferAlloc(32)` returns `NULL` although the pool of 128-byte blocks
has a non-empty free list: pool 0 is empty and 32 exceeds its `nextBlockSize`
16, where the loop stops. -/
theorem C19_gap_loses_capacity :
    ¬ gapConfig.PoolsDetails_c.Pairwise (fun a b => a.blockSize < b.blockSize) ∧
    gapState.memPools.map (fun p => (p.blockSize, p.nextBlockSize, p.anchor))
      = [(64, 16, []), (16, 128, [4176]), (128, 0, [4208])] ∧
    (0 : Nat) < 32 ∧
    (MEM_BufferAlloc gapConfig gapState 32).1 = 0 ∧
    ∃ p ∈ gapState.memPools, 32 ≤ p.blockSize ∧ p.anchor ≠ [] := by
  decide

/-- C14 as stated fails: in the example allocator `[(16 B, 4), (64 B, 2)]` right
after `MEM_Init`, the sixth of six consecutive `MEM_BufferAlloc(16)` calls does
not return `NULL`: it returns the second block of pool 1. -/
theorem C14_counterexample :
    exampleConfig.PoolsDetails_c
      = [{ blockSize := 16, poolSize := 4 }, { blockSize := 64, poolSize := 2 }] ∧
    allocResults exampleConfig 16 6 exampleInit = [4112, 4144, 4176, 4208, 4240, 4320] ∧
    (allocResults exampleConfig 16 6 exampleInit).getLast? ≠ some 0 := by
  decide

/-! ## Allocation seen on the block sizes and free lists -/

theorem fit_none (n : Nat) : ∀ (L : List (Nat × List Nat)),
    (∀ x ∈ L, n ≤ x.1 → x.2 = []) → fit n L = none := by
  intro L
  induction L with
  | nil => intro _; rfl
  | cons x L ih =>
    intro h
    obtain ⟨size, l⟩ := x
    have ih' := ih (fun y hy => h y (List.mem_cons_of_mem _ hy))
    cases l with
    | nil => simp [fit, ih']
    | cons b tl =>
      have hn : ¬ n ≤ size := by
        intro hle
        have := h (size, b :: tl) (by simp) hle
        simp at this
      simp [fit, hn, ih']

theorem fit_some (n : Nat) : ∀ (L : List (Nat × List Nat)) (k size b : Nat) (tl : List Nat),
    L[k]? = some (size, b :: tl) → n ≤ size →
    (∀ (k' : Nat) (x : Nat × List Nat), L[k']? = some x → k' < k → n ≤ x.1 → x.2 = []) →
    fit n L = some (b, L.set k (size, tl)) := by
  intro L
  induction L with
  | nil => intro k size b tl h; simp at h
  | cons x L ih =>
    intro k size b tl hk hle hbefore
    cases k with
    | zero =>
      simp only [List.getElem?_cons_zero, Option.some.injEq] at hk
      subst hk
      simp [fit, hle]
    | succ k =>
      simp only [List.getElem?_cons_succ] at hk
      have ih' := ih k size b tl hk hle
        (fun k' y hy hlt => hbefore (k' + 1) y (by simpa using hy) (by omega))
      obtain ⟨sx, lx⟩ := x
      cases lx with
      | nil => simp [fit, ih']
      | cons bx tx =>
        have hn : ¬ n ≤ sx := by
          intro hle'
          have := hbefore 0 (sx, bx :: tx) (by simp) (by omega) hle'
          simp at this
        simp [fit, hn, ih']

theorem view_getElem {s : MemState} {k : Nat} {x : Nat × List Nat}
    (h : (view s)[k]? = some x) :
    ∃ p, s.memPools[k]? = some p ∧ x = (p.blockSize, p.anchor) := by
  simp only [view, List.getElem?_map, Option.map_eq_some'] at h
  obtain ⟨p, hp, e⟩ := h
  exact ⟨p, hp, e.symm⟩

theorem view_alloc (c : Config) (boot : MemState) (hv : ValidConfig c)
    {s : MemState} {held : List Nat} (hr : Reachable c boot s held)
    (n : Nat) (hn : n ≠ 0) :
    (fit n (view s) = none ∧ (MEM_BufferAlloc c s n).1 = 0 ∧
      view (MEM_BufferAlloc c s n).2 = view s) ∨
    (∃ (b : Nat) (L : List (Nat × List Nat)), fit n (view s) = some (b, L) ∧
      (MEM_BufferAlloc c s n).1 = b + c.sizeofListHeader ∧
      view (MEM_BufferAlloc c s n).2 = L) := by
  have hf := init_facts c boot hv
  have hi := reachable_inv c boot hv hr
  have hl := reachable_linked c boot hv hr
  have hpw := reachable_increasing c boot hv hr
  have hH := hf.hsize
  have hne : s.memPools ≠ [] := by
    intro e
    have := congrArg List.length hi.shape
    rw [e] at this
    simp only [List.map_nil, List.length_nil, List.length_map] at this
    exact hf.nonempty (List.length_eq_zero.1 this.symm)
  have hloop := alloc_loop_fit c s n hn s.memPools 0 n
    (by intro k p h; simpa using h) hl hpw (Or.inl rfl) hne
  have hdef : MEM_BufferAlloc c s n = MEM_BufferAlloc.loop c s s.memPools 0 n := rfl
  rcases hloop with ⟨h1, h2⟩ | ⟨k, p, b, tl, hk, ha, hpn, hres, hbefore⟩
  · left
    refine ⟨?_, by rw [hdef]; exact h2, ?_⟩
    · apply fit_none
      intro x hx hxn
      simp only [view, List.mem_map] at hx
      obtain ⟨q, hq, e⟩ := hx
      subst e
      exact h1 q hq hxn
    · rcases alloc_cases c s n with h | ⟨j, q, hq, h⟩ | ⟨j, q, b, tl, _, _, _, _, h⟩
      · rw [h]
      · rw [h]
        simp only [view, failedState]
        exact map_set_same _ hq rfl
      · rw [hdef] at h
        rw [h] at h2
        simp only at h2
        omega
  · right
    refine ⟨b, (view s).set k (p.blockSize, tl), ?_, by rw [hdef, hres], ?_⟩
    · apply fit_some n (view s) k p.blockSize b tl
      · simp [view, hk, ha]
      · exact hpn
      · intro k' x hx hlt hxn
        obtain ⟨q, hq, e⟩ := view_getElem hx
        subst e
        exact hbefore k' q hq hlt hxn
    · rw [hdef, hres]
      simp only [Nat.zero_add, view, servedState, List.map_set]
      rfl

theorem reachable_allocTimes (c : Config) (boot : MemState) (n : Nat) :
    ∀ (k : Nat) (s : MemState) (held : List Nat), Reachable c boot s held →
      ∃ held', Reachable c boot (allocTimes c n k s) held' := by
  intro k
  induction k with
  | zero => intro s held hr; exact ⟨held, hr⟩
  | succ k ih =>
    intro s held hr
    exact ih _ _ (Reachable.alloc n hr)

theorem allocResults_fitRun (c : Config) (boot : MemState) (hv : ValidConfig c)
    (n : Nat) (hn : n ≠ 0) :
    ∀ (k : Nat) (s : MemState) (held : List Nat), Reachable c boot s held →
      allocResults c n k s = fitRun c.sizeofListHeader n k (view s) := by
  intro k
  induction k with
  | zero => intro s held _; rfl
  | succ k ih =>
    intro s held hr
    have hnext := ih _ _ (Reachable.alloc n hr)
    rw [allocResults, fitRun, hnext]
    rcases view_alloc c boot hv hr n hn with ⟨h1, h2, h3⟩ | ⟨b, L, h1, h2, h3⟩
    · rw [h1, h2, h3]
    · rw [h1, h2, h3]

/-- C14 (spec example), amended: with pools `[(16 B, 4 blocks), (64 B, 2 blocks)]`
and a freshly initialised allocator, seven consecutive `MEM_BufferAlloc(16)`
calls return, in this order, the four blocks of pool 0, then (escalated) the
two blocks of pool 1, and then `NULL`: the sixth call succeeds, the seventh is
the first to fail. -/
theorem C14_spec_example (c : Config) (boot : MemState) (hv : ValidConfig c)
    (ht : c.PoolsDetails_c
      = [{ blockSize := 16, poolSize := 4 }, { blockSize := 64, poolSize := 2 }]) :
    view (MEM_Init c boot).2
      = [(16, sliceAddrs (16 + c.sizeofListHeader) 4 c.memHeap),
         (64, sliceAddrs (64 + c.sizeofListHeader) 2
            (c.memHeap + 4 * (16 + c.sizeofListHeader)))] ∧
    allocResults c 16 7 (MEM_Init c boot).2
      = (sliceAddrs (16 + c.sizeofListHeader) 4 c.memHeap).map
            (fun b => b + c.sizeofListHeader) ++
        (sliceAddrs (64 + c.sizeofListHeader) 2
            (c.memHeap + 4 * (16 + c.sizeofListHeader))).map
            (fun b => b + c.sizeofListHeader) ++ [0] := by
  have hview : view (MEM_Init c boot).2
      = [(16, sliceAddrs (16 + c.sizeofListHeader) 4 c.memHeap),
         (64, sliceAddrs (64 + c.sizeofListHeader) 2
            (c.memHeap + 4 * (16 + c.sizeofListHeader)))] := by
    simp only [view]
    rw [init_memPools c boot hv, ht]
    simp [layout]
  refine ⟨hview, ?_⟩
  rw [allocResults_fitRun c boot hv 16 (by decide) 7 _ [] Reachable.init, hview]
  simp [fitRun, fit, sliceAddrs]

/-- C14, amended, on the example allocator (16-byte headers, heap at 4096). -/
theorem C14_spec_example_witness :
    ValidConfig exampleConfig ∧
    exampleConfig.PoolsDetails_c
      = [{ blockSize := 16, poolSize := 4 }, { blockSize := 64, poolSize := 2 }] ∧
    allocResults exampleConfig 16 7 (MEM_Init exampleConfig exampleBoot).2
      = (sliceAddrs (16 + exampleConfig.sizeofListHeader) 4 exampleConfig.memHeap).map
            (fun b => b + exampleConfig.sizeofListHeader) ++
        (sliceAddrs (64 + exampleConfig.sizeofListHeader) 2
            (exampleConfig.memHeap + 4 * (16 + exampleConfig.sizeofListHeader))).map
            (fun b => b + exampleConfig.sizeofListHeader) ++ [0] :=
  ⟨by decide, by decide,
    (C14_spec_example exampleConfig exampleBoot (by decide) (by decide)).2⟩

/-! ## Effects of single calls in reachable states -/

theorem held_block (c : Config) (boot : MemState) (hv : ValidConfig c)
    {s : MemState} {held : List Nat} (hr : Reachable c boot s held) {q : Nat}
    (hq : q ∈ held) :
    ∃ (j : Nat) (p p0 : pools_t) (b : Nat), s.memPools[j]? = some p ∧
      (MEM_Init c boot).2.memPools[j]? = some p0 ∧ b ∈ p0.anchor ∧ b ∉ p.anchor ∧
      q = b + c.sizeofListHeader ∧ (s.hdr b).pParentPool = PoolPtr.pool j ∧
      0 < p.poolStatistics.allocatedBlocks ∧
      p.poolStatistics.allocatedBlocks < 2 ^ c.statBits ∧
      MEM_BufferFree c s q = (memStatus_t.MEM_SUCCESS_c, freedState c s j p b) := by
  have hf := init_facts c boot hv
  have hi := reachable_inv c boot hv hr
  obtain ⟨j, p, p0, b, hp, hp0, hb, hnb, e⟩ := (hi.held_iff q).1 hq
  obtain ⟨hnd, hsub, hcnt, hhdr⟩ := hi.pools j p p0 hp hp0
  have hsmall := hf.small p0 (List.getElem?_mem hp0)
  have hW := two_pow_statBits hf.bits
  have hlen : (b :: p.anchor).length ≤ p0.anchor.length := by
    apply List.Subperm.length_le
    apply List.subperm_of_subset (List.nodup_cons.2 ⟨hnb, hnd⟩)
    intro x hx
    simp only [List.mem_cons] at hx
    rcases hx with hx | hx
    · rw [hx]; exact hb
    · exact hsub hx
  simp only [List.length_cons] at hlen
  refine ⟨j, p, p0, b, hp, hp0, hb, hnb, e, (hhdr b hb).1, by omega, by omega, ?_⟩
  obtain ⟨p', hp', h | h⟩ := free_block_cases c hf hi hp0 hb
  · rw [hp] at hp'
    cases hp'
    exact absurd h.1 hnb
  · rw [hp] at hp'
    cases hp'
    rw [e, h.2]

/-- C15 (effect of a successful free): in every reachable state, for every
pointer `q` that is held, `MEM_BufferFree(q)` returns `MEM_SUCCESS_c`; the block
of `q` is appended at the tail of the free list of the pool that owns it (the
pool its header names, whose list it was taken from), that pool's
`allocatedBlocks` goes down by exactly 1 and its other counters stay; every
other pool is unchanged. -/
theorem C15_free_effect (c : Config) (boot : MemState) (hv : ValidConfig c)
    {s : MemState} {held : List Nat} (hr : Reachable c boot s held) (q : Nat)
    (hq : q ∈ held) :
    (MEM_BufferFree c s q).1 = memStatus_t.MEM_SUCCESS_c ∧
    ∃ (j : Nat) (p p0 p' : pools_t), s.memPools[j]? = some p ∧
      (MEM_Init c boot).2.memPools[j]? = some p0 ∧
      q - c.sizeofListHeader ∈ p0.anchor ∧
      (s.hdr (q - c.sizeofListHeader)).pParentPool = PoolPtr.pool j ∧
      (MEM_BufferFree c s q).2.memPools[j]? = some p' ∧
      p'.anchor = p.anchor ++ [q - c.sizeofListHeader] ∧
      p'.poolStatistics.allocatedBlocks + 1 = p.poolStatistics.allocatedBlocks ∧
      p'.poolStatistics.numBlocks = p.poolStatistics.numBlocks ∧
      p'.poolStatistics.allocatedBlocksPeak = p.poolStatistics.allocatedBlocksPeak ∧
      p'.poolStatistics.allocationFailures = p.poolStatistics.allocationFailures ∧
      p'.poolStatistics.freeFailures = p.poolStatistics.freeFailures ∧
      p'.blockSize = p.blockSize ∧ p'.nextBlockSize = p.nextBlockSize ∧
      (MEM_BufferFree c s q).2.memPools.length = s.memPools.length ∧
      ∀ i : Nat, i ≠ j → (MEM_BufferFree c s q).2.memPools[i]? = s.memPools[i]? := by
  obtain ⟨j, p, p0, b, hp, hp0, hb, _, e, hpar, hpos, hlt, hfree⟩ :=
    held_block c boot hv hr hq
  subst e
  rw [hfree]
  refine ⟨rfl, j, p, p0, freedPool c p b, hp, hp0, by simpa using hb, by simpa using hpar,
    (getElem?_set_some hp).2 (Or.inl ⟨rfl, rfl⟩), by simp [freedPool], ?_, rfl, rfl, rfl,
    rfl, rfl, rfl, by simp [freedState], ?_⟩
  · have e : p.poolStatistics.allocatedBlocks + (2 ^ c.statBits - 1)
        = (p.poolStatistics.allocatedBlocks - 1) + 2 ^ c.statBits := by omega
    simp only [freedPool]
    rw [e, Nat.add_mod_right, Nat.mod_eq_of_lt (by omega)]
    omega
  · intro i hij
    simp only [freedState]
    exact List.getElem?_set_ne (fun h => hij h.symm)

/-- C15 on the example allocator: the pointer held after the first allocation. -/
theorem C15_free_effect_witness :
    ValidConfig exampleConfig ∧
    (MEM_BufferFree exampleConfig exampleOne 4112).1 = memStatus_t.MEM_SUCCESS_c :=
  ⟨by decide,
    (C15_free_effect exampleConfig exampleBoot (by decide)
      (Reachable.alloc 16 Reachable.init) 4112 (by decide)).1⟩

/-- C17 (the statistics assertions hold): in every reachable state, after a
successful `MEM_BufferAlloc` the serving pool has `allocatedBlocks <= numBlocks`
(the `MEM_ASSERT` of the allocation), and when `MEM_BufferFree` of `NULL` or of a
block pointer returns `MEM_SUCCESS_c` the owning pool had `allocatedBlocks > 0`
before the decrement (the `MEM_ASSERT` of the free). -/
theorem C17_assertions_hold (c : Config) (boot : MemState) (hv : ValidConfig c)
    {s : MemState} {held : List Nat} (hr : Reachable c boot s held) :
    (∀ numBytes : Nat, (MEM_BufferAlloc c s numBytes).1 ≠ 0 →
      ∃ (j : Nat) (p : pools_t) (b : Nat) (tl : List Nat), s.memPools[j]? = some p ∧
        MEM_BufferAlloc c s numBytes = (b + c.sizeofListHeader, servedState c s j p b tl) ∧
        (MEM_BufferAlloc c s numBytes).2.memPools[j]? = some (servedPool c p tl) ∧
        (servedPool c p tl).poolStatistics.allocatedBlocks
          ≤ (servedPool c p tl).poolStatistics.numBlocks) ∧
    (∀ buffer : Nat, (buffer = 0 ∨ buffer ∈ payloads c (MEM_Init c boot).2) →
      (MEM_BufferFree c s buffer).1 = memStatus_t.MEM_SUCCESS_c →
      ∃ (j : Nat) (p : pools_t), s.memPools[j]? = some p ∧
        (s.hdr (buffer - c.sizeofListHeader)).pParentPool = PoolPtr.pool j ∧
        0 < p.poolStatistics.allocatedBlocks) := by
  have hf := init_facts c boot hv
  have hi := reachable_inv c boot hv hr
  constructor
  · intro numBytes hne
    rcases alloc_cases c s numBytes with h | ⟨j, p, _, h⟩ | ⟨j, p, b, tl, hp, ha, _, _, h⟩
    · rw [h] at hne; exact absurd rfl hne
    · rw [h] at hne; exact absurd rfl hne
    · have hsp : (servedState c s j p b tl).memPools[j]? = some (servedPool c p tl) :=
        (getElem?_set_some hp).2 (Or.inl ⟨rfl, rfl⟩)
      have hr' := Reachable.alloc numBytes hr
      rw [h] at hr'
      have hi' := reachable_inv c boot hv hr'
      obtain ⟨p0, hp0, hsh⟩ := shape_same _ hi'.shape hsp
      have hcnt := (hi'.pools j _ p0 hsp hp0).2.2.1
      have hst := hf.stats p0 (List.getElem?_mem hp0)
      simp only [shape, Prod.mk.injEq] at hsh
      have h3 := hsh.2.2
      rw [hst] at h3
      simp only at h3
      rw [h]
      refine ⟨j, p, b, tl, hp, rfl, hsp, ?_⟩
      omega
  · intro buffer hlegal hsucc
    rcases hlegal with h0 | hmem
    · subst h0
      simp [MEM_BufferFree] at hsucc
    · obtain ⟨j, p0, b, hp0, hb, e⟩ := mem_payloads hmem
      subst e
      obtain ⟨p, hp, h | h⟩ := free_block_cases c hf hi hp0 hb
      · rw [h.2] at hsucc
        simp at hsucc
      · have hheld : b + c.sizeofListHeader ∈ held :=
          (hi.held_iff _).2 ⟨j, p, p0, b, hp, hp0, hb, h.1, rfl⟩
        obtain ⟨j', p', p0', b', hp', hp0', hb', _, e', hpar, hpos, _, _⟩ :=
          held_block c boot hv hr hheld
        have hbb : b' = b := by omega
        subst hbb
        exact ⟨j', p', hp', by simpa using hpar, hpos⟩

/-- C17 on the example allocator: the second allocation after `MEM_Init`. -/
theorem C17_assertions_hold_witness :
    ValidConfig exampleConfig ∧ (MEM_BufferAlloc exampleConfig exampleOne 16).1 ≠ 0 ∧
    ∃ (j : Nat) (p : pools_t) (b : Nat) (tl : List Nat), exampleOne.memPools[j]? = some p ∧
      MEM_BufferAlloc exampleConfig exampleOne 16
        = (b + exampleConfig.sizeofListHeader, servedState exampleConfig exampleOne j p b tl) ∧
      (MEM_BufferAlloc exampleConfig exampleOne 16).2.memPools[j]?
        = some (servedPool exampleConfig p tl) ∧
      (servedPool exampleConfig p tl).poolStatistics.allocatedBlocks
        ≤ (servedPool exampleConfig p tl).poolStatistics.numBlocks :=
  ⟨by decide, by decide,
    (C17_assertions_hold exampleConfig exampleBoot (by decide)
      (Reachable.alloc 16 Reachable.init)).1 16 (by decide)⟩

theorem alloc_loop_linked (c : Config) (s : MemState) :
    ∀ (rest : List pools_t) (i m : Nat),
      (∀ (k : Nat) (p : pools_t), rest[k]? = some p → s.memPools[i + k]? = some p) →
      Linked rest → rest ≠ [] →
      (∃ (j : Nat) (p : pools_t), s.memPools[j]? = some p ∧
        MEM_BufferAlloc.loop c s rest i m = (0, failedState c s j p)) ∨
      (∃ (j : Nat) (p : pools_t) (b : Nat) (tl : List Nat), s.memPools[j]? = some p ∧
        p.anchor = b :: tl ∧
        MEM_BufferAlloc.loop c s rest i m
          = (b + c.sizeofListHeader, servedState c s j p b tl)) := by
  intro rest
  induction rest with
  | nil => intro i m _ _ h; exact absurd rfl h
  | cons p rest ih =>
    intro i m hrest hl _
    have hp : s.memPools[i]? = some p := by simpa using hrest 0 p (by simp)
    have hrest' : ∀ (k : Nat) (q : pools_t), rest[k]? = some q →
        s.memPools[i + 1 + k]? = some q := by
      intro k q hk
      have := hrest (k + 1) q (by simpa using hk)
      rwa [show i + 1 + k = i + (k + 1) by omega]
    have hfail : MEM_BufferAlloc.fail c s i p = (0, failedState c s i p) := rfl
    have hnext : p.nextBlockSize ≠ 0 → rest ≠ [] ∧ Linked rest := by
      intro hn
      cases rest with
      | nil => exact absurd hl hn
      | cons q r => exact ⟨by simp, hl.2.2⟩
    rw [MEM_BufferAlloc.loop]
    by_cases hm : m = 0
    · left; exact ⟨i, p, hp, by simp [hm, hfail]⟩
    · simp only [hm, if_false]
      by_cases hle : m ≤ p.blockSize
      · simp only [hle, if_true]
        cases ha : p.anchor with
        | nil =>
          simp only [ListRemoveHead]
          by_cases hgt : m > p.nextBlockSize
          · left; exact ⟨i, p, hp, by simp [hgt, hfail]⟩
          · simp only [hgt, if_false]
            by_cases hn : p.nextBlockSize = 0
            · left; exact ⟨i, p, hp, by simp [hn, hfail]⟩
            · simp only [ne_eq, hn, not_false_eq_true, if_true]
              exact ih (i + 1) p.nextBlockSize hrest' (hnext hn).2 (hnext hn).1
        | cons b tl =>
          right
          refine ⟨i, p, b, tl, hp, ha, ?_⟩
          simp [ListRemoveHead, servedState, servedPool]
      · simp only [hle, if_false]
        by_cases hn : p.nextBlockSize = 0
        · left; exact ⟨i, p, hp, by simp [hn, hfail]⟩
        · simp only [ne_eq, hn, not_false_eq_true, if_true]
          exact ih (i + 1) m hrest' (hnext hn).2 (hnext hn).1

theorem alloc_null_state (c : Config) (boot : MemState) (hv : ValidConfig c)
    {s : MemState} {held : List Nat} (hr : Reachable c boot s held) (numBytes : Nat)
    (h0 : (MEM_BufferAlloc c s numBytes).1 = 0) :
    ∃ (j : Nat) (p : pools_t), s.memPools[j]? = some p ∧
      MEM_BufferAlloc c s numBytes = (0, failedState c s j p) := by
  have hf := init_facts c boot hv
  have hi := reachable_inv c boot hv hr
  have hl := reachable_linked c boot hv hr
  have hne : s.memPools ≠ [] := by
    intro e
    have := congrArg List.length hi.shape
    rw [e] at this
    simp only [List.map_nil, List.length_nil, List.length_map] at this
    exact hf.nonempty (List.length_eq_zero.1 this.symm)
  have hdef : MEM_BufferAlloc c s numBytes
      = MEM_BufferAlloc.loop c s s.memPools 0 numBytes := rfl
  rcases alloc_loop_linked c s s.memPools 0 numBytes (by intro k p h; simpa using h) hl hne
    with ⟨j, p, hp, h⟩ | ⟨j, p, b, tl, _, _, h⟩
  · exact ⟨j, p, hp, by rw [hdef, h]⟩
  · rw [hdef, h] at h0
    have := hf.hsize
    simp only at h0
    omega

/-- C11 (failed allocation), amended: in every reachable state, when
`MEM_BufferAlloc` returns `NULL`, every free list, every `allocatedBlocks` and
`allocatedBlocksPeak` counter, the block headers and `gFreeMessagesCount` are
unchanged; exactly one pool is changed, in its `allocationFailures` counter
only, which is incremented in the width `w` of the counter: it becomes
`(old + 1) mod 2^w`, that is `old + 1` unless it was at its maximum. -/
theorem C11_failed_alloc (c : Config) (boot : MemState) (hv : ValidConfig c)
    {s : MemState} {held : List Nat} (hr : Reachable c boot s held) (numBytes : Nat)
    (h0 : (MEM_BufferAlloc c s numBytes).1 = 0) :
    (MEM_BufferAlloc c s numBytes).2.memPools.map (fun p => p.anchor)
      = s.memPools.map (fun p => p.anchor) ∧
    (MEM_BufferAlloc c s numBytes).2.memPools.map (fun p => p.poolStatistics.allocatedBlocks)
      = s.memPools.map (fun p => p.poolStatistics.allocatedBlocks) ∧
    (MEM_BufferAlloc c s numBytes).2.memPools.map
        (fun p => p.poolStatistics.allocatedBlocksPeak)
      = s.memPools.map (fun p => p.poolStatistics.allocatedBlocksPeak) ∧
    (MEM_BufferAlloc c s numBytes).2.gFreeMessagesCount = s.gFreeMessagesCount ∧
    (MEM_BufferAlloc c s numBytes).2.hdr = s.hdr ∧
    ∃ (j : Nat) (p : pools_t), s.memPools[j]? = some p ∧
      (MEM_BufferAlloc c s numBytes).2.memPools[j]?
        = some { p with poolStatistics := { p.poolStatistics with
            allocationFailures :=
              (p.poolStatistics.allocationFailures + 1) % 2 ^ c.statBits } } ∧
      (p.poolStatistics.allocationFailures + 1 < 2 ^ c.statBits →
        (p.poolStatistics.allocationFailures + 1) % 2 ^ c.statBits
          = p.poolStatistics.allocationFailures + 1) ∧
      ∀ i : Nat, i ≠ j → (MEM_BufferAlloc c s numBytes).2.memPools[i]? = s.memPools[i]? := by
  obtain ⟨j, p, hp, h⟩ := alloc_null_state c boot hv hr numBytes h0
  rw [h]
  refine ⟨map_set_same _ hp rfl, map_set_same _ hp rfl, map_set_same _ hp rfl, rfl, rfl,
    j, p, hp, (getElem?_set_some hp).2 (Or.inl ⟨rfl, rfl⟩), fun hlt => Nat.mod_eq_of_lt hlt,
    ?_⟩
  intro i hij
  simp only [failedState]
  exact List.getElem?_set_ne (fun h => hij h.symm)

/-- C11, amended, on the example allocator: a request of 100 bytes, larger than
every class, right after `MEM_Init`. -/
theorem C11_failed_alloc_witness :
    ValidConfig exampleConfig ∧ (MEM_BufferAlloc exampleConfig exampleInit 100).1 = 0 ∧
    (MEM_BufferAlloc exampleConfig exampleInit 100).2.memPools.map (fun p => p.anchor)
      = exampleInit.memPools.map (fun p => p.anchor) :=
  ⟨by decide, by decide,
    (C11_failed_alloc exampleConfig exampleBoot (by decide) Reachable.init 100
      (by decide)).1⟩

theorem alloc_too_large (c : Config) (s : MemState) (n : Nat) (p0 p1 : pools_t)
    (hs : s.memPools = [p0, p1]) (h0 : p0.blockSize < n) (h1 : p0.nextBlockSize ≠ 0)
    (h2 : p1.blockSize < n) (h3 : p1.nextBlockSize = 0) :
    MEM_BufferAlloc c s n = (0, { s with memPools := [p0, failedPool c p1] }) := by
  have hn : n ≠ 0 := by omega
  have hle0 : ¬ n ≤ p0.blockSize := by omega
  have hle1 : ¬ n ≤ p1.blockSize := by omega
  simp [MEM_BufferAlloc, hs, MEM_BufferAlloc.loop, hn, hle0, hle1, h1, h3,
    MEM_BufferAlloc.fail, failedPool]

theorem allocTimes_too_large (c : Config) (n : Nat) (p0 : pools_t)
    (h0 : p0.blockSize < n) (h1 : p0.nextBlockSize ≠ 0) :
    ∀ (k : Nat) (s : MemState) (p1 : pools_t), s.memPools = [p0, p1] →
      p1.blockSize < n → p1.nextBlockSize = 0 →
      p1.poolStatistics.allocationFailures < 2 ^ c.statBits →
      (allocTimes c n k s).memPools
        = [p0, { p1 with poolStatistics := { p1.poolStatistics with
            allocationFailures :=
              (p1.poolStatistics.allocationFailures + k) % 2 ^ c.statBits } }] := by
  intro k
  induction k with
  | zero =>
    intro s p1 hs _ _ hlt
    simp only [allocTimes, hs, Nat.add_zero, Nat.mod_eq_of_lt hlt]
  | succ k ih =>
    intro s p1 hs h2 h3 hlt
    have hpos : 0 < 2 ^ c.statBits := by omega
    rw [allocTimes, alloc_too_large c s n p0 p1 hs h0 h1 h2 h3]
    rw [ih _ (failedPool c p1) rfl h2 h3 (Nat.mod_lt _ hpos)]
    simp only [failedPool, Nat.mod_add_mod, Nat.add_assoc, Nat.add_comm 1 k]

/-- C11 as stated fails: in the example allocator with 16-bit counters, after
65535 failed requests of 100 bytes (a reachable state) the `allocationFailures`
counter of pool 1 is 65535; the next failed request returns `NULL` and leaves
the counter at 0: no `allocationFailures` counter has increased. -/
theorem C11_counterexample :
    (∃ held, Reachable exampleConfig exampleBoot
      (allocTimes exampleConfig 100 65535 exampleInit) held) ∧
    (allocTimes exampleConfig 100 65535 exampleInit).memPools.map
      (fun p => p.poolStatistics.allocationFailures) = [0, 65535] ∧
    (MEM_BufferAlloc exampleConfig (allocTimes exampleConfig 100 65535 exampleInit) 100).1
      = 0 ∧
    (MEM_BufferAlloc exampleConfig
        (allocTimes exampleConfig 100 65535 exampleInit) 100).2.memPools.map
      (fun p => p.poolStatistics.allocationFailures) = [0, 0] := by
  have hinit : exampleInit.memPools = [exampleInitPool0, exampleInitPool1] := by decide
  have hk := allocTimes_too_large exampleConfig 100 exampleInitPool0 (by decide) (by decide)
    65535 exampleInit exampleInitPool1 hinit (by decide) (by decide) (by decide)
  refine ⟨reachable_allocTimes exampleConfig exampleBoot 100 65535 exampleInit []
    Reachable.init, ?_, ?_, ?_⟩
  · rw [hk]; decide
  · rw [alloc_too_large exampleConfig _ 100 _ _ hk (by decide) (by decide) (by decide)
      (by decide)]
  · rw [alloc_too_large exampleConfig _ 100 _ _ hk (by decide) (by decide) (by decide)
      (by decide)]
    decide

/-! ## The peak counter -/

theorem peaks_same : ∀ (l : List pools_t),
    (∀ q ∈ l, q.poolStatistics.allocatedBlocks ≤ q.poolStatistics.allocatedBlocksPeak) →
    List.zipWith max (l.map fun p => p.poolStatistics.allocatedBlocksPeak)
        (l.map fun p => p.poolStatistics.allocatedBlocks)
      = l.map fun p => p.poolStatistics.allocatedBlocksPeak := by
  intro l
  induction l with
  | nil => intro _; rfl
  | cons q l ih =>
    intro h
    have h0 := h q (by simp)
    simp only [List.map_cons, List.zipWith_cons_cons, List.cons.injEq]
    exact ⟨Nat.max_eq_left h0, ih (fun x hx => h x (List.mem_cons_of_mem _ hx))⟩

theorem peaks_set : ∀ (l : List pools_t) (j : Nat) (p p' : pools_t), l[j]? = some p →
    (∀ q ∈ l, q.poolStatistics.allocatedBlocks ≤ q.poolStatistics.allocatedBlocksPeak) →
    p'.poolStatistics.allocatedBlocksPeak
      = max p.poolStatistics.allocatedBlocksPeak p'.poolStatistics.allocatedBlocks →
    List.zipWith max (l.map fun p => p.poolStatistics.allocatedBlocksPeak)
        ((l.set j p').map fun p => p.poolStatistics.allocatedBlocks)
      = (l.set j p').map fun p => p.poolStatistics.allocatedBlocksPeak := by
  intro l
  induction l with
  | nil => intro j p p' h; simp at h
  | cons q l ih =>
    intro j p p' hj h hp'
    cases j with
    | zero =>
      simp only [List.getElem?_cons_zero, Option.some.injEq] at hj
      subst hj
      simp only [List.set_cons_zero, List.map_cons, List.zipWith_cons_cons, List.cons.injEq]
      exact ⟨hp'.symm, peaks_same l (fun x hx => h x (List.mem_cons_of_mem _ hx))⟩
    | succ j =>
      simp only [List.getElem?_cons_succ] at hj
      simp only [List.set_cons_succ, List.map_cons, List.zipWith_cons_cons, List.cons.injEq]
      exact ⟨Nat.max_eq_left (h q (by simp)),
        ih j p p' hj (fun x hx => h x (List.mem_cons_of_mem _ hx)) hp'⟩

theorem mem_set_cases {l : List pools_t} {j : Nat} {p' x : pools_t}
    (h : x ∈ l.set j p') : x = p' ∨ x ∈ l := by
  rcases List.mem_or_eq_of_mem_set h with h | h
  · exact Or.inr h
  · exact Or.inl h

theorem served_counters (c : Config) (boot : MemState) (hv : ValidConfig c)
    {s : MemState} {held : List Nat} (hr : Reachable c boot s held) {j : Nat} {p : pools_t}
    {b : Nat} {tl : List Nat} (hp : s.memPools[j]? = some p) (ha : p.anchor = b :: tl) :
    (servedPool c p tl).poolStatistics.allocatedBlocks
      = p.poolStatistics.allocatedBlocks + 1 ∧
    (servedPool c p tl).poolStatistics.allocatedBlocksPeak
      = max p.poolStatistics.allocatedBlocksPeak (p.poolStatistics.allocatedBlocks + 1) := by
  have hf := init_facts c boot hv
  have hi := reachable_inv c boot hv hr
  obtain ⟨p0, hp0, _⟩ := shape_same _ hi.shape hp
  have hcnt := (hi.pools j p p0 hp hp0).2.2.1
  rw [ha] at hcnt
  simp only [List.length_cons] at hcnt
  have hsmall := hf.small p0 (List.getElem?_mem hp0)
  have hW := two_pow_statBits hf.bits
  have hmod : (p.poolStatistics.allocatedBlocks + 1) % 2 ^ c.statBits
      = p.poolStatistics.allocatedBlocks + 1 := Nat.mod_eq_of_lt (by omega)
  simp only [servedPool, hmod, true_and]
  by_cases hgt : p.poolStatistics.allocatedBlocks + 1 > p.poolStatistics.allocatedBlocksPeak
  · simp only [hgt, if_true]; omega
  · simp only [hgt, if_false]; omega

theorem peaked_facts (c : Config) (boot : MemState) (hv : ValidConfig c)
    {s : MemState} {maxima : List Nat} (hp : Peaked c boot s maxima) :
    (∃ held, Reachable c boot s held) ∧
    (s.memPools.map fun p => p.poolStatistics.allocatedBlocksPeak) = maxima ∧
    ∀ q ∈ s.memPools,
      q.poolStatistics.allocatedBlocks ≤ q.poolStatistics.allocatedBlocksPeak := by
  have hf := init_facts c boot hv
  induction hp with
  | init =>
    refine ⟨⟨[], Reachable.init⟩, ?_, ?_⟩
    · apply List.map_congr_left
      intro q hq
      rw [hf.stats q hq]
    · intro q hq
      rw [hf.stats q hq]
  | @alloc s maxima numBytes _ ih =>
    obtain ⟨⟨held, hr⟩, hmax, hle⟩ := ih
    refine ⟨⟨_, Reachable.alloc numBytes hr⟩, ?_⟩
    rcases alloc_cases c s numBytes with h | ⟨j, p, hp, h⟩ | ⟨j, p, b, tl, hp, ha, _, _, h⟩
    · rw [h, ← hmax]
      exact ⟨(peaks_same _ hle).symm, hle⟩
    · rw [h, ← hmax]
      simp only [failedState]
      refine ⟨(peaks_set _ j p _ hp hle ?_).symm, ?_⟩
      · simp only [failedPool]
        exact (Nat.max_eq_left (hle p (List.getElem?_mem hp))).symm
      · intro q hq
        rcases mem_set_cases hq with e | hq
        · rw [e]; exact hle p (List.getElem?_mem hp)
        · exact hle q hq
    · obtain ⟨h1, h2⟩ := served_counters c boot hv hr hp ha
      rw [h, ← hmax]
      simp only [servedState]
      refine ⟨(peaks_set _ j p _ hp hle (by rw [h2, h1])).symm, ?_⟩
      intro q hq
      rcases mem_set_cases hq with e | hq
      · rw [e, h1, h2]; omega
      · exact hle q hq
  | @free s maxima buffer _ hlegal ih =>
    obtain ⟨⟨held, hr⟩, hmax, hle⟩ := ih
    have hi := reachable_inv c boot hv hr
    refine ⟨⟨_, Reachable.free buffer hr hlegal⟩, ?_⟩
    rcases hlegal with h0 | hmem
    · subst h0
      have hnull : MEM_BufferFree c s 0 = (memStatus_t.MEM_FREE_ERROR_c, s) := by
        simp [MEM_BufferFree]
      rw [hnull, ← hmax]
      exact ⟨(peaks_same _ hle).symm, hle⟩
    · obtain ⟨j, p0, b, hp0, hb, e⟩ := mem_payloads hmem
      subst e
      obtain ⟨p, hp, h | h⟩ := free_block_cases c hf hi hp0 hb
      · rw [h.2, ← hmax]
        refine ⟨(peaks_set _ j p _ hp hle ?_).symm, ?_⟩
        · simp only [freeFailedPool, bumpCounter]
          exact (Nat.max_eq_left (hle p (List.getElem?_mem hp))).symm
        · intro q hq
          rcases mem_set_cases hq with e | hq
          · rw [e]; exact hle p (List.getElem?_mem hp)
          · exact hle q hq
      · have hheld : b + c.sizeofListHeader ∈ held :=
          (hi.held_iff _).2 ⟨j, p, p0, b, hp, hp0, hb, h.1, rfl⟩
        obtain ⟨j', p', _, b', hp', _, _, _, e', _, hpos, hlt, hfree⟩ :=
          held_block c boot hv hr hheld
        have hbb : b' = b := by omega
        subst hbb
        have hdec : (freedPool c p' b').poolStatistics.allocatedBlocks
            = p'.poolStatistics.allocatedBlocks - 1 := by
          have e : p'.poolStatistics.allocatedBlocks + (2 ^ c.statBits - 1)
              = (p'.poolStatistics.allocatedBlocks - 1) + 2 ^ c.statBits := by omega
          simp only [freedPool]
          rw [e, Nat.add_mod_right, Nat.mod_eq_of_lt (by omega)]
        have hle' := hle p' (List.getElem?_mem hp')
        rw [hfree, ← hmax]
        simp only [freedState]
        refine ⟨(peaks_set _ j' p' _ hp' hle ?_).symm, ?_⟩
        · rw [hdec]
          simp only [freedPool]
          omega
        · intro q hq
          rcases mem_set_cases hq with e | hq
          · rw [e, hdec]
            simp only [freedPool]
            omega
          · exact hle q hq

theorem peak_step_le {l l' : List pools_t}
    (h : (l'.map fun p => p.poolStatistics.allocatedBlocksPeak)
      = List.zipWith max (l.map fun p => p.poolStatistics.allocatedBlocksPeak)
          (l'.map fun p => p.poolStatistics.allocatedBlocks))
    {i : Nat} {p p' : pools_t} (hp : l[i]? = some p) (hp' : l'[i]? = some p') :
    p.poolStatistics.allocatedBlocksPeak ≤ p'.poolStatistics.allocatedBlocksPeak := by
  have h1 : (l'.map fun p => p.poolStatistics.allocatedBlocksPeak)[i]?
      = some p'.poolStatistics.allocatedBlocksPeak := by simp [hp']
  rw [h, List.getElem?_zipWith_eq_some] at h1
  obtain ⟨x, y, hx, _, e⟩ := h1
  simp only [List.getElem?_map, hp, Option.map_some', Option.some.injEq] at hx
  rw [← e, ← hx]
  exact Nat.le_max_left _ _

/-- C18 (peak tracking): for every sequence of `MEM_BufferAlloc` /
`MEM_BufferFree` calls after `MEM_Init` (no self-test), each pool's
`allocatedBlocksPeak` equals the largest value its `allocatedBlocks` counter has
had since `MEM_Init`; `allocatedBlocksPeak >= allocatedBlocks` in every pool, and
no call lowers a peak. -/
theorem C18_peak_tracking (c : Config) (boot : MemState) (hv : ValidConfig c)
    {s : MemState} {maxima : List Nat} (hp : Peaked c boot s maxima) :
    (s.memPools.map fun p => p.poolStatistics.allocatedBlocksPeak) = maxima ∧
    (∀ q ∈ s.memPools,
      q.poolStatistics.allocatedBlocks ≤ q.poolStatistics.allocatedBlocksPeak) ∧
    (∀ (numBytes i : Nat) (p p' : pools_t), s.memPools[i]? = some p →
      (MEM_BufferAlloc c s numBytes).2.memPools[i]? = some p' →
      p.poolStatistics.allocatedBlocksPeak ≤ p'.poolStatistics.allocatedBlocksPeak) ∧
    (∀ (buffer i : Nat) (p p' : pools_t),
      (buffer = 0 ∨ buffer ∈ payloads c (MEM_Init c boot).2) → s.memPools[i]? = some p →
      (MEM_BufferFree c s buffer).2.memPools[i]? = some p' →
      p.poolStatistics.allocatedBlocksPeak ≤ p'.poolStatistics.allocatedBlocksPeak) := by
  obtain ⟨_, hmax, hle⟩ := peaked_facts c boot hv hp
  refine ⟨hmax, hle, ?_, ?_⟩
  · intro numBytes i p p' hpi hpi'
    have h := (peaked_facts c boot hv (Peaked.alloc numBytes hp)).2.1
    rw [← hmax] at h
    exact peak_step_le h hpi hpi'
  · intro buffer i p p' hlegal hpi hpi'
    have h := (peaked_facts c boot hv (Peaked.free buffer hp hlegal)).2.1
    rw [← hmax] at h
    exact peak_step_le h hpi hpi'

/-- C18 on the example allocator after one allocation: the peaks are the
maxima `[1, 0]`. -/
theorem C18_peak_tracking_witness :
    ValidConfig exampleConfig ∧
    (exampleOne.memPools.map fun p => p.poolStatistics.allocatedBlocksPeak) = [1, 0] :=
  ⟨by decide,
    (C18_peak_tracking exampleConfig exampleBoot (by decide)
      (Peaked.alloc 16 Peaked.init)).1⟩

theorem sliceAddrs_block_end {d : Nat} :
    ∀ (n a x : Nat), x ∈ sliceAddrs d n a → x + d ≤ a + n * d := by
  intro n
  induction n with
  | zero => intro a x h; simp [sliceAddrs] at h
  | succ n ih =>
    intro a x h
    simp only [sliceAddrs, List.mem_cons] at h
    have e : a + (n + 1) * d = a + d + n * d := by ring
    rcases h with h | h
    · subst h
      rw [e]; omega
    · have := ih (a + d) x h
      rw [e]; exact this

theorem check_blocks_find {d : Nat} (hd : 0 < d) (p size : Nat) :
    ∀ (n a b : Nat), b ∈ sliceAddrs d n a → b ≤ p → p < b + d →
      MEM_BufferCheck.blocks p size d n a
        = (some (if p + size > b + d then 1 else 0), b) := by
  intro n
  induction n with
  | zero => intro a b h; simp [sliceAddrs] at h
  | succ n ih =>
    intro a b h h1 h2
    simp only [sliceAddrs, List.mem_cons] at h
    rcases h with h | h
    · subst h
      simp only [MEM_BufferCheck.blocks]
      rw [if_pos ⟨h1, h2⟩]
      split <;> rfl
    · have hl := (mem_sliceAddrs hd n (a + d) b h).1
      simp only [MEM_BufferCheck.blocks]
      rw [if_neg (by omega)]
      exact ih (a + d) b h h1 h2

theorem check_pools (c : Config) (hH : 0 < c.sizeofListHeader) (p size : Nat)
    (tail : List poolInfo_t) :
    ∀ (t : List poolInfo_t) (a k : Nat) (p0 : pools_t) (b : Nat),
      (∀ e ∈ t, e.blockSize ≠ 0) → (∀ e ∈ t, e.poolSize < 256) →
      (∀ e ∈ t, (c.sizeofListHeader + e.blockSize) * e.poolSize < 2 ^ 32) →
      (layout c t a)[k]? = some p0 → b ∈ p0.anchor →
      b ≤ p → p < b + (p0.blockSize + c.sizeofListHeader) →
      MEM_BufferCheck.pools c p size (t ++ tail) a
        = if size > p0.blockSize then 1
          else if p + size > b + (p0.blockSize + c.sizeofListHeader) then 1 else 0 := by
  intro t
  induction t with
  | nil => intro a k p0 b _ _ _ h; simp [layout] at h
  | cons e t ih =>
    intro a k p0 b hz hs hw hk hb h1 h2
    have hez : e.blockSize ≠ 0 := hz e (by simp)
    have hes : e.poolSize < 256 := hs e (by simp)
    have hew : (c.sizeofListHeader + e.blockSize) * e.poolSize < 2 ^ 32 := hw e (by simp)
    have hmod : e.poolSize % 256 = e.poolSize := Nat.mod_eq_of_lt hes
    have hd : 0 < e.blockSize + c.sizeofListHeader := by omega
    have hcomm : (c.sizeofListHeader + e.blockSize) = e.blockSize + c.sizeofListHeader := by
      omega
    rw [hcomm] at hew
    -- the pool bytes do not wrap
    have hpb : ((e.blockSize + c.sizeofListHeader) % 2 ^ 32 * e.poolSize) % 2 ^ 32
        = e.poolSize * (e.blockSize + c.sizeofListHeader) := by
      rcases Nat.eq_zero_or_pos e.poolSize with h0 | h0
      · rw [h0]; simp
      · have hle : e.blockSize + c.sizeofListHeader
            ≤ (e.blockSize + c.sizeofListHeader) * e.poolSize :=
          Nat.le_mul_of_pos_right _ h0
        have hlt : e.blockSize + c.sizeofListHeader < 2 ^ 32 := by omega
        rw [Nat.mod_eq_of_lt hlt, Nat.mod_eq_of_lt hew, Nat.mul_comm]
    simp only [List.cons_append, MEM_BufferCheck.pools]
    rw [if_neg hez, hpb]
    cases k with
    | zero =>
      simp only [layout, List.getElem?_cons_zero, Option.some.injEq] at hk
      subst hk
      simp only [hmod] at hb h1 h2 ⊢
      have hlo := (mem_sliceAddrs hd _ _ _ hb).1
      have hhi := sliceAddrs_block_end _ _ _ hb
      have h0 : 0 < e.poolSize := by
        rcases Nat.eq_zero_or_pos e.poolSize with h0 | h0
        · rw [h0] at hb; simp [sliceAddrs] at hb
        · exact h0
      have hle : e.blockSize + c.sizeofListHeader
          ≤ (e.blockSize + c.sizeofListHeader) * e.poolSize :=
        Nat.le_mul_of_pos_right _ h0
      rw [if_pos ⟨by omega, by omega⟩]
      split
      · rfl
      · have hlt : e.blockSize + c.sizeofListHeader < 2 ^ 32 := by omega
        rw [Nat.mod_eq_of_lt hlt, check_blocks_find hd p size _ _ b hb h1 h2]
    | succ k =>
      simp only [layout, List.getElem?_cons_succ, hmod] at hk
      have hlo := layout_lower c hH t _ p0 (List.getElem?_mem hk) b hb
      rw [if_neg (by omega)]
      exact ih _ k p0 b (fun x hx => hz x (by simp [hx])) (fun x hx => hs x (by simp [hx]))
        (fun x hx => hw x (by simp [hx])) hk hb h1 h2

theorem mem_le_sum : ∀ (l : List Nat) (x : Nat), x ∈ l → x ≤ l.sum := by
  intro l
  induction l with
  | nil => intro x h; simp at h
  | cons y l ih =>
    intro x h
    simp only [List.mem_cons] at h
    simp only [List.sum_cons]
    rcases h with h | h
    · omega
    · have := ih x h; omega

theorem layout_upper (c : Config) :
    ∀ (t : List poolInfo_t) (a : Nat) (p0 : pools_t), p0 ∈ layout c t a →
      ∀ b ∈ p0.anchor, b + (p0.blockSize + c.sizeofListHeader)
        ≤ a + (t.map fun e => (c.sizeofListHeader + e.blockSize) * e.poolSize).sum := by
  intro t
  induction t with
  | nil => intro a p0 h; simp [layout] at h
  | cons e t ih =>
    intro a p0 h b hb
    have hcomm : (c.sizeofListHeader + e.blockSize) = e.blockSize + c.sizeofListHeader := by
      omega
    have hle : e.poolSize % 256 * (e.blockSize + c.sizeofListHeader)
        ≤ (c.sizeofListHeader + e.blockSize) * e.poolSize := by
      rw [hcomm, Nat.mul_comm]
      exact Nat.mul_le_mul_left _ (Nat.mod_le _ _)
    simp only [layout, List.mem_cons] at h
    simp only [List.map_cons, List.sum_cons]
    rcases h with h | h
    · subst h
      have := sliceAddrs_block_end _ _ _ hb
      simp only at this ⊢
      omega
    · have := ih _ p0 h b hb
      omega

/-- C12 as stated fails: in the example allocator (16-byte headers, heap at
4096) the pointer 4096 is the first header byte of block 0 of the pool of
16-byte blocks, which ends at 4128; `MEM_BufferCheck(4096, 17)` returns 1
although `4096 + 17` is not greater than 4128. -/
theorem C12_counterexample :
    exampleInit.memPools[0]? = some exampleInitPool0 ∧
    4096 ∈ exampleInitPool0.anchor ∧
    MEM_BufferCheck exampleConfig 4096 17 = 1 ∧
    ¬ (4096 + 17 > 4096 + (exampleConfig.sizeofListHeader + exampleInitPool0.blockSize)) := by
  decide

/-- C12 (bounds check), amended: for every valid table with fewer than 256
blocks per pool, every block `b` that `MEM_Init` built (pool `k`), every pointer
`p` inside the block (header or payload) and every `size`,
`MEM_BufferCheck(p, size)` returns 1 if and only if `size` is greater than the
block size of pool `k` or `p + size` is greater than the end address of the
block, and returns 0 otherwise; for a pointer into the payload that is: if and
only if `p + size` is greater than the end address of the block. -/
theorem C12_bounds_check (c : Config) (boot : MemState) (hv : ValidConfig c)
    (hs : ∀ e ∈ c.PoolsDetails_c, e.poolSize < 256)
    {k : Nat} {p0 : pools_t} {b : Nat} (p size : Nat)
    (hk : (MEM_Init c boot).2.memPools[k]? = some p0) (hb : b ∈ p0.anchor)
    (h1 : b ≤ p) (h2 : p < b + (c.sizeofListHeader + p0.blockSize)) :
    (MEM_BufferCheck c p size = 1 ↔
      (p0.blockSize < size ∨ b + (c.sizeofListHeader + p0.blockSize) < p + size)) ∧
    (MEM_BufferCheck c p size = 0 ∨ MEM_BufferCheck c p size = 1) ∧
    (b + c.sizeofListHeader ≤ p →
      (MEM_BufferCheck c p size = 1 ↔
        b + (c.sizeofListHeader + p0.blockSize) < p + size)) := by
  rw [init_memPools c boot hv] at hk
  obtain ⟨_, hz, _, hH, _, _, hheap⟩ := hv
  have hw : ∀ e ∈ c.PoolsDetails_c,
      (c.sizeofListHeader + e.blockSize) * e.poolSize < 2 ^ 32 := by
    intro e he
    have := mem_le_sum (c.PoolsDetails_c.map fun e =>
      (c.sizeofListHeader + e.blockSize) * e.poolSize) _
      (List.mem_map.mpr ⟨e, he, rfl⟩)
    unfold heapSize_c at hheap
    omega
  have hlo := layout_lower c hH _ _ p0 (List.getElem?_mem hk) b hb
  have hup := layout_upper c _ _ p0 (List.getElem?_mem hk) b hb
  have hcomm : c.sizeofListHeader + p0.blockSize = p0.blockSize + c.sizeofListHeader := by
    omega
  rw [hcomm] at h2 ⊢
  have hval := check_pools c hH p size [{ blockSize := 0, poolSize := 0 }]
    c.PoolsDetails_c c.memHeap k p0 b hz hs hw hk hb h1 h2
  have hcheck : MEM_BufferCheck c p size
      = if size > p0.blockSize then 1
        else if p + size > b + (p0.blockSize + c.sizeofListHeader) then 1 else 0 := by
    unfold MEM_BufferCheck
    rw [if_neg (by unfold heapSize_c; omega)]
    exact hval
  rw [hcheck]
  refine ⟨?_, ?_, ?_⟩
  · split
    · simp; omega
    · split
      · simp; omega
      · simp; omega
  · split
    · simp
    · split <;> simp
  · intro hp
    split
    · simp; omega
    · split
      · simp; omega
      · simp; omega

/-- C12, amended, on the example allocator: a pointer 4 bytes into block 0 and
a size of 3. -/
theorem C12_bounds_check_witness :
    ValidConfig exampleConfig ∧
    (MEM_Init exampleConfig exampleBoot).2.memPools[0]? = some exampleInitPool0 ∧
    (MEM_BufferCheck exampleConfig 4100 3 = 1 ↔
      (exampleInitPool0.blockSize < 3 ∨
        4096 + (exampleConfig.sizeofListHeader + exampleInitPool0.blockSize) < 4100 + 3)) :=
  ⟨by decide, by decide,
    (C12_bounds_check exampleConfig exampleBoot (by decide) (by decide) 4100 3
      (by decide : (MEM_Init exampleConfig exampleBoot).2.memPools[0]? = some exampleInitPool0)
      (by decide : 4096 ∈ exampleInitPool0.anchor) (by decide) (by decide)).1⟩

/-! ## The self-test -/

theorem fill_ok (c : Config) (count : Nat) : ∀ (n data : Nat) (bytes : Nat → Nat),
    data + n ≤ c.memHeap + heapSize_c c % 2 ^ 32 + 1 →
    ∃ bytes1, MEM_WriteReadTest.fill c count n data bytes = some bytes1 ∧
      ∀ x, bytes1 x = if data ≤ x ∧ x < data + n then count % 256 else bytes x := by
  intro n
  induction n with
  | zero =>
    intro data bytes _
    refine ⟨bytes, rfl, ?_⟩
    intro x
    rw [if_neg (by omega)]
  | succ n ih =>
    intro data bytes h
    obtain ⟨bytes1, h1, h2⟩ := ih (data + 1)
      (fun a => if a = data then count % 256 else bytes a) (by omega)
    refine ⟨bytes1, ?_, ?_⟩
    · rw [MEM_WriteReadTest.fill, if_neg (by omega)]
      exact h1
    · intro x
      rw [h2 x]
      by_cases hx : x = data
      · subst hx
        rw [if_neg (by omega), if_pos (by omega)]
        simp
      · by_cases hr : data + 1 ≤ x ∧ x < data + 1 + n
        · rw [if_pos hr, if_pos (by omega)]
        · rw [if_neg hr, if_neg hx, if_neg (by omega)]

theorem verify_ok (count : Nat) (bytes : Nat → Nat) : ∀ (n data : Nat),
    (∀ x, data ≤ x → x < data + n → bytes x = count) →
    MEM_WriteReadTest.verify count bytes n data = some (data + n) := by
  intro n
  induction n with
  | zero => intro data _; rfl
  | succ n ih =>
    intro data h
    rw [MEM_WriteReadTest.verify, if_pos (h data (by omega) (by omega)),
      ih (data + 1) (fun x h1 h2 => h x (by omega) (by omega))]
    congr 1
    omega

theorem stamped_frame (h : Nat) (bytes bytes1 : Nat → Nat) (blockSize : Nat) :
    ∀ (n a count : Nat), Stamped h bytes blockSize n a count →
      (∀ x, x < a + n * (blockSize + h) → bytes1 x = bytes x) →
      Stamped h bytes1 blockSize n a count := by
  intro n
  induction n with
  | zero => intro a count _ _; trivial
  | succ n ih =>
    intro a count hs hx
    have e : a + (n + 1) * (blockSize + h) = a + (blockSize + h) + n * (blockSize + h) := by
      ring
    rw [e] at hx
    obtain ⟨h1, h2⟩ := hs
    refine ⟨?_, ih _ _ h2 hx⟩
    intro x hx1 hx2
    rw [hx x (by have := Nat.zero_le (n * (blockSize + h)); omega)]
    exact h1 x hx1 hx2

theorem fit_skip (n size b : Nat) (tl : List Nat) (post : List (Nat × List Nat))
    (hle : n ≤ size) : ∀ (pre : List (Nat × List Nat)), (∀ x ∈ pre, x.2 = []) →
    fit n (pre ++ (size, b :: tl) :: post) = some (b, pre ++ (size, tl) :: post) := by
  intro pre
  induction pre with
  | nil => intro _; simp [fit, hle]
  | cons x pre ih =>
    intro h
    obtain ⟨sx, lx⟩ := x
    have hx : lx = [] := h (sx, lx) (by simp)
    subst hx
    have := ih (fun y hy => h y (List.mem_cons_of_mem _ hy))
    simp [fit, this]

theorem writePool_ok (c : Config) (boot : MemState) (hv : ValidConfig c)
    (pre post : List (Nat × List Nat)) (hpre : ∀ x ∈ pre, x.2 = []) (blockSize : Nat)
    (hbs : blockSize ≠ 0) :
    ∀ (n a : Nat) (tail : List Nat) (s : MemState) (held : List Nat) (bytes : Nat → Nat)
      (count : Nat),
      Reachable c boot s held →
      view s = pre ++
        (blockSize, sliceAddrs (blockSize + c.sizeofListHeader) n a ++ tail) :: post →
      a + n * (blockSize + c.sizeofListHeader) ≤ c.memHeap + heapSize_c c →
      count < 256 →
      ∃ (s1 : MemState) (held1 : List Nat) (bytes1 : Nat → Nat),
        MEM_WriteReadTest.writePool c blockSize n s bytes count
          = (none, s1, bytes1, (count + n) % 256) ∧
        Reachable c boot s1 held1 ∧
        view s1 = pre ++ (blockSize, tail) :: post ∧
        Stamped c.sizeofListHeader bytes1 blockSize n a count ∧
        ∀ x, x < a → bytes1 x = bytes x := by
  have hH : 0 < c.sizeofListHeader := hv.2.2.2.1
  have hheap : heapSize_c c % 2 ^ 32 = heapSize_c c := Nat.mod_eq_of_lt hv.2.2.2.2.2.2
  intro n
  induction n with
  | zero =>
    intro a tail s held bytes count hr hview _ hc
    refine ⟨s, held, bytes, ?_, hr, ?_, trivial, fun _ _ => rfl⟩
    · rw [MEM_WriteReadTest.writePool, Nat.add_zero, Nat.mod_eq_of_lt hc]
    · simpa [sliceAddrs] using hview
  | succ n ih =>
    intro a tail s held bytes count hr hview hbound hc
    have e : (n + 1) * (blockSize + c.sizeofListHeader)
        = n * (blockSize + c.sizeofListHeader) + (blockSize + c.sizeofListHeader) := by ring
    rw [e] at hbound
    simp only [sliceAddrs, List.cons_append] at hview
    have hfit := fit_skip blockSize blockSize a
      (sliceAddrs (blockSize + c.sizeofListHeader) n (a + (blockSize + c.sizeofListHeader))
        ++ tail) post (Nat.le_refl _) pre hpre
    rw [← hview] at hfit
    have hr1 := Reachable.alloc blockSize hr
    rcases view_alloc c boot hv hr blockSize hbs with ⟨h1, _, _⟩ | ⟨b, L, h1, h2, h3⟩
    · rw [h1] at hfit; exact absurd hfit (by simp)
    · rw [h1] at hfit
      simp only [Option.some.injEq, Prod.mk.injEq] at hfit
      obtain ⟨hb, hL⟩ := hfit
      subst hb
      obtain ⟨bytes1, hfill, hbytes1⟩ := fill_ok c count blockSize (b + c.sizeofListHeader) bytes
        (by rw [hheap]; omega)
      obtain ⟨s2, held2, bytes2, hw, hr2, hv2, hst, hfr⟩ :=
        ih (b + (blockSize + c.sizeofListHeader)) tail _ _ bytes1 ((count + 1) % 256) hr1
          (by rw [h3, hL]) (by omega) (Nat.mod_lt _ (by decide))
      refine ⟨s2, held2, bytes2, ?_, hr2, hv2, ⟨?_, hst⟩, ?_⟩
      · rw [MEM_WriteReadTest.writePool]
        simp only [h2]
        rw [if_neg (by omega), hfill]
        simp only
        rw [hw]
        congr 3
        omega
      · intro x hx1 hx2
        rw [hfr x (by omega), hbytes1 x, if_pos ⟨hx1, hx2⟩]
        exact Nat.mod_eq_of_lt hc
      · intro x hx
        rw [hfr x (by omega), hbytes1 x, if_neg (by omega)]

theorem write_ok (c : Config) (boot : MemState) (hv : ValidConfig c) :
    ∀ (rest : List poolInfo_t) (a : Nat) (pre : List (Nat × List Nat)) (s : MemState)
      (held : List Nat) (bytes : Nat → Nat) (count : Nat),
      (∀ x ∈ pre, x.2 = []) →
      (∀ e ∈ rest, e.blockSize ≠ 0) → (∀ e ∈ rest, e.poolSize < 256) →
      Reachable c boot s held →
      view s = pre ++ (layout c rest a).map (fun p => (p.blockSize, p.anchor)) →
      a + (rest.map fun e => (c.sizeofListHeader + e.blockSize) * e.poolSize).sum
        ≤ c.memHeap + heapSize_c c →
      count < 256 →
      ∃ (s1 : MemState) (held1 : List Nat) (bytes1 : Nat → Nat) (count1 : Nat),
        MEM_WriteReadTest.write c (rest ++ [{ blockSize := 0, poolSize := 0 }]) s bytes count
          = (none, s1, bytes1, count1) ∧
        Reachable c boot s1 held1 ∧
        view s1 = pre ++ rest.map (fun e => (e.blockSize, [])) ∧
        StampedRows c.sizeofListHeader bytes1 rest a count ∧
        ∀ x, x < a → bytes1 x = bytes x := by
  intro rest
  induction rest with
  | nil =>
    intro a pre s held bytes count _ _ _ hr hview _ _
    refine ⟨s, held, bytes, count, ?_, hr, ?_, trivial, fun _ _ => rfl⟩
    · simp [MEM_WriteReadTest.write]
    · simpa [layout] using hview
  | cons e rest ih =>
    intro a pre s held bytes count hpre hz hs hr hview hbound hc
    have hez : e.blockSize ≠ 0 := hz e (by simp)
    have hes : e.poolSize < 256 := hs e (by simp)
    have hmod : e.poolSize % 256 = e.poolSize := Nat.mod_eq_of_lt hes
    have hcomm : (c.sizeofListHeader + e.blockSize) * e.poolSize
        = e.poolSize * (e.blockSize + c.sizeofListHeader) := by ring
    simp only [List.map_cons, List.sum_cons, hcomm] at hbound
    simp only [layout, List.map_cons, hmod] at hview
    obtain ⟨s1, held1, bytes1, hw, hr1, hv1, hst1, hfr1⟩ :=
      writePool_ok c boot hv pre _ hpre e.blockSize hez e.poolSize a [] s held bytes count hr
        (by rw [List.append_nil]; exact hview)
        (by have := Nat.zero_le
              (rest.map fun e => (c.sizeofListHeader + e.blockSize) * e.poolSize).sum
            omega) hc
    have hpre1 : ∀ x ∈ pre ++ [(e.blockSize, ([] : List Nat))], x.2 = [] := by
      intro x hx
      simp only [List.mem_append, List.mem_singleton] at hx
      rcases hx with hx | hx
      · exact hpre x hx
      · rw [hx]
    obtain ⟨s2, held2, bytes2, count2, hw2, hr2, hv2, hst2, hfr2⟩ :=
      ih (a + e.poolSize * (e.blockSize + c.sizeofListHeader))
        (pre ++ [(e.blockSize, [])]) s1 held1 bytes1 ((count + e.poolSize) % 256) hpre1
        (fun x hx => hz x (by simp [hx])) (fun x hx => hs x (by simp [hx])) hr1
        (by rw [hv1]; simp) (by omega) (Nat.mod_lt _ (by decide))
    refine ⟨s2, held2, bytes2, count2, ?_, hr2, ?_, ⟨?_, hst2⟩, ?_⟩
    · simp only [List.cons_append, MEM_WriteReadTest.write]
      rw [if_neg hez, hw]
      exact hw2
    · rw [hv2]; simp
    · exact stamped_frame _ _ _ _ _ _ _ hst1 hfr2
    · intro x hx
      rw [hfr2 x (by have := Nat.zero_le (e.poolSize * (e.blockSize + c.sizeofListHeader)); omega),
        hfr1 x hx]

theorem set_at_length {α : Type} (x y : α) (post : List α) : ∀ (pre : List α),
    (pre ++ x :: post).set pre.length y = pre ++ y :: post := by
  intro pre
  induction pre with
  | nil => rfl
  | cons z pre ih => simp [ih]

theorem payloads_mem {c : Config} {s0 : MemState} {j : Nat} {p0 : pools_t} {b : Nat}
    (hp0 : s0.memPools[j]? = some p0) (hb : b ∈ p0.anchor) :
    b + c.sizeofListHeader ∈ payloads c s0 := by
  simp only [payloads, List.mem_map, List.mem_flatten]
  exact ⟨b, ⟨p0.anchor, ⟨p0, List.getElem?_mem hp0, rfl⟩, hb⟩, rfl⟩

theorem view_at {s : MemState} {pre post : List (Nat × List Nat)} {x : Nat × List Nat}
    (hview : view s = pre ++ x :: post) {p : pools_t}
    (hp : s.memPools[pre.length]? = some p) : x = (p.blockSize, p.anchor) := by
  have h1 : (view s)[pre.length]? = some (p.blockSize, p.anchor) := by
    simp [view, hp]
  rw [hview, List.getElem?_append_right (Nat.le_refl _), Nat.sub_self] at h1
  simpa using h1

theorem readPool_ok (c : Config) (boot : MemState) (hv : ValidConfig c)
    (bytes : Nat → Nat) (pre post : List (Nat × List Nat)) (blockSize : Nat) (p0 : pools_t)
    (hp0 : (MEM_Init c boot).2.memPools[pre.length]? = some p0) :
    ∀ (n a : Nat) (done : List Nat) (s : MemState) (held : List Nat) (count : Nat),
      Reachable c boot s held →
      view s = pre ++ (blockSize, done) :: post →
      (∀ b ∈ sliceAddrs (blockSize + c.sizeofListHeader) n a, b ∈ p0.anchor ∧ b ∉ done) →
      Stamped c.sizeofListHeader bytes blockSize n a count →
      count < 256 →
      ∃ (s1 : MemState) (held1 : List Nat),
        MEM_WriteReadTest.readPool c bytes blockSize n s a count
          = (none, s1, a + n * (blockSize + c.sizeofListHeader), (count + n) % 256) ∧
        Reachable c boot s1 held1 ∧
        view s1 = pre ++
          (blockSize, done ++ sliceAddrs (blockSize + c.sizeofListHeader) n a) :: post := by
  have hf := init_facts c boot hv
  have hH : 0 < c.sizeofListHeader := hv.2.2.2.1
  intro n
  induction n with
  | zero =>
    intro a done s held count hr hview _ _ hc
    refine ⟨s, held, ?_, hr, ?_⟩
    · rw [MEM_WriteReadTest.readPool, Nat.add_zero, Nat.mod_eq_of_lt hc, Nat.zero_mul,
        Nat.add_zero]
    · simpa [sliceAddrs] using hview
  | succ n ih =>
    intro a done s held count hr hview hblocks hst hc
    obtain ⟨hst1, hst2⟩ := hst
    have hd : 0 < blockSize + c.sizeofListHeader := by omega
    obtain ⟨ha0, hadone⟩ := hblocks a (by simp [sliceAddrs])
    have hi := reachable_inv c boot hv hr
    obtain ⟨p, hp, hcase⟩ := free_block_cases c hf hi hp0 ha0
    have hx := view_at hview hp
    simp only [Prod.mk.injEq] at hx
    obtain ⟨hpb, hpa⟩ := hx
    have hverify := verify_ok count bytes blockSize (a + c.sizeofListHeader) hst1
    rcases hcase with ⟨hmem, _⟩ | ⟨_, hfree⟩
    · rw [← hpa] at hmem; exact absurd hmem hadone
    · have hr1 := Reachable.free (a + c.sizeofListHeader) hr
        (Or.inr (payloads_mem hp0 ha0))
      rw [hfree] at hr1
      have hview1 : view (freedState c s pre.length p a)
          = pre ++ (blockSize, done ++ [a]) :: post := by
        simp only [view, freedState, List.map_set, freedPool]
        have := hview
        simp only [view] at this
        rw [this, set_at_length, ← hpb, ← hpa]
      obtain ⟨s2, held2, hread, hr2, hv2⟩ :=
        ih (a + (blockSize + c.sizeofListHeader)) (done ++ [a]) _ _ ((count + 1) % 256) hr1
          hview1
          (by
            intro b hb
            have hlo := (mem_sliceAddrs hd _ _ _ hb).1
            obtain ⟨h1, h2⟩ := hblocks b (by simp [sliceAddrs, hb])
            refine ⟨h1, ?_⟩
            simp only [List.mem_append, List.mem_singleton, not_or]
            exact ⟨h2, by omega⟩)
          hst2 (Nat.mod_lt _ (by decide))
      refine ⟨s2, held2, ?_, hr2, ?_⟩
      · rw [MEM_WriteReadTest.readPool, hverify]
        simp only [Nat.add_sub_cancel, hfree]
        have e : a + c.sizeofListHeader + blockSize = a + (blockSize + c.sizeofListHeader) := by
          omega
        rw [if_neg (by simp), e, hread]
        congr 3
        · ring
        · omega
      · rw [hv2]
        simp [sliceAddrs]

theorem layout_cons (c : Config) (e : poolInfo_t) (rest : List poolInfo_t) (a : Nat) :
    ∃ P : pools_t,
      layout c (e :: rest) a
        = P :: layout c rest (a + e.poolSize % 256 * (e.blockSize + c.sizeofListHeader)) ∧
      P.blockSize = e.blockSize ∧
      P.anchor = sliceAddrs (e.blockSize + c.sizeofListHeader) (e.poolSize % 256) a :=
  ⟨_, rfl, rfl, rfl⟩

theorem read_ok (c : Config) (boot : MemState) (hv : ValidConfig c) (bytes : Nat → Nat) :
    ∀ (rest : List poolInfo_t) (a : Nat) (pre : List (Nat × List Nat)) (pre0 : List pools_t)
      (s : MemState) (held : List Nat) (count : Nat),
      pre0.length = pre.length →
      (MEM_Init c boot).2.memPools = pre0 ++ layout c rest a →
      (∀ e ∈ rest, e.blockSize ≠ 0) → (∀ e ∈ rest, e.poolSize < 256) →
      Reachable c boot s held →
      view s = pre ++ rest.map (fun e => (e.blockSize, [])) →
      StampedRows c.sizeofListHeader bytes rest a count →
      count < 256 →
      ∃ (s1 : MemState) (held1 : List Nat) (data1 count1 : Nat),
        MEM_WriteReadTest.read c bytes (rest ++ [{ blockSize := 0, poolSize := 0 }]) s a count
          = (none, s1, data1, count1) ∧
        Reachable c boot s1 held1 ∧
        view s1 = pre ++ (layout c rest a).map (fun p => (p.blockSize, p.anchor)) := by
  intro rest
  induction rest with
  | nil =>
    intro a pre pre0 s held count _ _ _ _ hr hview _ _
    refine ⟨s, held, a, count, ?_, hr, ?_⟩
    · simp [MEM_WriteReadTest.read]
    · simpa [layout] using hview
  | cons e rest ih =>
    intro a pre pre0 s held count hlen hinit hz hs hr hview hst hc
    have hez : e.blockSize ≠ 0 := hz e (by simp)
    have hes : e.poolSize < 256 := hs e (by simp)
    have hmod : e.poolSize % 256 = e.poolSize := Nat.mod_eq_of_lt hes
    obtain ⟨P, hlay, hPb, hPa⟩ := layout_cons c e rest a
    rw [hmod] at hlay hPa
    rw [hlay] at hinit ⊢
    obtain ⟨hst1, hst2⟩ := hst
    have hp0 : (MEM_Init c boot).2.memPools[pre.length]? = some P := by
      rw [hinit, ← hlen, List.getElem?_append_right (Nat.le_refl _), Nat.sub_self]
      exact List.getElem?_cons_zero
    simp only [List.map_cons] at hview
    obtain ⟨s1, held1, hread1, hr1, hv1⟩ :=
      readPool_ok c boot hv bytes pre _ e.blockSize P hp0 e.poolSize a [] s held count hr hview
        (by intro b hb; rw [hPa]; exact ⟨hb, by simp⟩) hst1 hc
    obtain ⟨s2, held2, data2, count2, hread2, hr2, hv2⟩ :=
      ih (a + e.poolSize * (e.blockSize + c.sizeofListHeader))
        (pre ++ [(e.blockSize, sliceAddrs (e.blockSize + c.sizeofListHeader) e.poolSize a)])
        (pre0 ++ [P]) s1 held1 ((count + e.poolSize) % 256)
        (by simp [hlen]) (by rw [hinit]; simp)
        (fun x hx => hz x (by simp [hx])) (fun x hx => hs x (by simp [hx])) hr1
        (by rw [hv1]; simp) hst2 (Nat.mod_lt _ (by decide))
    refine ⟨s2, held2, data2, count2, ?_, hr2, ?_⟩
    · simp only [List.cons_append, MEM_WriteReadTest.read]
      rw [if_neg hez, hread1]
      exact hread2
    · rw [hv2]
      simp [hPb, hPa]

theorem avail_view (c : Config) (boot : MemState) (hv : ValidConfig c)
    {s : MemState} {held : List Nat} (hr : Reachable c boot s held) (size : Nat) :
    (MEM_GetAvailableBlocks s size).1
      = (((view s).filter (fun x => decide (size ≤ x.1))).map (fun x => x.2.length)).sum := by
  have hl := reachable_linked c boot hv hr
  have hb := reachable_sum_lt c boot hv hr
  simp only [MEM_GetAvailableBlocks]
  rw [avail_loop size s.memPools 0 hl (by omega)]
  simp [view, List.filter_map, Function.comp_def]

theorem avail_loop_congr (size : Nat) : ∀ (l l1 : List pools_t) (acc : Nat),
    l.map (fun p => (p.blockSize, p.nextBlockSize, p.anchor))
      = l1.map (fun p => (p.blockSize, p.nextBlockSize, p.anchor)) →
    MEM_GetAvailableBlocks.loop size l acc = MEM_GetAvailableBlocks.loop size l1 acc := by
  intro l
  induction l with
  | nil =>
    intro l1 acc h
    cases l1 with
    | nil => rfl
    | cons q l1 => simp at h
  | cons p l ih =>
    intro l1 acc h
    cases l1 with
    | nil => simp at h
    | cons q l1 =>
      simp only [List.map_cons, List.cons.injEq, Prod.mk.injEq] at h
      obtain ⟨⟨h1, h2, h3⟩, h4⟩ := h
      simp only [MEM_GetAvailableBlocks.loop, h1, h2, h3]
      rw [ih l1 _ h4]

theorem resetPeaks_map {β : Type} (f : pools_t → β)
    (hf : ∀ p : pools_t,
      f { p with poolStatistics := { p.poolStatistics with allocatedBlocksPeak := 0 } } = f p) :
    ∀ (rows : List poolInfo_t) (pools : List pools_t),
      (MEM_WriteReadTest.resetPeaks rows pools).map f = pools.map f := by
  intro rows
  induction rows with
  | nil => intro pools; rfl
  | cons row rows ih =>
    intro pools
    cases pools with
    | nil => rfl
    | cons p ps =>
      simp only [MEM_WriteReadTest.resetPeaks]
      split
      · rfl
      · simp only [List.map_cons, hf, ih]

theorem view_of_maps : ∀ (l l1 : List pools_t),
    l.map (fun p => p.anchor) = l1.map (fun p => p.anchor) →
    l.map (fun p => p.blockSize) = l1.map (fun p => p.blockSize) →
    l.map (fun p => (p.blockSize, p.anchor)) = l1.map (fun p => (p.blockSize, p.anchor)) := by
  intro l
  induction l with
  | nil =>
    intro l1 h _
    cases l1 with
    | nil => rfl
    | cons q l1 => simp at h
  | cons p l ih =>
    intro l1 h h1
    cases l1 with
    | nil => simp at h
    | cons q l1 =>
      simp only [List.map_cons, List.cons.injEq] at h h1 ⊢
      exact ⟨by rw [h.1, h1.1], ih l1 h.2 h1.2⟩

/-- The self-test on a reachable state whose free lists are as `MEM_Init` left
them, for a table with fewer than 256 blocks per pool: the test returns
`MEM_SUCCESS_c`; the state after it is a reachable state with the same free
lists, in which the peaks are set to 0. -/
theorem selfTest_ok (c : Config) (boot : MemState) (hv : ValidConfig c)
    (hs : ∀ e ∈ c.PoolsDetails_c, e.poolSize < 256)
    {s : MemState} {held : List Nat} (hr : Reachable c boot s held)
    (hview : view s = view (MEM_Init c boot).2) (bytes : Nat → Nat) :
    ∃ (s2 : MemState) (held2 : List Nat) (bytes1 : Nat → Nat),
      Reachable c boot s2 held2 ∧ view s2 = view s ∧
      MEM_WriteReadTest c s bytes
        = (memStatus_t.MEM_SUCCESS_c,
            { s2 with memPools := MEM_WriteReadTest.resetPeaks (poolInfo c) s2.memPools },
            bytes1) := by
  have hinit := init_memPools c boot hv
  have hv0 : view (MEM_Init c boot).2
      = (layout c c.PoolsDetails_c c.memHeap).map (fun p => (p.blockSize, p.anchor)) := by
    simp only [view, hinit]
  obtain ⟨s1, held1, bytes1, count1, hw, hr1, hv1, hst, _⟩ :=
    write_ok c boot hv c.PoolsDetails_c c.memHeap [] s held bytes 1 (by simp) hv.2.1 hs hr
      (by rw [hview, hv0]; rfl) (by unfold heapSize_c; exact Nat.le_refl _) (by decide)
  obtain ⟨s2, held2, data2, count2, hread, hr2, hv2⟩ :=
    read_ok c boot hv bytes1 c.PoolsDetails_c c.memHeap [] [] s1 held1 1 rfl
      (by rw [hinit]; rfl) hv.2.1 hs hr1 hv1 hst (by decide)
  have hsame : view s2 = view s := by
    rw [hv2, hview, hv0]
    rfl
  have havail : (MEM_GetAvailableBlocks s2 0).1 = (MEM_GetAvailableBlocks s 0).1 := by
    rw [avail_view c boot hv hr2, avail_view c boot hv hr, hsame]
  refine ⟨s2, held2, bytes1, hr2, hsame, ?_⟩
  unfold MEM_WriteReadTest
  simp only [poolInfo]
  rw [hw]
  simp only
  rw [hread]
  simp only
  rw [if_neg (not_not.2 havail)]

theorem sorted_alloc_zero (c : Config) (boot : MemState) (hv : ValidConfig c)
    {s : MemState} {held : List Nat} (hr : Reachable c boot s held)
    (hview : view s = view (MEM_Init c boot).2) :
    ∀ q ∈ s.memPools, q.poolStatistics.allocatedBlocks = 0 := by
  intro q hq
  have hi := reachable_inv c boot hv hr
  obtain ⟨i, hi1⟩ := List.mem_iff_getElem?.1 hq
  obtain ⟨p0, hp0, _⟩ := shape_same _ hi.shape hi1
  obtain ⟨_, _, hcnt, _⟩ := hi.pools i q p0 hi1 hp0
  have h1 : (view s)[i]? = some (q.blockSize, q.anchor) := by simp [view, hi1]
  have h2 : (view (MEM_Init c boot).2)[i]? = some (p0.blockSize, p0.anchor) := by
    simp [view, hp0]
  rw [hview, h2] at h1
  simp only [Option.some.injEq, Prod.mk.injEq] at h1
  rw [h1.2] at hcnt
  omega

/-- C16 (self-test on a fresh heap): for every valid pool table (block sizes
not zero and strictly increasing) with at most 255 blocks per pool and every
content of the payload memory, `MEM_WriteReadTest` called right after `MEM_Init`
returns `MEM_SUCCESS_c`, leaves every pool's free list with the same blocks in
the same order as before the test, and every pool's `allocatedBlocks` is 0. -/
theorem C16_self_test_fresh (c : Config) (boot : MemState) (hv : ValidConfig c)
    (hs : ∀ e ∈ c.PoolsDetails_c, e.poolSize ≤ 255) (bytes : Nat → Nat) :
    (MEM_WriteReadTest c (MEM_Init c boot).2 bytes).1 = memStatus_t.MEM_SUCCESS_c ∧
    (MEM_WriteReadTest c (MEM_Init c boot).2 bytes).2.1.memPools.map (fun p => p.anchor)
      = (MEM_Init c boot).2.memPools.map (fun p => p.anchor) ∧
    ∀ p ∈ (MEM_WriteReadTest c (MEM_Init c boot).2 bytes).2.1.memPools,
      p.poolStatistics.allocatedBlocks = 0 := by
  obtain ⟨s2, held2, bytes1, hr2, hsame, htest⟩ :=
    selfTest_ok c boot hv (fun e he => Nat.lt_succ_of_le (hs e he)) Reachable.init rfl bytes
  rw [htest]
  refine ⟨rfl, ?_, ?_⟩
  · simp only
    rw [resetPeaks_map (fun p => p.anchor) (fun _ => rfl)]
    have := congrArg (List.map Prod.snd) hsame
    simpa [view, Function.comp_def] using this
  · intro p hp
    simp only at hp
    have hmap := resetPeaks_map (fun p => p.poolStatistics.allocatedBlocks) (fun _ => rfl)
      (poolInfo c) s2.memPools
    have hmem : p.poolStatistics.allocatedBlocks
        ∈ s2.memPools.map (fun p => p.poolStatistics.allocatedBlocks) := by
      rw [← hmap]
      exact List.mem_map.2 ⟨p, hp, rfl⟩
    obtain ⟨q, hq, e⟩ := List.mem_map.1 hmem
    rw [← e]
    exact sorted_alloc_zero c boot hv hr2 hsame q hq

/-- C16 on the example allocator, on a payload memory of zeros. -/
theorem C16_self_test_fresh_witness :
    ValidConfig exampleConfig ∧
    (∀ e ∈ exampleConfig.PoolsDetails_c, e.poolSize ≤ 255) ∧
    (MEM_WriteReadTest exampleConfig (MEM_Init exampleConfig exampleBoot).2 (fun _ => 0)).1
      = memStatus_t.MEM_SUCCESS_c :=
  ⟨by decide, by decide,
    (C16_self_test_fresh exampleConfig exampleBoot (by decide) (by decide) (fun _ => 0)).1⟩

/-- C13 as stated fails: the example allocator after `MEM_Init`, one
`MEM_BufferAlloc(16)` and the release of the block it returned is a reachable
state in which no block is allocated (6 blocks available); the free list of
pool 0 now starts at the second block, the read phase of `MEM_WriteReadTest`
finds the byte 4 where it expects 1, and the test returns `MEM_UNKNOWN_ERROR_c`
with all blocks still allocated (0 blocks available). -/
theorem C13_counterexample :
    Reachable exampleConfig exampleBoot exampleCycled [] ∧
    (∀ p ∈ exampleCycled.memPools, p.poolStatistics.allocatedBlocks = 0) ∧
    (MEM_WriteReadTest exampleConfig exampleCycled (fun _ => 0)).1
      = memStatus_t.MEM_UNKNOWN_ERROR_c ∧
    (MEM_GetAvailableBlocks exampleCycled 0).1 = 6 ∧
    (MEM_GetAvailableBlocks
      (MEM_WriteReadTest exampleConfig exampleCycled (fun _ => 0)).2.1 0).1 = 0 := by
  refine ⟨?_, by decide, by decide, by decide, by decide⟩
  have h := Reachable.free (MEM_BufferAlloc exampleConfig exampleInit 16).1
    (Reachable.alloc 16 (Reachable.init : Reachable exampleConfig exampleBoot _ _))
    (Or.inr (by decide))
  exact h

/-- C13 (self-test round trip), amended: for a valid table with at most 255
blocks per pool, in every reachable state in which every pool's free list
holds the blocks in the order `MEM_Init` left them (so no block is allocated),
`MEM_WriteReadTest` returns `MEM_SUCCESS_c` and `MEM_GetAvailableBlocks(0)` after
the test equals its value before the test. -/
theorem C13_self_test_round_trip (c : Config) (boot : MemState) (hv : ValidConfig c)
    (hs : ∀ e ∈ c.PoolsDetails_c, e.poolSize ≤ 255)
    {s : MemState} {held : List Nat} (hr : Reachable c boot s held)
    (horder : s.memPools.map (fun p => p.anchor)
      = (MEM_Init c boot).2.memPools.map (fun p => p.anchor)) (bytes : Nat → Nat) :
    (MEM_WriteReadTest c s bytes).1 = memStatus_t.MEM_SUCCESS_c ∧
    (MEM_GetAvailableBlocks (MEM_WriteReadTest c s bytes).2.1 0).1
      = (MEM_GetAvailableBlocks s 0).1 := by
  have hi := reachable_inv c boot hv hr
  have hview : view s = view (MEM_Init c boot).2 :=
    view_of_maps _ _ horder (blockSize_of_shape hi.shape)
  obtain ⟨s2, held2, bytes1, hr2, hsame, htest⟩ :=
    selfTest_ok c boot hv (fun e he => Nat.lt_succ_of_le (hs e he)) hr hview bytes
  rw [htest]
  refine ⟨rfl, ?_⟩
  have h1 : (MEM_GetAvailableBlocks s2 0).1 = (MEM_GetAvailableBlocks s 0).1 := by
    rw [avail_view c boot hv hr2, avail_view c boot hv hr, hsame]
  rw [← h1]
  simp only [MEM_GetAvailableBlocks]
  exact avail_loop_congr 0 _ _ 0
    (resetPeaks_map (fun p => (p.blockSize, p.nextBlockSize, p.anchor)) (fun _ => rfl) _ _)

/-- C13, amended, on the example allocator after a failed request of 100
bytes, which leaves the free lists as they were. -/
theorem C13_self_test_round_trip_witness :
    ValidConfig exampleConfig ∧
    (MEM_BufferAlloc exampleConfig exampleInit 100).2.memPools.map (fun p => p.anchor)
      = exampleInit.memPools.map (fun p => p.anchor) ∧
    (MEM_WriteReadTest exampleConfig (MEM_BufferAlloc exampleConfig exampleInit 100).2
      (fun _ => 0)).1 = memStatus_t.MEM_SUCCESS_c :=
  ⟨by decide, by decide,
    (C13_self_test_round_trip exampleConfig exampleBoot (by decide) (by decide)
      (Reachable.alloc 100 Reachable.init) (by decide) (fun _ => 0)).1⟩

/-! ## The ledger of the tracking build -/

theorem set_map_same {α β : Type} (f : α → β) {l : List α} {j : Nat}
    {p q : α} (hp : l[j]? = some p) (h : f q = f p) :
    (l.set j q).map f = l.map f := by
  rw [List.map_set, h]
  apply List.ext_getElem?
  intro n
  rw [List.getElem?_set]
  have hlt : j < l.length := (List.getElem?_eq_some.1 hp).1
  by_cases hn : j = n
  · subst hn
    have he := (List.getElem?_eq_some.1 hp).2
    simp [hlt, he]
  · simp [hn]

theorem sum_map_set {α : Type} (g : α → Nat) : ∀ (l : List α) (i : Nat) (a x : α),
    l[i]? = some x → ((l.set i a).map g).sum + g x = (l.map g).sum + g a := by
  intro l
  induction l with
  | nil => intro i a x h; simp at h
  | cons y l ih =>
    intro i a x h
    cases i with
    | zero =>
      simp only [List.getElem?_cons_zero, Option.some.injEq] at h
      subst h
      simp only [List.set_cons_zero, List.map_cons, List.sum_cons]
      omega
    | succ i =>
      simp only [List.getElem?_cons_succ] at h
      have := ih i a x h
      simp only [List.set_cons_succ, List.map_cons, List.sum_cons]
      omega

theorem mod_sum_le (t : List poolInfo_t) :
    (t.map fun e => e.poolSize % 256).sum ≤ (t.map fun e => e.poolSize).sum := by
  induction t with
  | nil => simp
  | cons e t ih =>
    simp only [List.map_cons, List.sum_cons]
    have := Nat.mod_le e.poolSize 256
    omega

theorem validTracking_of_lt (tc : TrackConfig) (hv : ValidConfig tc.toConfig)
    (htot : mTotalNoOfMsgs_d tc.toConfig < 65536) : ValidTracking tc := by
  refine ⟨hv, ?_⟩
  rw [Nat.mod_eq_of_lt htot]
  exact mod_sum_le tc.PoolsDetails_c

theorem talloc_fst (tc : TrackConfig) (t : TrackState) (n : Nat) :
    (Tracking.MEM_BufferAlloc tc t n).1 = (MEM_BufferAlloc tc.toConfig t.mem n).1 := by
  unfold Tracking.MEM_BufferAlloc
  simp only
  split
  · rename_i h; exact h.symm
  · rfl

theorem check_pools_beyond (c : Config) (p size : Nat) :
    ∀ (t : List poolInfo_t) (a : Nat),
      (∀ e ∈ t, (c.sizeofListHeader + e.blockSize) * e.poolSize < 2 ^ 32) →
      a + (t.map fun e => (c.sizeofListHeader + e.blockSize) * e.poolSize).sum ≤ p →
      MEM_BufferCheck.pools c p size (t ++ [{ blockSize := 0, poolSize := 0 }]) a = 0 := by
  intro t
  induction t with
  | nil => intro a _ _; simp [MEM_BufferCheck.pools]
  | cons e t ih =>
    intro a hw hp
    have hew : (c.sizeofListHeader + e.blockSize) * e.poolSize < 2 ^ 32 := hw e (by simp)
    have hcomm : c.sizeofListHeader + e.blockSize = e.blockSize + c.sizeofListHeader := by
      omega
    rw [hcomm] at hew
    simp only [List.map_cons, List.sum_cons, hcomm] at hp
    have hpb2 : ((e.blockSize + c.sizeofListHeader) % 2 ^ 32 * e.poolSize) % 2 ^ 32
        = (e.blockSize + c.sizeofListHeader) * e.poolSize := by
      rcases Nat.eq_zero_or_pos e.poolSize with h0 | h0
      · rw [h0]; simp
      · have hle : e.blockSize + c.sizeofListHeader
            ≤ (e.blockSize + c.sizeofListHeader) * e.poolSize :=
          Nat.le_mul_of_pos_right _ h0
        have hlt : e.blockSize + c.sizeofListHeader < 2 ^ 32 := by omega
        rw [Nat.mod_eq_of_lt hlt, Nat.mod_eq_of_lt hew]
    simp only [List.cons_append, MEM_BufferCheck.pools]
    split
    · rfl
    · rw [if_neg (by omega), hpb2]
      apply ih _ (fun x hx => hw x (by simp [hx]))
      have := Nat.zero_le
        (t.map fun e => (c.sizeofListHeader + e.blockSize) * e.poolSize).sum
      simp only [hcomm] at *
      omega

/-- C30 (bounds check outside the heap): for every valid table, every pointer
`p` below `memHeap`, above `memHeap + sizeof(memHeap)` or equal to it (one past
the end), and every `size`, `MEM_BufferCheck(p, size)` returns 0. -/
theorem C30_outside_heap (c : Config) (hv : ValidConfig c) (p size : Nat)
    (h : p < c.memHeap ∨ c.memHeap + heapSize_c c < p ∨ p = c.memHeap + heapSize_c c) :
    MEM_BufferCheck c p size = 0 := by
  unfold MEM_BufferCheck
  split
  · rfl
  · rename_i hguard
    have hp : p = c.memHeap + heapSize_c c := by
      rcases h with h | h | h
      · exact absurd (Or.inl h) hguard
      · exact absurd (Or.inr h) hguard
      · exact h
    have hheap : heapSize_c c < 2 ^ 32 := hv.2.2.2.2.2.2
    apply check_pools_beyond c p size
    · intro e he
      have := mem_le_sum (c.PoolsDetails_c.map fun e =>
        (c.sizeofListHeader + e.blockSize) * e.poolSize) _ (List.mem_map.mpr ⟨e, he, rfl⟩)
      unfold heapSize_c at hheap
      omega
    · rw [hp]
      exact Nat.le_refl _

/-- C30 on the example allocator: the pointer one past the end of the heap
(288 bytes from 4096 on), with size 1. -/
theorem C30_outside_heap_witness :
    ValidConfig exampleConfig ∧ 4384 = exampleConfig.memHeap + heapSize_c exampleConfig ∧
    MEM_BufferCheck exampleConfig 4384 1 = 0 :=
  ⟨by decide, by decide,
    C30_outside_heap exampleConfig (by decide) 4384 1 (Or.inr (Or.inr (by decide)))⟩

theorem alloc_zero (c : Config) (s : MemState) (p : pools_t) (rest : List pools_t)
    (hs : s.memPools = p :: rest) :
    MEM_BufferAlloc c s 0 = (0, { s with memPools := failedPool c p :: rest }) := by
  simp [MEM_BufferAlloc, hs, MEM_BufferAlloc.loop, MEM_BufferAlloc.fail, failedPool]

theorem allocTimes_zero (c : Config) (rest : List pools_t) :
    ∀ (k : Nat) (s : MemState) (p : pools_t), s.memPools = p :: rest →
      p.poolStatistics.allocationFailures < 2 ^ c.statBits →
      (allocTimes c 0 k s).memPools
        = { p with poolStatistics := { p.poolStatistics with
            allocationFailures :=
              (p.poolStatistics.allocationFailures + k) % 2 ^ c.statBits } } :: rest := by
  intro k
  induction k with
  | zero =>
    intro s p hs hlt
    simp only [allocTimes, hs, Nat.add_zero, Nat.mod_eq_of_lt hlt]
  | succ k ih =>
    intro s p hs hlt
    have hpos : 0 < 2 ^ c.statBits := by omega
    rw [allocTimes, alloc_zero c s p rest hs]
    rw [ih _ (failedPool c p) rfl (Nat.mod_lt _ hpos)]
    simp only [failedPool, Nat.mod_add_mod, Nat.add_assoc, Nat.add_comm 1 k]

/-- C27 as stated fails: in the example allocator with 16-bit counters, after
65535 requests of 0 bytes (a reachable state) the `allocationFailures` counter
of pool 0 is 65535; the next request of 0 bytes returns `NULL` and leaves the
counter at 0, not at 65536. -/
theorem C27_counterexample :
    (∃ held, Reachable exampleConfig exampleBoot
      (allocTimes exampleConfig 0 65535 exampleInit) held) ∧
    (allocTimes exampleConfig 0 65535 exampleInit).memPools.map
      (fun p => p.poolStatistics.allocationFailures) = [65535, 0] ∧
    (MEM_BufferAlloc exampleConfig (allocTimes exampleConfig 0 65535 exampleInit) 0).1 = 0 ∧
    (MEM_BufferAlloc exampleConfig
        (allocTimes exampleConfig 0 65535 exampleInit) 0).2.memPools.map
      (fun p => p.poolStatistics.allocationFailures) = [0, 0] := by
  have hinit : exampleInit.memPools = exampleInitPool0 :: [exampleInitPool1] := by decide
  have hk := allocTimes_zero exampleConfig [exampleInitPool1] 65535 exampleInit
    exampleInitPool0 hinit (by decide)
  refine ⟨reachable_allocTimes exampleConfig exampleBoot 0 65535 exampleInit []
    Reachable.init, ?_, ?_, ?_⟩
  · rw [hk]; decide
  · rw [alloc_zero exampleConfig _ _ _ hk]
  · rw [alloc_zero exampleConfig _ _ _ hk]
    decide

/-- C27 (zero-byte request), amended: in every allocator state (`p` the first
pool of `memPools`), `MEM_BufferAlloc(0)` returns `NULL`, leaves every free list,
the block headers, `gFreeMessagesCount` and every pool but the first as they
were, and changes in the first pool only `allocationFailures`, which is
incremented in the width `w` of the counter: it becomes `(old + 1) mod 2^w`,
that is `old + 1` unless it was at its maximum. -/
theorem C27_zero_request (c : Config) (s : MemState) (p : pools_t) (rest : List pools_t)
    (hs : s.memPools = p :: rest) :
    (MEM_BufferAlloc c s 0).1 = 0 ∧
    (MEM_BufferAlloc c s 0).2.memPools.map (fun q => q.anchor)
      = s.memPools.map (fun q => q.anchor) ∧
    (MEM_BufferAlloc c s 0).2.hdr = s.hdr ∧
    (MEM_BufferAlloc c s 0).2.gFreeMessagesCount = s.gFreeMessagesCount ∧
    (MEM_BufferAlloc c s 0).2.memPools
      = { p with poolStatistics := { p.poolStatistics with
            allocationFailures :=
              (p.poolStatistics.allocationFailures + 1) % 2 ^ c.statBits } } :: rest ∧
    (p.poolStatistics.allocationFailures + 1 < 2 ^ c.statBits →
      (p.poolStatistics.allocationFailures + 1) % 2 ^ c.statBits
        = p.poolStatistics.allocationFailures + 1) := by
  rw [alloc_zero c s p rest hs]
  refine ⟨rfl, ?_, rfl, rfl, rfl, fun hlt => Nat.mod_eq_of_lt hlt⟩
  rw [hs]
  rfl

/-- C27, amended, on the example allocator right after `MEM_Init`. -/
theorem C27_zero_request_witness :
    exampleInit.memPools = exampleInitPool0 :: [exampleInitPool1] ∧
    (MEM_BufferAlloc exampleConfig exampleInit 0).1 = 0 ∧
    (MEM_BufferAlloc exampleConfig exampleInit 0).2.memPools.map (fun q => q.anchor)
      = exampleInit.memPools.map (fun q => q.anchor) :=
  ⟨by decide,
    (C27_zero_request exampleConfig exampleInit exampleInitPool0 [exampleInitPool1]
      (by decide)).1,
    (C27_zero_request exampleConfig exampleInit exampleInitPool0 [exampleInitPool1]
      (by decide)).2.1⟩

theorem alloc_loop_last (c : Config) (hH : 0 < c.sizeofListHeader) (s : MemState) :
    ∀ (rest : List pools_t) (i m : Nat),
      Linked rest → (rest.map (fun p => p.blockSize)).Pairwise (fun a b => a < b) →
      m ≠ 0 → rest ≠ [] →
      (MEM_BufferAlloc.loop c s rest i m).1 = 0 →
      ∃ p, rest[rest.length - 1]? = some p ∧
        MEM_BufferAlloc.loop c s rest i m
          = (0, failedState c s (i + (rest.length - 1)) p) := by
  intro rest
  induction rest with
  | nil => intro i m _ _ _ h; exact absurd rfl h
  | cons p rest ih =>
    intro i m hl hpw hm _ h0
    have hfail : MEM_BufferAlloc.fail c s i p = (0, failedState c s i p) := rfl
    have hlast : rest = [] → ∃ q, (p :: rest)[(p :: rest).length - 1]? = some q ∧
        MEM_BufferAlloc.fail c s i p
          = (0, failedState c s (i + ((p :: rest).length - 1)) q) := by
      intro hr
      subst hr
      exact ⟨p, by simp, by simpa using hfail⟩
    have hnext : ∀ m1 : Nat, m1 ≠ 0 → rest ≠ [] →
        (MEM_BufferAlloc.loop c s rest (i + 1) m1).1 = 0 →
        ∃ q, (p :: rest)[(p :: rest).length - 1]? = some q ∧
          MEM_BufferAlloc.loop c s rest (i + 1) m1
            = (0, failedState c s (i + ((p :: rest).length - 1)) q) := by
      intro m1 hm1 hne h1
      have hl1 : Linked rest := by
        cases rest with
        | nil => exact absurd rfl hne
        | cons q r => exact hl.2.2
      have hpw1 := (List.pairwise_cons.1 hpw).2
      obtain ⟨q, hq, hres⟩ := ih (i + 1) m1 hl1 hpw1 hm1 hne h1
      have hlen : 0 < rest.length := List.length_pos.2 hne
      refine ⟨q, ?_, ?_⟩
      · have e : (p :: rest).length - 1 = (rest.length - 1) + 1 := by
          simp only [List.length_cons]; omega
        rw [e, List.getElem?_cons_succ]
        exact hq
      · rw [hres]
        have e : i + 1 + (rest.length - 1) = i + ((p :: rest).length - 1) := by
          simp only [List.length_cons]; omega
        rw [e]
    have hrest0 : p.nextBlockSize = 0 → rest = [] := by
      intro hz
      cases rest with
      | nil => rfl
      | cons q r =>
        have := hl.1
        have := hl.2.1
        omega
    have hrestne : p.nextBlockSize ≠ 0 → rest ≠ [] := by
      intro hz hr
      subst hr
      exact hz hl
    rw [MEM_BufferAlloc.loop] at h0 ⊢
    rw [if_neg hm] at h0 ⊢
    by_cases hle : m ≤ p.blockSize
    · rw [if_pos hle] at h0 ⊢
      cases ha : p.anchor with
      | cons b tl =>
        simp only [ha, ListRemoveHead] at h0
        omega
      | nil =>
        simp only [ha, ListRemoveHead] at h0 ⊢
        by_cases hgt : m > p.nextBlockSize
        · rw [if_pos hgt] at h0 ⊢
          apply hlast
          cases rest with
          | nil => rfl
          | cons q r =>
            have h1 := hl.1
            have h2 : p.blockSize < q.blockSize := by
              have := (List.pairwise_cons.1 hpw).1 q.blockSize (by simp)
              exact this
            omega
        · rw [if_neg hgt] at h0 ⊢
          by_cases hz : p.nextBlockSize ≠ 0
          · rw [if_pos hz] at h0 ⊢
            exact hnext _ hz (hrestne hz) h0
          · rw [if_neg hz] at h0 ⊢
            exact hlast (hrest0 (by omega))
    · rw [if_neg hle] at h0 ⊢
      by_cases hz : p.nextBlockSize ≠ 0
      · rw [if_pos hz] at h0 ⊢
        exact hnext _ hm (hrestne hz) h0
      · rw [if_neg hz] at h0 ⊢
        exact hlast (hrest0 (by omega))

/-- C28 (failure attribution): with a valid table (strictly increasing block
sizes), in every reachable state and for every request `numBytes > 0` for which
`MEM_BufferAlloc` returns `NULL`, the `allocationFailures` counter that is
incremented (in the width of the counter) is that of the last pool of
`memPools`, which has the largest block size; nothing else changes. -/
theorem C28_failure_attribution (c : Config) (boot : MemState) (hv : ValidConfig c)
    {s : MemState} {held : List Nat} (hr : Reachable c boot s held) (numBytes : Nat)
    (hn : numBytes ≠ 0) (h0 : (MEM_BufferAlloc c s numBytes).1 = 0) :
    ∃ p, s.memPools[s.memPools.length - 1]? = some p ∧ p.nextBlockSize = 0 ∧
      (∀ q ∈ s.memPools, q.blockSize ≤ p.blockSize) ∧
      (MEM_BufferAlloc c s numBytes).2.memPools
        = s.memPools.set (s.memPools.length - 1)
            { p with poolStatistics := { p.poolStatistics with
                allocationFailures :=
                  (p.poolStatistics.allocationFailures + 1) % 2 ^ c.statBits } } ∧
      (MEM_BufferAlloc c s numBytes).2.hdr = s.hdr ∧
      (MEM_BufferAlloc c s numBytes).2.gFreeMessagesCount = s.gFreeMessagesCount := by
  have hf := init_facts c boot hv
  have hi := reachable_inv c boot hv hr
  have hl := reachable_linked c boot hv hr
  have hpw := reachable_increasing c boot hv hr
  have hne : s.memPools ≠ [] := by
    intro e
    have := congrArg List.length hi.shape
    rw [e] at this
    simp only [List.map_nil, List.length_nil, List.length_map] at this
    exact hf.nonempty (List.length_eq_zero.1 this.symm)
  have hdef : MEM_BufferAlloc c s numBytes
      = MEM_BufferAlloc.loop c s s.memPools 0 numBytes := rfl
  rw [hdef] at h0 ⊢
  obtain ⟨p, hp, hres⟩ := alloc_loop_last c hf.hsize s s.memPools 0 numBytes hl hpw hn hne h0
  rw [hres]
  have hlen : 0 < s.memPools.length := List.length_pos.2 hne
  refine ⟨p, hp, ?_, ?_, ?_, rfl, rfl⟩
  · -- the last pool closes the chain
    have hlast : ∀ (l : List pools_t), Linked l → ∀ q, l[l.length - 1]? = some q →
        l ≠ [] → q.nextBlockSize = 0 := by
      intro l
      induction l with
      | nil => intro _ q _ h; exact absurd rfl h
      | cons a l ih =>
        intro hla q hq _
        cases l with
        | nil =>
          simp only [List.length_singleton, Nat.sub_self, List.getElem?_cons_zero,
            Option.some.injEq] at hq
          subst hq
          exact hla
        | cons b r =>
          have e : (a :: b :: r).length - 1 = ((b :: r).length - 1) + 1 := by
            simp only [List.length_cons]; omega
          rw [e, List.getElem?_cons_succ] at hq
          exact ih hla.2.2 q hq (by simp)
    exact hlast s.memPools hl p hp hne
  · intro q hq
    obtain ⟨j, hj⟩ := List.mem_iff_getElem?.1 hq
    have hjlt : j < s.memPools.length := (List.getElem?_eq_some.1 hj).1
    by_cases hjl : j = s.memPools.length - 1
    · rw [hjl, hp] at hj
      cases hj
      exact Nat.le_refl _
    · exact Nat.le_of_lt (increasing_index hpw hj hp (by omega))
  · simp only [failedState, failedPool, Nat.zero_add]

/-- C28 on the example allocator: a request of 100 bytes, larger than every
class, right after `MEM_Init`. -/
theorem C28_failure_attribution_witness :
    ValidConfig exampleConfig ∧
    (MEM_BufferAlloc exampleConfig exampleInit 100).1 = 0 ∧
    ∃ p, exampleInit.memPools[exampleInit.memPools.length - 1]? = some p ∧
      p.nextBlockSize = 0 :=
  ⟨by decide, by decide,
    (C28_failure_attribution exampleConfig exampleBoot (by decide)
      (Reachable.init : Reachable exampleConfig exampleBoot exampleInit [])
      100 (by decide) (by decide)).imp fun _ h => ⟨h.1, h.2.1⟩⟩

/-! ## The counter `gFreeMessagesCount` -/

theorem pools_gFree (c : Config) :
    ∀ (t : List poolInfo_t) (i pHeap : Nat) (hdr : Nat → listHeader_t) (g : Nat),
      t ≠ [] → (∀ e ∈ t, e.blockSize ≠ 0) → g < 65536 →
      (MEM_Init.pools c (t ++ [{ blockSize := 0, poolSize := 0 }]) i pHeap hdr g).2.2
        = (g + (t.map fun e => e.poolSize % 256).sum) % 65536 := by
  intro t
  induction t with
  | nil => intro i pHeap hdr g h; exact absurd rfl h
  | cons e t ih =>
    intro i pHeap hdr g _ hz hg
    cases t with
    | nil =>
      rw [List.cons_append, List.nil_append, pools_stop c e _ i pHeap hdr g rfl]
      simp only []
      rw [pool_gFree c i e pHeap hdr g hg]
      simp
    | cons e1 t1 =>
      have hz1 : e1.blockSize ≠ 0 := hz e1 (by simp)
      rw [List.cons_append, List.cons_append, pools_go c e e1 i pHeap hdr g hz1]
      simp only []
      rw [← List.cons_append, ih _ _ _ _ (by simp) (fun x hx => hz x (by simp [hx]))
        (by rw [pool_gFree c i e pHeap hdr g hg]; exact Nat.mod_lt _ (by decide)),
        pool_gFree c i e pHeap hdr g hg]
      simp only [List.map_cons, List.sum_cons]
      omega

theorem reachable_sum_le (c : Config) (boot : MemState) (hv : ValidConfig c)
    {s : MemState} {held : List Nat} (hr : Reachable c boot s held) :
    (s.memPools.map (fun p => p.anchor.length)).sum
      ≤ (c.PoolsDetails_c.map fun e => e.poolSize % 256).sum := by
  have hi := reachable_inv c boot hv hr
  have hlen : s.memPools.length = (MEM_Init c boot).2.memPools.length := by
    have := congrArg List.length hi.shape
    simpa using this
  have h1 := sum_le_pointwise (fun p => p.anchor.length) (fun p => p.anchor.length)
    s.memPools (MEM_Init c boot).2.memPools hlen
    (fun i p p0 hp hp0 => by
      have := (hi.pools i p p0 hp hp0).2.2.1
      show p.anchor.length ≤ p0.anchor.length
      omega)
  rw [init_memPools c boot hv, layout_lengths] at h1
  exact h1

theorem reachable_gFree (c : Config) (boot : MemState) (hv : ValidConfig c)
    (hfit : (c.PoolsDetails_c.map fun e => e.poolSize).sum < 65536)
    {s : MemState} {held : List Nat} (hr : Reachable c boot s held) :
    s.gFreeMessagesCount = (s.memPools.map (fun p => p.anchor.length)).sum := by
  have hf := init_facts c boot hv
  have hmod := mod_sum_le c.PoolsDetails_c
  induction hr with
  | init =>
    have h1 : (MEM_Init c boot).2.gFreeMessagesCount
        = (0 + (c.PoolsDetails_c.map fun e => e.poolSize % 256).sum) % 65536 :=
      pools_gFree c c.PoolsDetails_c 0 c.memHeap boot.hdr 0 hv.1 hv.2.1 (by decide)
    rw [h1, init_memPools c boot hv, layout_lengths, Nat.zero_add]
    exact Nat.mod_eq_of_lt (by omega)
  | @alloc s held numBytes hr ih =>
    have hle := reachable_sum_le c boot hv hr
    rcases alloc_cases c s numBytes with h | ⟨j, p, hp, h⟩ | ⟨j, p, b, tl, hp, ha, _, _, h⟩
    · rw [h]; exact ih
    · rw [h]
      simp only [failedState]
      rw [set_map_same (fun p => p.anchor.length) hp
        (rfl : (failedPool c p).anchor.length = p.anchor.length)]
      exact ih
    · rw [h]
      simp only [servedState]
      have hsum := sum_map_set (fun p : pools_t => p.anchor.length) s.memPools j
        (servedPool c p tl) p hp
      have h1 : (servedPool c p tl).anchor.length = tl.length := rfl
      have h2 : p.anchor.length = tl.length + 1 := by rw [ha]; rfl
      simp only [h1, h2] at hsum
      rw [ih]
      omega
  | @free s held buffer hr hlegal ih =>
    have hinv := reachable_inv c boot hv hr
    rcases hlegal with h0 | hmem
    · subst h0
      simpa [MEM_BufferFree] using ih
    · obtain ⟨j, p0, b, hp0, hb, e⟩ := mem_payloads hmem
      subst e
      obtain ⟨p, hp, ⟨_, h⟩ | ⟨_, h⟩⟩ := free_block_cases c hf hinv hp0 hb
      · rw [h]
        simp only
        rw [set_map_same (fun p => p.anchor.length) hp
          (rfl : (freeFailedPool c p).anchor.length = p.anchor.length)]
        exact ih
      · have hr1 := Reachable.free (b + c.sizeofListHeader) hr
          (Or.inr (payloads_mem hp0 hb))
        have hle := reachable_sum_le c boot hv hr1
        rw [h] at hle ⊢
        simp only [freedState] at hle ⊢
        have hsum := sum_map_set (fun p : pools_t => p.anchor.length) s.memPools j
          (freedPool c p b) p hp
        have h1 : (freedPool c p b).anchor.length = p.anchor.length + 1 := by
          simp [freedPool]
        simp only [h1] at hsum
        rw [ih]
        omega

/-- C25 (free-message counter): for a valid table whose total block count fits
in 16 bits, after `MEM_Init` and after every subsequent `MEM_BufferAlloc` /
`MEM_BufferFree` call (successful or not), `gFreeMessagesCount` equals the total
number of blocks in all free lists, which is `MEM_GetAvailableBlocks(0)`. -/
theorem C25_free_counter (c : Config) (boot : MemState) (hv : ValidConfig c)
    (hfit : (c.PoolsDetails_c.map fun e => e.poolSize).sum < 65536)
    {s : MemState} {held : List Nat} (hr : Reachable c boot s held) :
    s.gFreeMessagesCount = (s.memPools.map (fun p => ListGetSize p.anchor)).sum ∧
    s.gFreeMessagesCount = (MEM_GetAvailableBlocks s 0).1 := by
  have h1 := reachable_gFree c boot hv hfit hr
  refine ⟨h1, ?_⟩
  rw [h1, avail_view c boot hv hr 0]
  simp [view, Function.comp_def]

/-- C25 on the example allocator after one allocation: 5 free blocks. -/
theorem C25_free_counter_witness :
    ValidConfig exampleConfig ∧ exampleOne.gFreeMessagesCount = 5 ∧
    exampleOne.gFreeMessagesCount = (MEM_GetAvailableBlocks exampleOne 0).1 :=
  ⟨by decide, by decide,
    (C25_free_counter exampleConfig exampleBoot (by decide) (by decide)
      (Reachable.alloc 16 Reachable.init)).2⟩

/-! ## Allocation followed by release -/

theorem avail_lens (c : Config) (boot : MemState) (hv : ValidConfig c)
    {s : MemState} {held : List Nat} (hr : Reachable c boot s held) (size : Nat) :
    (MEM_GetAvailableBlocks s size).1
      = (((s.memPools.map fun p => (p.blockSize, p.anchor.length)).filter
          (fun x => decide (size ≤ x.1))).map (fun x => x.2)).sum := by
  have hl := reachable_linked c boot hv hr
  have hb := reachable_sum_lt c boot hv hr
  simp only [MEM_GetAvailableBlocks]
  rw [avail_loop size s.memPools 0 hl (by omega)]
  simp [List.filter_map, Function.comp_def]

theorem round_trip (c : Config) (boot : MemState) (hv : ValidConfig c)
    {s : MemState} {held : List Nat} (hr : Reachable c boot s held) (numBytes : Nat)
    (hne : (MEM_BufferAlloc c s numBytes).1 ≠ 0) :
    ∃ (j : Nat) (p : pools_t) (b : Nat) (tl : List Nat) (s2 : MemState) (held2 : List Nat),
      s.memPools[j]? = some p ∧ p.anchor = b :: tl ∧ b ∉ tl ∧
      (MEM_BufferAlloc c s numBytes).1 = b + c.sizeofListHeader ∧
      MEM_BufferFree c (MEM_BufferAlloc c s numBytes).2 (MEM_BufferAlloc c s numBytes).1
        = (memStatus_t.MEM_SUCCESS_c, s2) ∧
      Reachable c boot s2 held2 ∧
      s2.memPools = s.memPools.set j (freedPool c (servedPool c p tl) b) ∧
      (freedPool c (servedPool c p tl) b).poolStatistics.allocatedBlocks
        = p.poolStatistics.allocatedBlocks := by
  have hf := init_facts c boot hv
  have hi := reachable_inv c boot hv hr
  have hr1 := Reachable.alloc numBytes hr
  rcases alloc_cases c s numBytes with h | ⟨j, p, hp, h⟩ | ⟨j, p, b, tl, hp, ha, _, _, h⟩
  · rw [h] at hne; exact absurd rfl hne
  · rw [h] at hne; exact absurd rfl hne
  · rw [h] at hr1 ⊢
    simp only at hr1 ⊢
    obtain ⟨p0, hp0, _⟩ := shape_same _ hi.shape hp
    obtain ⟨hnd, hsub, _, _⟩ := hi.pools j p p0 hp hp0
    rw [ha] at hnd hsub
    have hb0 : b ∈ p0.anchor := hsub (by simp)
    have hbtl : b ∉ tl := (List.nodup_cons.1 hnd).1
    have hi1 := reachable_inv c boot hv hr1
    obtain ⟨p1, hp1, ⟨hin, _⟩ | ⟨_, hfree⟩⟩ := free_block_cases c hf hi1 hp0 hb0
    · have := (getElem?_set_some hp).1 hp1
      rcases this with ⟨_, e⟩ | ⟨hx, _⟩
      · subst e
        exact absurd hin hbtl
      · exact absurd rfl hx
    · have he : p1 = servedPool c p tl := by
        have := (getElem?_set_some hp).1 hp1
        rcases this with ⟨_, e⟩ | ⟨hx, _⟩
        · exact e
        · exact absurd rfl hx
      subst he
      have hr2 := Reachable.free (b + c.sizeofListHeader) hr1 (Or.inr (payloads_mem hp0 hb0))
      rw [hfree] at hr2
      have hcnt := (served_counters c boot hv hr hp ha).1
      have hlt : p.poolStatistics.allocatedBlocks < 2 ^ c.statBits := by
        have hsmall := hf.small p0 (List.getElem?_mem hp0)
        have hW := two_pow_statBits hf.bits
        have := (hi.pools j p p0 hp hp0).2.2.1
        omega
      refine ⟨j, p, b, tl, _, _, hp, ha, hbtl, rfl, hfree, hr2, ?_, ?_⟩
      · simp only [freedState, servedState, List.set_set]
      · simp only [freedPool, hcnt]
        have hpos : 0 < 2 ^ c.statBits := Nat.two_pow_pos _
        have e : p.poolStatistics.allocatedBlocks + 1 + (2 ^ c.statBits - 1)
            = p.poolStatistics.allocatedBlocks + 2 ^ c.statBits := by omega
        rw [e, Nat.add_mod_right]
        exact Nat.mod_eq_of_lt hlt

/-- C26 as stated fails: in the example allocator after three
`MEM_BufferAlloc(16)` the free list of pool 0 holds one block (header 4192); the
next `MEM_BufferAlloc(16)` returns it (4208) and the following `MEM_BufferFree`
succeeds, after which the freed block is the head of the free list of its
pool. -/
theorem C26_counterexample :
    (∃ held, Reachable exampleConfig exampleBoot exampleThree held) ∧
    (MEM_BufferAlloc exampleConfig exampleThree 16).1 = 4208 ∧
    (MEM_BufferFree exampleConfig (MEM_BufferAlloc exampleConfig exampleThree 16).2 4208).1
      = memStatus_t.MEM_SUCCESS_c ∧
    (MEM_BufferFree exampleConfig
        (MEM_BufferAlloc exampleConfig exampleThree 16).2 4208).2.memPools.map
      (fun p => p.anchor.head?) = [some (4208 - exampleConfig.sizeofListHeader), some 4224] := by
  refine ⟨reachable_allocTimes exampleConfig exampleBoot 16 3 exampleInit []
    Reachable.init, by decide, by decide, by decide⟩

/-- C26 (allocate-then-free round trip), amended: in every reachable state and
for every `numBytes` for which `p = MEM_BufferAlloc(numBytes)` is not `NULL`, the
immediately following `MEM_BufferFree(p)` returns `MEM_SUCCESS_c` and restores,
for every pool, the free-list length and `allocatedBlocks` (hence
`MEM_GetAvailableBlocks(size)` for every `size`); the block of `p`, which was the
head of the free list of its pool, is then the last element of that list, and
it is not the head when the list holds another block. -/
theorem C26_round_trip (c : Config) (boot : MemState) (hv : ValidConfig c)
    {s : MemState} {held : List Nat} (hr : Reachable c boot s held) (numBytes : Nat)
    (hne : (MEM_BufferAlloc c s numBytes).1 ≠ 0) :
    (MEM_BufferFree c (MEM_BufferAlloc c s numBytes).2 (MEM_BufferAlloc c s numBytes).1).1
      = memStatus_t.MEM_SUCCESS_c ∧
    (MEM_BufferFree c (MEM_BufferAlloc c s numBytes).2
        (MEM_BufferAlloc c s numBytes).1).2.memPools.map (fun q => ListGetSize q.anchor)
      = s.memPools.map (fun q => ListGetSize q.anchor) ∧
    (MEM_BufferFree c (MEM_BufferAlloc c s numBytes).2
        (MEM_BufferAlloc c s numBytes).1).2.memPools.map
        (fun q => q.poolStatistics.allocatedBlocks)
      = s.memPools.map (fun q => q.poolStatistics.allocatedBlocks) ∧
    (∀ size : Nat,
      (MEM_GetAvailableBlocks (MEM_BufferFree c (MEM_BufferAlloc c s numBytes).2
        (MEM_BufferAlloc c s numBytes).1).2 size).1 = (MEM_GetAvailableBlocks s size).1) ∧
    ∃ (j : Nat) (p q : pools_t) (tl : List Nat), s.memPools[j]? = some p ∧
      p.anchor = ((MEM_BufferAlloc c s numBytes).1 - c.sizeofListHeader) :: tl ∧
      (MEM_BufferFree c (MEM_BufferAlloc c s numBytes).2
        (MEM_BufferAlloc c s numBytes).1).2.memPools[j]? = some q ∧
      q.anchor = tl ++ [(MEM_BufferAlloc c s numBytes).1 - c.sizeofListHeader] ∧
      (tl ≠ [] →
        q.anchor.head? ≠ some ((MEM_BufferAlloc c s numBytes).1 - c.sizeofListHeader)) := by
  obtain ⟨j, p, b, tl, s2, held2, hp, ha, hbtl, hres, hfree, hr2, hpools, hcnt⟩ :=
    round_trip c boot hv hr numBytes hne
  rw [hfree, hres, Nat.add_sub_cancel]
  have hlen : (freedPool c (servedPool c p tl) b).anchor.length = p.anchor.length := by
    simp [freedPool, servedPool, ha]
  have hbs : (freedPool c (servedPool c p tl) b).blockSize = p.blockSize := rfl
  refine ⟨rfl, ?_, ?_, ?_, j, p, freedPool c (servedPool c p tl) b, tl, hp, ha, ?_, rfl, ?_⟩
  · rw [hpools]
    exact set_map_same (fun q : pools_t => ListGetSize q.anchor) hp hlen
  · rw [hpools]
    exact set_map_same (fun q => q.poolStatistics.allocatedBlocks) hp hcnt
  · intro size
    rw [avail_lens c boot hv hr2 size, avail_lens c boot hv hr size, hpools,
      set_map_same (fun q : pools_t => (q.blockSize, q.anchor.length)) hp
        (by simp only [hlen, hbs])]
  · rw [hpools]
    exact (getElem?_set_some hp).2 (Or.inl ⟨rfl, rfl⟩)
  · intro htl
    cases tl with
    | nil => exact absurd rfl htl
    | cons x r =>
      simp only [freedPool, servedPool, List.cons_append, List.head?_cons, ne_eq,
        Option.some.injEq]
      intro e
      exact hbtl (by rw [e]; simp)

/-- C26, amended, on the example allocator right after `MEM_Init`, request of 16
bytes. -/
theorem C26_round_trip_witness :
    ValidConfig exampleConfig ∧ (MEM_BufferAlloc exampleConfig exampleInit 16).1 ≠ 0 ∧
    (MEM_BufferFree exampleConfig (MEM_BufferAlloc exampleConfig exampleInit 16).2
      (MEM_BufferAlloc exampleConfig exampleInit 16).1).1 = memStatus_t.MEM_SUCCESS_c :=
  ⟨by decide, by decide,
    (C26_round_trip exampleConfig exampleBoot (by decide)
      (Reachable.init : Reachable exampleConfig exampleBoot exampleInit [])
      16 (by decide)).1⟩

/-! ## The order of the blocks handed out -/

theorem sliceAddrs_drop (d : Nat) : ∀ (a n base : Nat),
    (sliceAddrs d n base).drop a = sliceAddrs d (n - a) (base + a * d) := by
  intro a
  induction a with
  | zero => intro n base; simp
  | succ a ih =>
    intro n base
    cases n with
    | zero => simp [sliceAddrs]
    | succ n =>
      have e : base + d + a * d = base + (a + 1) * d := by ring
      simp only [sliceAddrs, List.drop_succ_cons, ih, Nat.add_sub_add_right, e]

theorem layout_anchor (c : Config) : ∀ (t : List poolInfo_t) (a k : Nat) (p0 : pools_t),
    (layout c t a)[k]? = some p0 →
    ∃ (e : poolInfo_t) (base : Nat), t[k]? = some e ∧ p0.blockSize = e.blockSize ∧
      p0.anchor = sliceAddrs (e.blockSize + c.sizeofListHeader) (e.poolSize % 256) base := by
  intro t
  induction t with
  | nil => intro a k p0 h; simp [layout] at h
  | cons e t ih =>
    intro a k p0 h
    cases k with
    | zero =>
      simp only [layout, List.getElem?_cons_zero, Option.some.injEq] at h
      subst h
      exact ⟨e, a, List.getElem?_cons_zero, rfl, rfl⟩
    | succ k =>
      simp only [layout, List.getElem?_cons_succ] at h
      obtain ⟨e1, base, h1, h2, h3⟩ := ih _ k p0 h
      exact ⟨e1, base, by simpa using h1, h2, h3⟩

theorem fifo_step (c : Config) (boot : MemState) (hv : ValidConfig c)
    {s : MemState} {held : List Nat} (hr : Reachable c boot s held)
    (hj : ∀ (k : Nat) (p p0 : pools_t), s.memPools[k]? = some p →
      (MEM_Init c boot).2.memPools[k]? = some p0 →
      p.anchor = p0.anchor.drop p.poolStatistics.allocatedBlocks) (n : Nat) :
    ∀ (k : Nat) (p p0 : pools_t), (MEM_BufferAlloc c s n).2.memPools[k]? = some p →
      (MEM_Init c boot).2.memPools[k]? = some p0 →
      p.anchor = p0.anchor.drop p.poolStatistics.allocatedBlocks := by
  intro k q q0 hq hq0
  rcases alloc_cases c s n with h | ⟨j, p, hp, h⟩ | ⟨j, p, b, tl, hp, ha, _, _, h⟩
  · rw [h] at hq
    exact hj k q q0 hq hq0
  · rw [h] at hq
    simp only [failedState] at hq
    rcases (getElem?_set_some hp).1 hq with ⟨hk, e⟩ | ⟨_, hq1⟩
    · subst hk
      subst e
      exact hj k p q0 hp hq0
    · exact hj k q q0 hq1 hq0
  · rw [h] at hq
    simp only [servedState] at hq
    rcases (getElem?_set_some hp).1 hq with ⟨hk, e⟩ | ⟨_, hq1⟩
    · subst hk
      subst e
      have h1 := hj k p q0 hp hq0
      have hcnt := (served_counters c boot hv hr hp ha).1
      rw [hcnt]
      rw [ha] at h1
      show tl = _
      have h2 := congrArg List.tail h1
      simp only [List.tail_cons, List.tail_drop] at h2
      exact h2
    · exact hj k q q0 hq1 hq0

theorem fifo_inv (c : Config) (boot : MemState) (hv : ValidConfig c) :
    ∀ (sizes : List Nat) (s : MemState) (held : List Nat), Reachable c boot s held →
      (∀ (k : Nat) (p p0 : pools_t), s.memPools[k]? = some p →
        (MEM_Init c boot).2.memPools[k]? = some p0 →
        p.anchor = p0.anchor.drop p.poolStatistics.allocatedBlocks) →
      (∃ held1, Reachable c boot (allocSeq c sizes s) held1) ∧
      ∀ (k : Nat) (p p0 : pools_t), (allocSeq c sizes s).memPools[k]? = some p →
        (MEM_Init c boot).2.memPools[k]? = some p0 →
        p.anchor = p0.anchor.drop p.poolStatistics.allocatedBlocks := by
  intro sizes
  induction sizes with
  | nil => intro s held hr hj; exact ⟨⟨held, hr⟩, hj⟩
  | cons n ns ih =>
    intro s held hr hj
    exact ih _ _ (Reachable.alloc n hr) (fifo_step c boot hv hr hj n)

theorem scan_some (r : PoolPtr) : ∀ (rest : List pools_t) (i k : Nat) (p : pools_t),
    MEM_BufferFree.scan r rest i = some (k, p) →
    r = PoolPtr.pool k ∧ i ≤ k ∧ rest[k - i]? = some p := by
  intro rest
  induction rest with
  | nil => intro i k p h; simp [MEM_BufferFree.scan] at h
  | cons p1 rest ih =>
    intro i k p h
    rw [MEM_BufferFree.scan] at h
    by_cases e : r = PoolPtr.pool i
    · rw [if_pos e] at h
      simp only [Option.some.injEq, Prod.mk.injEq] at h
      obtain ⟨h1, h2⟩ := h
      subst h1
      subst h2
      exact ⟨e, Nat.le_refl _, by simp⟩
    · rw [if_neg e] at h
      by_cases hn : p1.nextBlockSize = 0
      · rw [if_pos hn] at h
        cases h
      · rw [if_neg hn] at h
        obtain ⟨h1, h2, h3⟩ := ih (i + 1) k p h
        refine ⟨h1, by omega, ?_⟩
        have hsucc : k - i = (k - (i + 1)) + 1 := by omega
        rw [hsucc, List.getElem?_cons_succ]
        exact h3

theorem free_tail (c : Config) (s : MemState) (buffer : Nat)
    (h : (MEM_BufferFree c s buffer).1 = memStatus_t.MEM_SUCCESS_c) :
    ∃ (j : Nat) (p : pools_t), s.memPools[j]? = some p ∧
      (s.hdr (buffer - c.sizeofListHeader)).pParentPool = PoolPtr.pool j ∧
      (MEM_BufferFree c s buffer).2.memPools.map (fun q => q.anchor)
        = (s.memPools.map (fun q => q.anchor)).set j (p.anchor ++ [buffer - c.sizeofListHeader]) := by
  unfold MEM_BufferFree at h ⊢
  by_cases hb : buffer = 0
  · rw [if_pos hb] at h
    cases h
  · rw [if_neg hb] at h ⊢
    simp only at h ⊢
    cases hs : MEM_BufferFree.scan (s.hdr (buffer - c.sizeofListHeader)).pParentPool
        s.memPools 0 with
    | none =>
      rw [hs] at h
      cases h
    | some r =>
      obtain ⟨j, p⟩ := r
      rw [hs] at h
      dsimp only at h ⊢
      obtain ⟨h1, _, h3⟩ := scan_some _ _ _ _ _ hs
      rw [Nat.sub_zero] at h3
      by_cases hl : (s.hdr (buffer - c.sizeofListHeader)).list ≠ none
      · rw [if_pos hl] at h
        cases h
      · rw [if_neg hl]
        refine ⟨j, p, h3, h1, ?_⟩
        rw [List.map_set]
        rfl

/-- C29 (FIFO recycling): for a valid table, in every reachable state: a
`MEM_BufferAlloc` that returns a block returns the payload address of the head of
the free list of a pool and leaves that free list without its head, the other
free lists as they were; every `MEM_BufferFree` that returns `MEM_SUCCESS_c`
appends the header of the buffer at the tail of the free list of the pool the
header refers to and leaves the other free lists as they were, and
`MEM_BufferFree` of a block that is held returns `MEM_SUCCESS_c`. So after
`MEM_Init` and any sequence of `MEM_BufferAlloc` calls, the free list of every
pool is its list of blocks without the first `allocatedBlocks` ones; a further
`MEM_BufferAlloc` that is served by pool `k`, which has handed out `a` blocks so
far, returns the payload address
`base + a * (blockSize + sizeof(listHeader_t)) + sizeof(listHeader_t)`,
`base` being the first block of the pool: the successive allocations served by
one pool start at its first block and advance by `blockSize` plus the header
size, until the `poolSize % 256` blocks of the pool are used up. -/
theorem C29_fifo_order (c : Config) (boot : MemState) (hv : ValidConfig c)
    {s : MemState} {held : List Nat} (hr : Reachable c boot s held)
    (sizes : List Nat) (numBytes buffer : Nat) :
    ((MEM_BufferAlloc c s numBytes).1 ≠ 0 →
      ∃ (j : Nat) (p : pools_t) (b : Nat) (tl : List Nat), s.memPools[j]? = some p ∧
        p.anchor = b :: tl ∧ numBytes ≤ p.blockSize ∧
        (MEM_BufferAlloc c s numBytes).1 = b + c.sizeofListHeader ∧
        (MEM_BufferAlloc c s numBytes).2.memPools.map (fun q => q.anchor)
          = (s.memPools.map (fun q => q.anchor)).set j tl) ∧
    ((MEM_BufferFree c s buffer).1 = memStatus_t.MEM_SUCCESS_c →
      ∃ (j : Nat) (p : pools_t), s.memPools[j]? = some p ∧
        (s.hdr (buffer - c.sizeofListHeader)).pParentPool = PoolPtr.pool j ∧
        (MEM_BufferFree c s buffer).2.memPools.map (fun q => q.anchor)
          = (s.memPools.map (fun q => q.anchor)).set j
              (p.anchor ++ [buffer - c.sizeofListHeader])) ∧
    (buffer ∈ held → (MEM_BufferFree c s buffer).1 = memStatus_t.MEM_SUCCESS_c) ∧
    (∀ (k : Nat) (p p0 : pools_t),
      (allocSeq c sizes (MEM_Init c boot).2).memPools[k]? = some p →
      (MEM_Init c boot).2.memPools[k]? = some p0 →
      p.anchor = p0.anchor.drop p.poolStatistics.allocatedBlocks) ∧
    ((MEM_BufferAlloc c (allocSeq c sizes (MEM_Init c boot).2) numBytes).1 ≠ 0 →
      ∃ (k : Nat) (e : poolInfo_t) (base : Nat) (p p0 : pools_t),
        c.PoolsDetails_c[k]? = some e ∧
        (MEM_Init c boot).2.memPools[k]? = some p0 ∧
        p0.anchor = sliceAddrs (e.blockSize + c.sizeofListHeader) (e.poolSize % 256) base ∧
        (allocSeq c sizes (MEM_Init c boot).2).memPools[k]? = some p ∧
        p.poolStatistics.allocatedBlocks < e.poolSize % 256 ∧
        (MEM_BufferAlloc c (allocSeq c sizes (MEM_Init c boot).2) numBytes).1
          = base + p.poolStatistics.allocatedBlocks * (e.blockSize + c.sizeofListHeader)
              + c.sizeofListHeader ∧
        ∃ p1, (MEM_BufferAlloc c (allocSeq c sizes (MEM_Init c boot).2)
            numBytes).2.memPools[k]? = some p1 ∧
          p1.poolStatistics.allocatedBlocks = p.poolStatistics.allocatedBlocks + 1) := by
  have hf := init_facts c boot hv
  have hj0 : ∀ (k : Nat) (p p0 : pools_t), (MEM_Init c boot).2.memPools[k]? = some p →
      (MEM_Init c boot).2.memPools[k]? = some p0 →
      p.anchor = p0.anchor.drop p.poolStatistics.allocatedBlocks := by
    intro k p p0 hp hp0
    rw [hp] at hp0
    cases hp0
    rw [hf.stats p (List.getElem?_mem hp)]
    rfl
  obtain ⟨⟨held1, hr1⟩, hj⟩ := fifo_inv c boot hv sizes _ [] Reachable.init hj0
  refine ⟨?_, free_tail c s buffer, ?_, hj, ?_⟩
  · intro hne
    rcases alloc_cases c s numBytes with h | ⟨j, p, hp, h⟩ | ⟨j, p, b, tl, hp, ha, hle, _, h⟩
    · rw [h] at hne; exact absurd rfl hne
    · rw [h] at hne; exact absurd rfl hne
    · refine ⟨j, p, b, tl, hp, ha, hle, by rw [h], ?_⟩
      rw [h]
      simp only [servedState]
      rw [List.map_set]
      rfl
  · intro hq
    obtain ⟨j, p, p0, b, _, _, _, _, _, _, _, _, hfree⟩ := held_block c boot hv hr hq
    rw [hfree]
  intro hne
  have hi := reachable_inv c boot hv hr1
  rcases alloc_cases c (allocSeq c sizes (MEM_Init c boot).2) numBytes with
    h | ⟨j, p, hp, h⟩ | ⟨j, p, b, tl, hp, ha, _, _, h⟩
  · rw [h] at hne; exact absurd rfl hne
  · rw [h] at hne; exact absurd rfl hne
  · obtain ⟨p0, hp0, _⟩ := shape_same _ hi.shape hp
    have hp0l := hp0
    rw [init_memPools c boot hv] at hp0l
    obtain ⟨e, base, he, _, hanchor⟩ := layout_anchor c _ _ j p0 hp0l
    have h1 := hj j p p0 hp hp0
    rw [ha, hanchor, sliceAddrs_drop] at h1
    have hcnt := (served_counters c boot hv hr1 hp ha).1
    rw [h]
    cases hm : e.poolSize % 256 - p.poolStatistics.allocatedBlocks with
    | zero =>
      rw [hm] at h1
      simp [sliceAddrs] at h1
    | succ m =>
      rw [hm] at h1
      simp only [sliceAddrs, List.cons.injEq] at h1
      refine ⟨j, e, base, p, p0, he, hp0, hanchor, hp, by omega, ?_,
        servedPool c p tl, ?_, hcnt⟩
      · simp only
        rw [h1.1]
      · simp only [servedState]
        exact (getElem?_set_some hp).2 (Or.inl ⟨rfl, rfl⟩)

/-- C29 on the example allocator: after one request of 16 bytes, which returns
4112, `MEM_BufferFree(4112)` returns `MEM_SUCCESS_c` and puts the block at 4096
behind the three free blocks of pool 0; after two requests of 16 bytes, a third
one is served from the third block of pool 0. -/
theorem C29_fifo_order_witness :
    ValidConfig exampleConfig ∧
    (MEM_BufferAlloc exampleConfig (allocSeq exampleConfig [16, 16] exampleInit) 16).1
      = 4096 + 2 * (16 + 16) + 16 ∧
    (MEM_BufferAlloc exampleConfig (MEM_Init exampleConfig exampleBoot).2 16).1 = 4112 ∧
    (MEM_BufferFree exampleConfig
      (MEM_BufferAlloc exampleConfig (MEM_Init exampleConfig exampleBoot).2 16).2
      4112).2.memPools.map (fun q => q.anchor)
      = [[4128, 4160, 4192, 4096], [4224, 4304]] ∧
    (MEM_BufferFree exampleConfig
      (MEM_BufferAlloc exampleConfig (MEM_Init exampleConfig exampleBoot).2 16).2 4112).1
      = memStatus_t.MEM_SUCCESS_c ∧
    ∀ (k : Nat) (p p0 : pools_t),
      (allocSeq exampleConfig [16, 16] (MEM_Init exampleConfig exampleBoot).2).memPools[k]?
        = some p →
      (MEM_Init exampleConfig exampleBoot).2.memPools[k]? = some p0 →
      p.anchor = p0.anchor.drop p.poolStatistics.allocatedBlocks :=
  ⟨by decide, by decide, by decide, by decide,
    (C29_fifo_order exampleConfig exampleBoot (by decide)
      (Reachable.alloc 16 Reachable.init) [16, 16] 16 4112).2.2.1 (by decide),
    (C29_fifo_order exampleConfig exampleBoot (by decide)
      (Reachable.alloc 16 Reachable.init) [16, 16] 16 4112).2.2.2.1⟩

/-! ## The layout of the heap -/

theorem cursor_cons (c : Config) (e : poolInfo_t) (rest : List poolInfo_t) (i pHeap : Nat)
    (hdr : Nat → listHeader_t) (g : Nat) :
    MEM_Init.cursor c (e :: rest) i pHeap hdr g
      = if headBlockSize rest = 0 then (MEM_Init.pool c i e pHeap hdr g).pHeap
        else MEM_Init.cursor c rest (i + 1) (MEM_Init.pool c i e pHeap hdr g).pHeap
          (MEM_Init.pool c i e pHeap hdr g).hdr
          (MEM_Init.pool c i e pHeap hdr g).gFreeMessagesCount := rfl

theorem cursor_end (c : Config) :
    ∀ (t : List poolInfo_t) (i pHeap : Nat) (hdr : Nat → listHeader_t) (g : Nat),
      (∀ e ∈ t, e.blockSize ≠ 0) →
      MEM_Init.cursor c (t ++ [{ blockSize := 0, poolSize := 0 }]) i pHeap hdr g
        = pHeap + (t.map fun e =>
            (c.sizeofListHeader + e.blockSize) * (e.poolSize % 256)).sum := by
  intro t
  induction t with
  | nil =>
    intro i pHeap hdr g _
    rw [List.nil_append, cursor_cons, pool_pHeap]
    simp [headBlockSize]
  | cons e t ih =>
    intro i pHeap hdr g hz
    have hcomm : (c.sizeofListHeader + e.blockSize) * (e.poolSize % 256)
        = e.poolSize % 256 * (e.blockSize + c.sizeofListHeader) := by ring
    rw [List.cons_append, cursor_cons, pool_pHeap]
    simp only [List.map_cons, List.sum_cons, hcomm]
    cases t with
    | nil =>
      have h0 : headBlockSize (([] : List poolInfo_t) ++ [{ blockSize := 0, poolSize := 0 }])
          = 0 := rfl
      rw [if_pos h0]
      simp
    | cons e1 r =>
      have h1 : headBlockSize (e1 :: r ++ [{ blockSize := 0, poolSize := 0 }]) ≠ 0 :=
        hz e1 (by simp)
      rw [if_neg h1, ih _ _ _ _ (fun x hx => hz x (by simp [hx]))]
      simp only [List.map_cons, List.sum_cons]
      omega

theorem slice_apart {d : Nat} (hd : 0 < d) : ∀ (n a x y : Nat),
    x ∈ sliceAddrs d n a → y ∈ sliceAddrs d n a → x ≠ y → x + d ≤ y ∨ y + d ≤ x := by
  intro n
  induction n with
  | zero => intro a x y h; simp [sliceAddrs] at h
  | succ n ih =>
    intro a x y hx hy hne
    simp only [sliceAddrs, List.mem_cons] at hx hy
    rcases hx with hx | hx <;> rcases hy with hy | hy
    · exact absurd (hx.trans hy.symm) hne
    · have := (mem_sliceAddrs hd n (a + d) y hy).1
      left; omega
    · have := (mem_sliceAddrs hd n (a + d) x hx).1
      right; omega
    · exact ih (a + d) x y hx hy hne

theorem layout_apart (c : Config) (hH : 0 < c.sizeofListHeader) :
    ∀ (t : List poolInfo_t) (a k k1 : Nat) (p p1 : pools_t) (b b1 : Nat),
      (layout c t a)[k]? = some p → (layout c t a)[k1]? = some p1 →
      b ∈ p.anchor → b1 ∈ p1.anchor → (k ≠ k1 ∨ b ≠ b1) →
      b + (p.blockSize + c.sizeofListHeader) ≤ b1 ∨
      b1 + (p1.blockSize + c.sizeofListHeader) ≤ b := by
  intro t
  induction t with
  | nil => intro a k k1 p p1 b b1 h; simp [layout] at h
  | cons e t ih =>
    intro a k k1 p p1 b b1 hk hk1 hb hb1 hne
    have hd : 0 < e.blockSize + c.sizeofListHeader := by omega
    cases k with
    | zero =>
      simp only [layout, List.getElem?_cons_zero, Option.some.injEq] at hk
      subst hk
      simp only at hb ⊢
      have hend := sliceAddrs_block_end _ _ _ hb
      cases k1 with
      | zero =>
        simp only [layout, List.getElem?_cons_zero, Option.some.injEq] at hk1
        subst hk1
        simp only at hb1 ⊢
        rcases hne with h | h
        · exact absurd rfl h
        · exact slice_apart hd _ _ b b1 hb hb1 h
      | succ k1 =>
        simp only [layout, List.getElem?_cons_succ] at hk1
        have hlo := layout_lower c hH t _ p1 (List.getElem?_mem hk1) b1 hb1
        left; omega
    | succ k =>
      simp only [layout, List.getElem?_cons_succ] at hk
      cases k1 with
      | zero =>
        simp only [layout, List.getElem?_cons_zero, Option.some.injEq] at hk1
        subst hk1
        simp only at hb1 ⊢
        have hend := sliceAddrs_block_end _ _ _ hb1
        have hlo := layout_lower c hH t _ p (List.getElem?_mem hk) b hb
        right; omega
      | succ k1 =>
        simp only [layout, List.getElem?_cons_succ] at hk1
        exact ih _ k k1 p p1 b b1 hk hk1 hb hb1
          (by rcases hne with h | h
              · left; omega
              · right; exact h)

/-- The layout `MEM_Init` builds for a valid table: the cursor ends at
`memHeap` plus the sum of `(header size + blockSize) * (poolSize % 256)`, which
is `memHeap + heapSize_c` when every pool has fewer than 256 blocks; two
different blocks do not overlap; every block lies inside the heap. -/
theorem init_tiling (c : Config) (boot : MemState) (hv : ValidConfig c) :
    MEM_Init.cursor c (poolInfo c) 0 c.memHeap boot.hdr 0
      = c.memHeap + (c.PoolsDetails_c.map fun e =>
          (c.sizeofListHeader + e.blockSize) * (e.poolSize % 256)).sum ∧
    ((∀ e ∈ c.PoolsDetails_c, e.poolSize < 256) →
      MEM_Init.cursor c (poolInfo c) 0 c.memHeap boot.hdr 0 = c.memHeap + heapSize_c c) ∧
    (∀ (k k1 : Nat) (p p1 : pools_t) (b b1 : Nat),
      (MEM_Init c boot).2.memPools[k]? = some p → (MEM_Init c boot).2.memPools[k1]? = some p1 →
      b ∈ p.anchor → b1 ∈ p1.anchor → (k ≠ k1 ∨ b ≠ b1) →
      b + c.sizeofListHeader + p.blockSize ≤ b1 + c.sizeofListHeader ∨
      b1 + c.sizeofListHeader + p1.blockSize ≤ b + c.sizeofListHeader) ∧
    (∀ (k : Nat) (p : pools_t) (b : Nat), (MEM_Init c boot).2.memPools[k]? = some p →
      b ∈ p.anchor →
      c.memHeap ≤ b + c.sizeofListHeader ∧
      b + c.sizeofListHeader + p.blockSize ≤ c.memHeap + heapSize_c c) := by
  have hH : 0 < c.sizeofListHeader := hv.2.2.2.1
  have hcur := cursor_end c c.PoolsDetails_c 0 c.memHeap boot.hdr 0 hv.2.1
  refine ⟨hcur, ?_, ?_, ?_⟩
  · intro hs
    unfold poolInfo
    rw [hcur]
    unfold heapSize_c
    congr 2
    apply List.map_congr_left
    intro e he
    rw [Nat.mod_eq_of_lt (hs e he)]
  · intro k k1 p p1 b b1 hk hk1 hb hb1 hne
    rw [init_memPools c boot hv] at hk hk1
    have := layout_apart c hH _ _ k k1 p p1 b b1 hk hk1 hb hb1 hne
    omega
  · intro k p b hk hb
    rw [init_memPools c boot hv] at hk
    have hlo := layout_lower c hH _ _ p (List.getElem?_mem hk) b hb
    have hup := layout_upper c _ _ p (List.getElem?_mem hk) b hb
    unfold heapSize_c
    omega

/-- C22 fails on the valid table with one class of 256 blocks of 16 bytes
(16-byte headers, heap at 4096): the heap has `heapSize_c = 8192` bytes, but the
cursor of `MEM_Init` ends at offset 0 and no block is built, because `poolN`
receives `256 mod 256 = 0`. -/
theorem C22_cursor_stops_short :
    ValidConfig wideConfig ∧ heapSize_c wideConfig = 8192 ∧
    MEM_Init.cursor wideConfig (poolInfo wideConfig) 0 wideConfig.memHeap exampleBoot.hdr 0
      = wideConfig.memHeap ∧
    wideInit.memPools.map (fun p => p.anchor) = [[]] := by
  decide

/-! ## The result of `MEM_Track` -/

theorem track_find_cases (block : Nat) : ∀ (l : List blockTracking_t) (j : Nat),
    (MEM_Track.find block l j = none ∧ ∀ e ∈ l, e.blockAddr ≠ block) ∨
    (∃ (i : Nat) (e : blockTracking_t), l[i]? = some e ∧ e.blockAddr = block ∧
      (∀ (i1 : Nat) (e1 : blockTracking_t), l[i1]? = some e1 → i1 < i →
        e1.blockAddr ≠ block) ∧
      MEM_Track.find block l j = some (j + i)) := by
  intro l
  induction l with
  | nil => intro j; left; exact ⟨rfl, by simp⟩
  | cons y l ih =>
    intro j
    by_cases hy : block = y.blockAddr
    · right
      refine ⟨0, y, by simp, hy.symm, fun i1 e1 _ h => absurd h (Nat.not_lt_zero _), ?_⟩
      simp [MEM_Track.find, hy]
    · rcases ih (j + 1) with ⟨h1, h2⟩ | ⟨i, e, h1, h2, h3, h4⟩
      · left
        refine ⟨by rw [MEM_Track.find, if_neg hy, h1], ?_⟩
        intro e he
        simp only [List.mem_cons] at he
        rcases he with he | he
        · rw [he]; exact fun h => hy h.symm
        · exact h2 e he
      · right
        refine ⟨i + 1, e, by simpa using h1, h2, ?_, ?_⟩
        · intro i1 e1 hi1 hlt
          cases i1 with
          | zero =>
            simp only [List.getElem?_cons_zero, Option.some.injEq] at hi1
            rw [← hi1]
            exact fun h => hy h.symm
          | succ i1 =>
            simp only [List.getElem?_cons_succ] at hi1
            exact h3 i1 e1 hi1 (by omega)
        · rw [MEM_Track.find, if_neg hy, h4]
          congr 1
          omega

theorem take_getElem {α : Type} {l : List α} {n i : Nat} {x : α}
    (h : (l.take n)[i]? = some x) : l[i]? = some x := by
  rw [List.getElem?_take] at h
  split at h
  · exact h
  · simp at h

theorem track_result (tc : TrackConfig) (t : TrackState) (block : Nat)
    (alloc : memTrackingStatus_t) (requestedSize : Nat) :
    ((∀ e ∈ t.memTrack.take (mTotalNoOfMsgs_d tc.toConfig % 65536), e.blockAddr ≠ block) ∧
      MEM_Track tc t block alloc requestedSize = (false, t)) ∨
    (∃ (i : Nat) (e : blockTracking_t),
      (t.memTrack.take (mTotalNoOfMsgs_d tc.toConfig % 65536))[i]? = some e ∧
      e.blockAddr = block ∧
      (∀ (i1 : Nat) (e1 : blockTracking_t),
        (t.memTrack.take (mTotalNoOfMsgs_d tc.toConfig % 65536))[i1]? = some e1 → i1 < i →
        e1.blockAddr ≠ block) ∧
      ((e.allocStatus = alloc ∧ MEM_Track tc t block alloc requestedSize = (false, t)) ∨
       (e.allocStatus ≠ alloc ∧ (MEM_Track tc t block alloc requestedSize).1 = true ∧
        ∃ e1, (MEM_Track tc t block alloc requestedSize).2.memTrack = t.memTrack.set i e1 ∧
          e1.allocStatus = alloc ∧ e1.blockAddr = block ∧ e1.blockSize = e.blockSize))) := by
  rcases track_find_cases block (t.memTrack.take (mTotalNoOfMsgs_d tc.toConfig % 65536)) 0
    with ⟨h1, h2⟩ | ⟨i, e, h1, h2, h3, h4⟩
  · left
    refine ⟨h2, ?_⟩
    unfold MEM_Track
    simp only [h1]
  · right
    refine ⟨i, e, h1, h2, h3, ?_⟩
    have hi : t.memTrack[i]? = some e := take_getElem h1
    rw [Nat.zero_add] at h4
    by_cases hst : e.allocStatus = alloc
    · left
      refine ⟨hst, ?_⟩
      unfold MEM_Track
      simp only [h4, hi, hst, if_true]
    · right
      refine ⟨hst, ?_⟩
      unfold MEM_Track
      simp only [h4, hi, hst, if_false]
      split
      · exact ⟨rfl, _, rfl, rfl, h2, rfl⟩
      · exact ⟨rfl, _, rfl, rfl, h2, rfl⟩

/-- C21 as stated fails: in a tracking build whose table has 65536 blocks the
`uint16_t` constant `mTotalNoOfMsgs_c` is 0; right after `MEM_Init` the ledger
holds the entry of the block at 4112, marked free, yet
`MEM_Track(4112, MEM_TRACKING_ALLOC_c, ...)` returns `FALSE`. -/
theorem C21_counterexample :
    ValidConfig fullConfig.toConfig ∧
    mTotalNoOfMsgs_d fullConfig.toConfig % 65536 = 0 ∧
    (∃ e ∈ (Tracking.MEM_Init fullConfig exampleBoot).2.memTrack,
      e.blockAddr = 4112 ∧ e.allocStatus ≠ memTrackingStatus_t.MEM_TRACKING_ALLOC_c) ∧
    (MEM_Track fullConfig (Tracking.MEM_Init fullConfig exampleBoot).2 4112
      memTrackingStatus_t.MEM_TRACKING_ALLOC_c 16).1 = false := by
  decide

/-- C21 (tracking consistency fault), amended: `MEM_Track(block, status, ...)`
searches the first `mTotalNoOfMsgs_c` entries of the ledger (the number of
blocks of the table modulo 65536: all entries when the ledger is not longer). It
returns `FALSE` exactly when none of them has `blockAddr` equal to `block` or the
first of them that has already has the status `status`, and then it leaves the
ledger, the fragmentation statistics and everything else unchanged; in every
other case it returns `TRUE` and the entry gets the status `status`. -/
theorem C21_track_result (tc : TrackConfig) (t : TrackState) (block : Nat)
    (alloc : memTrackingStatus_t) (requestedSize : Nat) :
    ((MEM_Track tc t block alloc requestedSize).1 = false ↔
      ((∀ e ∈ t.memTrack.take (mTotalNoOfMsgs_d tc.toConfig % 65536), e.blockAddr ≠ block) ∨
       ∃ (i : Nat) (e : blockTracking_t),
        (t.memTrack.take (mTotalNoOfMsgs_d tc.toConfig % 65536))[i]? = some e ∧
        e.blockAddr = block ∧
        (∀ (i1 : Nat) (e1 : blockTracking_t),
          (t.memTrack.take (mTotalNoOfMsgs_d tc.toConfig % 65536))[i1]? = some e1 → i1 < i →
          e1.blockAddr ≠ block) ∧
        e.allocStatus = alloc)) ∧
    ((MEM_Track tc t block alloc requestedSize).1 = false →
      (MEM_Track tc t block alloc requestedSize).2 = t) ∧
    ((MEM_Track tc t block alloc requestedSize).1 = true →
      ∃ (i : Nat) (e e1 : blockTracking_t), t.memTrack[i]? = some e ∧ e.blockAddr = block ∧
        (MEM_Track tc t block alloc requestedSize).2.memTrack = t.memTrack.set i e1 ∧
        e1.allocStatus = alloc ∧ e1.blockAddr = block ∧ e1.blockSize = e.blockSize) ∧
    (t.memTrack.length ≤ mTotalNoOfMsgs_d tc.toConfig % 65536 →
      t.memTrack.take (mTotalNoOfMsgs_d tc.toConfig % 65536) = t.memTrack) := by
  refine ⟨?_, ?_, ?_, List.take_of_length_le⟩
  · rcases track_result tc t block alloc requestedSize with
      ⟨h1, h2⟩ | ⟨i, e, h1, h2, h3, ⟨h4, h5⟩ | ⟨h4, h5, _⟩⟩
    · rw [h2]
      exact ⟨fun _ => Or.inl h1, fun _ => rfl⟩
    · rw [h5]
      exact ⟨fun _ => Or.inr ⟨i, e, h1, h2, h3, h4⟩, fun _ => rfl⟩
    · rw [h5]
      constructor
      · intro h; exact absurd h (by decide)
      · intro h
        exfalso
        rcases h with h | ⟨i2, e2, g1, g2, g3, g4⟩
        · exact h e (List.getElem?_mem h1) h2
        · have hii : i2 = i := by
            rcases Nat.lt_trichotomy i2 i with hlt | heq | hgt
            · exact absurd g2 (h3 i2 e2 g1 hlt)
            · exact heq
            · exact absurd h2 (g3 i e h1 hgt)
          subst hii
          rw [g1] at h1
          cases h1
          exact h4 g4
  · intro hf
    rcases track_result tc t block alloc requestedSize with
      ⟨_, h2⟩ | ⟨i, e, _, _, _, ⟨_, h5⟩ | ⟨_, h5, _⟩⟩
    · rw [h2]
    · rw [h5]
    · rw [h5] at hf
      exact absurd hf (by decide)
  · intro ht
    rcases track_result tc t block alloc requestedSize with
      ⟨_, h2⟩ | ⟨i, e, h1, h2, _, ⟨_, h5⟩ | ⟨_, _, e1, g1, g2, g3, g4⟩⟩
    · rw [h2] at ht
      exact absurd ht (by simp)
    · rw [h5] at ht
      exact absurd ht (by simp)
    · exact ⟨i, e, e1, take_getElem h1, h2, g1, g2, g3, g4⟩

/-! ## The pseudo random number generator -/

theorem rng_fail (cfg : RngConfig) (st : RngState) (pOut : List Nat) (outBytes : Nat)
    (h : st.mPRNG_Requests = cfg.gRngMaxRequests_d) :
    RNG_GetPseudoRandomNo cfg st pOut outBytes none = (-1, st, pOut) := by
  unfold RNG_GetPseudoRandomNo
  simp only [Option.isSome_none, Bool.false_eq_true, if_false, h, if_true]
  rw [← h]

theorem rng_ok_fst (cfg : RngConfig) (st : RngState) (pOut : List Nat) (outBytes : Nat)
    (pXSEED : Option (List Nat))
    (h : (if pXSEED.isSome then 1 else st.mPRNG_Requests) ≠ cfg.gRngMaxRequests_d) :
    (RNG_GetPseudoRandomNo cfg st pOut outBytes pXSEED).1
      = ((if outBytes > 20 then 20 else outBytes : Nat) : Int) ∧
    (RNG_GetPseudoRandomNo cfg st pOut outBytes pXSEED).2.1.mPRNG_Requests
      = ((if pXSEED.isSome then 1 else st.mPRNG_Requests) + 1) % 2 ^ 32 := by
  unfold RNG_GetPseudoRandomNo
  rw [if_neg h]
  exact ⟨rfl, rfl⟩

theorem getTimes_counter (cfg : RngConfig) (hmax : cfg.gRngMaxRequests_d < 2 ^ 32)
    (outBytes : Nat) : ∀ (k : Nat) (st : RngState),
    st.mPRNG_Requests + k ≤ cfg.gRngMaxRequests_d →
    (getTimes cfg outBytes k st).mPRNG_Requests = st.mPRNG_Requests + k := by
  intro k
  induction k with
  | zero => intro st _; rfl
  | succ k ih =>
    intro st h
    have hne : (if (none : Option (List Nat)).isSome then 1 else st.mPRNG_Requests)
        ≠ cfg.gRngMaxRequests_d := by
      simp only [Option.isSome_none, Bool.false_eq_true, if_false]
      omega
    have h1 := (rng_ok_fst cfg st [] outBytes none hne).2
    simp only [Option.isSome_none, Bool.false_eq_true, if_false] at h1
    have h2 : (st.mPRNG_Requests + 1) % 2 ^ 32 = st.mPRNG_Requests + 1 :=
      Nat.mod_eq_of_lt (by omega)
    rw [getTimes, ih _ (by rw [h1, h2]; omega), h1, h2]
    omega

/-- C23 as stated fails: with `gRngMaxRequests_d = 100000`, a call with a user
seed in a state whose request counter is 5 returns 4 for `outBytes = 4` and
leaves the counter at 2, not at 6 (the counter is first reset to 1); and with
`gRngMaxRequests_d = 1` a call with a user seed returns -1 although `pXSEED` is
not `NULL`. -/
theorem C23_counterexample :
    rngFive.mPRNG_Requests = 5 ∧
    (RNG_GetPseudoRandomNo rngConfig rngFive [] 4 (some (List.replicate 20 0))).1 = 4 ∧
    (RNG_GetPseudoRandomNo rngConfig rngFive [] 4
      (some (List.replicate 20 0))).2.1.mPRNG_Requests = 2 ∧
    (RNG_GetPseudoRandomNo rngOne (RNG_SetPseudoRandomNoSeed (List.replicate 20 0)) [] 4
      (some (List.replicate 20 0))).1 = -1 := by
  decide

/-- C23 (PRNG return value), amended: for `2 <= gRngMaxRequests_d < 2^32` and
a request counter not above `gRngMaxRequests_d`, `RNG_GetPseudoRandomNo` returns
-1, leaving the seed key, the counter and `pOut` as they were, exactly when
`pXSEED` is `NULL` and the counter equals `gRngMaxRequests_d`, which is so at
start-up; in every other case it returns `min(outBytes, 20)` and the counter
becomes the old value plus 1 for `pXSEED == NULL` and 2 for a call with a user
seed (which resets it to 1 first); after `RNG_SetPseudoRandomNoSeed` the first
`gRngMaxRequests_d - 1` consecutive calls with `pXSEED == NULL` succeed and the
next one returns -1. -/
theorem C23_return_value (cfg : RngConfig) (hmax : 2 ≤ cfg.gRngMaxRequests_d)
    (hfit : cfg.gRngMaxRequests_d < 2 ^ 32) (st : RngState)
    (hst : st.mPRNG_Requests ≤ cfg.gRngMaxRequests_d)
    (pOut : List Nat) (outBytes : Nat) (pXSEED : Option (List Nat)) (pSeed : List Nat) :
    ((RNG_GetPseudoRandomNo cfg st pOut outBytes pXSEED).1 = -1 ↔
      (pXSEED = none ∧ st.mPRNG_Requests = cfg.gRngMaxRequests_d)) ∧
    ((RNG_GetPseudoRandomNo cfg st pOut outBytes pXSEED).1 = -1 →
      (RNG_GetPseudoRandomNo cfg st pOut outBytes pXSEED).2 = (st, pOut)) ∧
    ((RNG_GetPseudoRandomNo cfg st pOut outBytes pXSEED).1 ≠ -1 →
      (RNG_GetPseudoRandomNo cfg st pOut outBytes pXSEED).1 = ((min outBytes 20 : Nat) : Int) ∧
      (RNG_GetPseudoRandomNo cfg st pOut outBytes pXSEED).2.1.mPRNG_Requests
        = (if pXSEED.isSome then 1 else st.mPRNG_Requests) + 1 ∧
      (RNG_GetPseudoRandomNo cfg st pOut outBytes pXSEED).2.1.mPRNG_Requests
        ≤ cfg.gRngMaxRequests_d) ∧
    RNG_GetPseudoRandomNo cfg (rngBoot cfg) pOut outBytes none = (-1, rngBoot cfg, pOut) ∧
    (∀ k : Nat, k < cfg.gRngMaxRequests_d - 1 →
      (RNG_GetPseudoRandomNo cfg (getTimes cfg outBytes k (RNG_SetPseudoRandomNoSeed pSeed))
        pOut outBytes none).1 = ((min outBytes 20 : Nat) : Int)) ∧
    (RNG_GetPseudoRandomNo cfg
      (getTimes cfg outBytes (cfg.gRngMaxRequests_d - 1) (RNG_SetPseudoRandomNoSeed pSeed))
      pOut outBytes none).1 = -1 := by
  have hmin : ∀ n : Nat, (if n > 20 then 20 else n) = min n 20 := by
    intro n
    split <;> omega
  have hcase : (if pXSEED.isSome then 1 else st.mPRNG_Requests) = cfg.gRngMaxRequests_d ↔
      (pXSEED = none ∧ st.mPRNG_Requests = cfg.gRngMaxRequests_d) := by
    cases pXSEED with
    | none => simp
    | some x =>
      simp only [Option.isSome_some, if_true, reduceCtorEq, false_and, iff_false]
      omega
  have hseed : (RNG_SetPseudoRandomNoSeed pSeed).mPRNG_Requests = 1 := rfl
  refine ⟨?_, ?_, ?_, ?_, ?_, ?_⟩
  · by_cases h : (if pXSEED.isSome then 1 else st.mPRNG_Requests) = cfg.gRngMaxRequests_d
    · have h2 := hcase.1 h
      rw [h2.1, rng_fail cfg st pOut outBytes h2.2]
      exact ⟨fun _ => ⟨rfl, h2.2⟩, fun _ => rfl⟩
    · rw [(rng_ok_fst cfg st pOut outBytes pXSEED h).1]
      constructor
      · intro h1; omega
      · intro h1; exact absurd (hcase.2 h1) h
  · intro h1
    by_cases h : (if pXSEED.isSome then 1 else st.mPRNG_Requests) = cfg.gRngMaxRequests_d
    · have h2 := hcase.1 h
      rw [h2.1, rng_fail cfg st pOut outBytes h2.2]
    · rw [(rng_ok_fst cfg st pOut outBytes pXSEED h).1] at h1
      omega
  · intro h1
    by_cases h : (if pXSEED.isSome then 1 else st.mPRNG_Requests) = cfg.gRngMaxRequests_d
    · have h2 := hcase.1 h
      rw [h2.1, rng_fail cfg st pOut outBytes h2.2] at h1
      exact absurd rfl h1
    · obtain ⟨g1, g2⟩ := rng_ok_fst cfg st pOut outBytes pXSEED h
      have hlt : (if pXSEED.isSome then 1 else st.mPRNG_Requests) + 1
          ≤ cfg.gRngMaxRequests_d := by
        cases pXSEED with
        | none =>
          simp only [Option.isSome_none, Bool.false_eq_true, if_false] at h ⊢
          omega
        | some x =>
          simp only [Option.isSome_some, if_true]
          omega
      have hmod : ((if pXSEED.isSome then 1 else st.mPRNG_Requests) + 1) % 2 ^ 32
          = (if pXSEED.isSome then 1 else st.mPRNG_Requests) + 1 :=
        Nat.mod_eq_of_lt (by omega)
      rw [g1, g2, hmod, hmin]
      exact ⟨rfl, rfl, hlt⟩
  · apply rng_fail
    simp only [rngBoot]
    exact Nat.mod_eq_of_lt hfit
  · intro k hk
    have hc := getTimes_counter cfg hfit outBytes k (RNG_SetPseudoRandomNoSeed pSeed)
      (by rw [hseed]; omega)
    rw [hseed] at hc
    have hne : (if (none : Option (List Nat)).isSome then 1
        else (getTimes cfg outBytes k (RNG_SetPseudoRandomNoSeed pSeed)).mPRNG_Requests)
        ≠ cfg.gRngMaxRequests_d := by
      simp only [Option.isSome_none, Bool.false_eq_true, if_false, hc]
      omega
    rw [(rng_ok_fst cfg _ pOut outBytes none hne).1, hmin]
  · have hc := getTimes_counter cfg hfit outBytes (cfg.gRngMaxRequests_d - 1)
      (RNG_SetPseudoRandomNoSeed pSeed) (by rw [hseed]; omega)
    rw [hseed] at hc
    rw [rng_fail cfg _ pOut outBytes (by rw [hc]; omega)]

/-- C23, amended, on the build with `gRngMaxRequests_d = 100000`: the call right
after seeding, for 4 bytes. -/
theorem C23_return_value_witness :
    (2 ≤ rngConfig.gRngMaxRequests_d ∧ rngConfig.gRngMaxRequests_d < 2 ^ 32) ∧
    (RNG_SetPseudoRandomNoSeed (List.replicate 20 7)).mPRNG_Requests
      ≤ rngConfig.gRngMaxRequests_d ∧
    RNG_GetPseudoRandomNo rngConfig (rngBoot rngConfig) [] 4 none
      = (-1, rngBoot rngConfig, []) :=
  ⟨by decide, by decide,
    (C23_return_value rngConfig (by decide) (by decide)
      (RNG_SetPseudoRandomNoSeed (List.replicate 20 7)) (by decide) [] 4 none
      (List.replicate 20 7)).2.2.2.1⟩

theorem carry_words (f : List Nat → List Nat) :
    (RNG_GetPseudoRandomNo (rngWith f) carryState [] 20 none).1 = 20 ∧
    (RNG_GetPseudoRandomNo (rngWith f) carryState [] 20 none).2.1.XKEY
      = hashWords (rngWith f) ((List.range 20).map (byteOf carryState.XKEY)) := by
  have hr : List.range 5 = [0, 1, 2, 3, 4] := by decide
  unfold RNG_GetPseudoRandomNo
  have hne : (if (none : Option (List Nat)).isSome then 1 else carryState.mPRNG_Requests)
      ≠ (rngWith f).gRngMaxRequests_d := by
    show (1 : Nat) ≠ 100000
    decide
  rw [if_neg hne]
  refine ⟨rfl, ?_⟩
  simp only [hashWords, hr, List.map_cons, List.map_nil, carryState, List.getD_cons_zero,
    List.getD_cons_succ, List.cons.injEq, and_true]
  refine ⟨?_, ?_, ?_, ?_, ?_⟩ <;> simp

/-- C24 fails for the seed key whose word 0 is `0xFFFFFFFF`, whatever the hash
function returns: the call succeeds, and the new seed key is not
`(1 + XKEY + xj) mod 2^160`, neither with word 0 as the least significant word
of the 160-bit integers nor with word 0 as the most significant one. The five
words are added one by one as `uint32_t`, and the carry out of a word is
dropped. -/
theorem C24_carry_lost (f : List Nat → List Nat) :
    (RNG_GetPseudoRandomNo (rngWith f) carryState [] 20 none).1 = 20 ∧
    value160 (RNG_GetPseudoRandomNo (rngWith f) carryState [] 20 none).2.1.XKEY
      ≠ (1 + value160 carryState.XKEY
          + value160 (hashWords (rngWith f) ((List.range 20).map (byteOf carryState.XKEY))))
        % 2 ^ 160 ∧
    value160be (RNG_GetPseudoRandomNo (rngWith f) carryState [] 20 none).2.1.XKEY
      ≠ (1 + value160be carryState.XKEY
          + value160be (hashWords (rngWith f) ((List.range 20).map (byteOf carryState.XKEY))))
        % 2 ^ 160 := by
  have hr : List.range 5 = [0, 1, 2, 3, 4] := by decide
  obtain ⟨h1, h2⟩ := carry_words f
  rw [h2]
  refine ⟨h1, ?_, ?_⟩
  · simp only [value160, hashWords, hr, List.map_cons, List.map_nil, carryState,
      List.getD_cons_zero, List.getD_cons_succ]
    generalize ((rngWith f).SHA1_Hash _).getD 0 0 = a0
    generalize ((rngWith f).SHA1_Hash _).getD 1 0 = a1
    generalize ((rngWith f).SHA1_Hash _).getD 2 0 = a2
    generalize ((rngWith f).SHA1_Hash _).getD 3 0 = a3
    generalize ((rngWith f).SHA1_Hash _).getD 4 0 = a4
    norm_num
    omega
  · simp only [value160be, hashWords, hr, List.map_cons, List.map_nil, carryState,
      List.getD_cons_zero, List.getD_cons_succ]
    generalize ((rngWith f).SHA1_Hash _).getD 0 0 = a0
    generalize ((rngWith f).SHA1_Hash _).getD 1 0 = a1
    generalize ((rngWith f).SHA1_Hash _).getD 2 0 = a2
    generalize ((rngWith f).SHA1_Hash _).getD 3 0 = a3
    generalize ((rngWith f).SHA1_Hash _).getD 4 0 = a4
    norm_num
    omega

end MemManager
